import Mathlib

/-!
Verification of the Triton VM core against its source.

This file shallowly embeds the parts of the `triton-vm` crate that the
claims C1 .. C10 are about:

* `src/triton-vm/src/instruction.rs` — the instruction set, opcodes and
  opcode-derived predicates (C1, C2);
* `src/triton-vm/src/program.rs` — program encoding and decoding (C3, C9);
* `src/triton-vm/src/table/cross_table_argument.rs` — the permutation,
  evaluation and lookup cross-table arguments (C7);
* `src/triton-vm/src/proof.rs` — `Proof::padded_height` (C8);
* `src/triton-vm/src/aet.rs` — the table heights of an algebraic execution
  trace (C10);
* `src/triton-vm/src/table/constraint_circuit.rs` — the constraint-circuit
  builder, constant folding and degree lowering (C4, C5, C6).

Machine integers are embedded as `Nat` / `Fin`; the base field of the VM is
`Fin P` for the 64-bit Goldilocks prime `P`.  Fallible Rust code
(`Result` / `bail!` / `ensure_eq!` panics) is embedded with `Except` or
`Option`.
-/

set_option maxRecDepth 8000

namespace TritonSpec

/-- The order of the base field used by Triton VM
(`BFieldElement::P = 2^64 - 2^32 + 1` from the external `twenty_first`
field collaborator). -/
def P : Nat := 18446744069414584321

theorem P_pos : 0 < P := by norm_num [P]

instance : NeZero P := ⟨by norm_num [P]⟩

/-- A base-field element, `BFieldElement`: an integer modulo `P`. -/
abbrev BFE := Fin P

/-- `BFieldElement::new`: reduce an integer modulo `P`. -/
def bfe (n : Nat) : BFE := ⟨n % P, Nat.mod_lt _ P_pos⟩

/-- An operational-stack register index, `OpStackElement` from
`op_stack.rs` (`ST0` .. `ST15`).  The file `op_stack.rs` is not part of the
sources under inspection; modelled from the spec: the operational stack has
an always-accessible top-16 window, and `dup`/`swap` arguments above 15 are
rejected. -/
abbrev OpStackElement := Fin 16

/-- `impl From<&OpStackElement> for BFieldElement`. -/
def OpStackElement.toBFE (x : OpStackElement) : BFE :=
  ⟨x.val, lt_trans x.isLt (by norm_num [P])⟩

/-- `impl TryFrom<u64> for OpStackElement`: indices `0 ..= 15` convert,
anything larger is rejected. -/
def OpStackElement.tryFromNat (v : Nat) : Option OpStackElement :=
  if h : v < 16 then some ⟨v, h⟩ else none

/-- `AnInstruction<Dest>` from `instruction.rs`: the 38 Triton VM
instructions.  The type parameter `Dest` is the type of `call` addresses
(absolute addresses or labels). -/
inductive AnInstruction (Dest : Type) where
  | Pop
  | Push (arg : BFE)
  | Divine
  | Dup (arg : OpStackElement)
  | Swap (arg : OpStackElement)
  | Nop
  | Skiz
  | Call (dest : Dest)
  | Return
  | Recurse
  | Assert
  | Halt
  | ReadMem
  | WriteMem
  | Hash
  | DivineSibling
  | AssertVector
  | AbsorbInit
  | Absorb
  | Squeeze
  | Add
  | Mul
  | Invert
  | Eq
  | Split
  | Lt
  | And
  | Xor
  | Log2Floor
  | Pow
  | Div
  | PopCount
  | XxAdd
  | XxMul
  | XInvert
  | XbMul
  | ReadIo
  | WriteIo
  deriving DecidableEq

/-- `Instruction`: `call` addresses are absolute (base-field elements). -/
abbrev Instruction := AnInstruction BFE

namespace AnInstruction

variable {Dest : Type}

/-- `AnInstruction::opcode`: the unique opcode of each instruction. -/
def opcode : AnInstruction Dest → Nat
  | Pop => 2
  | Push _ => 1
  | Divine => 8
  | Dup _ => 9
  | Swap _ => 17
  | Nop => 16
  | Skiz => 10
  | Call _ => 25
  | Return => 24
  | Recurse => 32
  | Assert => 18
  | Halt => 0
  | ReadMem => 40
  | WriteMem => 26
  | Hash => 48
  | DivineSibling => 56
  | AssertVector => 64
  | AbsorbInit => 72
  | Absorb => 80
  | Squeeze => 88
  | Add => 34
  | Mul => 42
  | Invert => 96
  | Eq => 50
  | Split => 4
  | Lt => 6
  | And => 14
  | Xor => 22
  | Log2Floor => 12
  | Pow => 30
  | Div => 20
  | PopCount => 28
  | XxAdd => 104
  | XxMul => 112
  | XInvert => 120
  | XbMul => 58
  | ReadIo => 128
  | WriteIo => 66

/-- `AnInstruction::opcode_b`: the opcode as a base-field element. -/
def opcode_b (i : AnInstruction Dest) : BFE := bfe i.opcode

/-- `AnInstruction::size`: double-word instructions (`push`, `dup`, `swap`,
`call`) occupy two slots, all others one. -/
def size : AnInstruction Dest → Nat
  | Push _ | Dup _ | Swap _ | Call _ => 2
  | _ => 1

theorem size_pos (i : AnInstruction Dest) : 0 < i.size := by
  cases i <;> simp [size]

end AnInstruction

namespace Instruction

open AnInstruction

/-- `Instruction::arg`: the argument of the instruction, if it has one. -/
def arg : Instruction → Option BFE
  | Push a => some a
  | Call a => some a
  | Dup a => some a.toBFE
  | Swap a => some a.toBFE
  | _ => none

/-- `Instruction::has_arg`: `true` iff the instruction has an argument. -/
def has_arg (i : Instruction) : Bool := i.arg.isSome

/-- `Instruction::shrinks_op_stack`. -/
def shrinks_op_stack : Instruction → Bool
  | .Pop | .Skiz | .Assert => true
  | .WriteMem | .WriteIo => true
  | .Add | .Mul | .Eq | .XbMul => true
  | .And | .Xor | .Lt | .Pow => true
  | _ => false

/-- `Instruction::is_u32_instruction`. -/
def is_u32_instruction : Instruction → Bool
  | .Split | .Lt | .And | .Xor | .Log2Floor | .Pow | .Div | .PopCount => true
  | _ => false

/-- `Instruction::change_arg`: change the argument of the instruction, if it
has one; `none` if the instruction has no argument or the argument is out of
range for `dup`/`swap`. -/
def change_arg (i : Instruction) (new_arg : BFE) : Option Instruction :=
  match i with
  | Push _ => some (Push new_arg)
  | Dup _ =>
    match OpStackElement.tryFromNat new_arg.val with
    | some ord_16 => some (Dup ord_16)
    | none => none
  | Swap _ =>
    match OpStackElement.tryFromNat new_arg.val with
    | some ord_16 => some (Swap ord_16)
    | none => none
  | Call _ => some (Call new_arg)
  | _ => none

end Instruction

open AnInstruction

/-- `ALL_INSTRUCTIONS` (`all_instructions_without_args`): the 38 instruction
variants with default arguments, in declaration order (the order of
`Instruction::iter()`). -/
def ALL_INSTRUCTIONS : List Instruction :=
  [Pop, Push (bfe 0), Divine, Dup 0, Swap 0, Nop, Skiz, Call (bfe 0),
   Return, Recurse, Assert, Halt, ReadMem, WriteMem, Hash, DivineSibling,
   AssertVector, AbsorbInit, Absorb, Squeeze, Add, Mul, Invert, Eq, Split,
   Lt, And, Xor, Log2Floor, Pow, Div, PopCount, XxAdd, XxMul, XInvert,
   XbMul, ReadIo, WriteIo]

/-- `OPCODE_TO_INSTRUCTION_MAP`: the map from opcodes to (default-argument)
instructions, built by inserting `(i.opcode(), i)` for every instruction of
`Instruction::iter()`.  Embedded as an association list; all keys are
distinct, so lookup agrees with the `HashMap`. -/
def OPCODE_TO_INSTRUCTION_MAP : List (Nat × Instruction) :=
  ALL_INSTRUCTIONS.map fun i => (i.opcode, i)

instance {e a : Type} [DecidableEq e] [DecidableEq a] : DecidableEq (Except e a)
  | .ok x, .ok y =>
    if h : x = y then isTrue (by rw [h])
    else isFalse (by intro hh; cases hh; exact h rfl)
  | .error x, .error y =>
    if h : x = y then isTrue (by rw [h])
    else isFalse (by intro hh; cases hh; exact h rfl)
  | .ok _, .error _ => isFalse (by intro hh; cases hh)
  | .error _, .ok _ => isFalse (by intro hh; cases hh)

/-- `impl TryFrom<u32> for Instruction`: look the opcode up in
`OPCODE_TO_INSTRUCTION_MAP`. -/
def Instruction.tryFromOpcode (opc : Nat) : Except String Instruction :=
  match OPCODE_TO_INSTRUCTION_MAP.lookup opc with
  | some i => .ok i
  | none => .error "No instruction with opcode exists."

/-- C1: for every instruction, opcode bit 0 is set iff the instruction has
an argument, opcode bit 1 is set iff it shrinks the operational stack, and
opcode bit 2 is set iff it is a u32-coprocessor instruction
(`instruction.rs`, `opcode` / `has_arg` / `shrinks_op_stack` /
`is_u32_instruction`). -/
theorem opcode_bit_semantics (i : Instruction) :
    (i.opcode &&& 1 ≠ 0 ↔ i.has_arg = true) ∧
    (i.opcode &&& 2 ≠ 0 ↔ i.shrinks_op_stack = true) ∧
    (i.opcode &&& 4 ≠ 0 ↔ i.is_u32_instruction = true) := by
  cases i <;>
    simp [AnInstruction.opcode, Instruction.has_arg, Instruction.arg,
      Instruction.shrinks_op_stack, Instruction.is_u32_instruction] <;>
    decide

/-- C2 counterexample: the opcode round-trip fails for instructions whose
argument is not the default.  `Push 7` and `Push 0` are distinct
instructions sharing opcode `1`, and `Instruction::try_from(opcode(Push 7))`
returns `Ok(Push 0)`, not `Ok(Push 7)`. -/
theorem opcode_roundtrip_counterexample :
    Instruction.tryFromOpcode (AnInstruction.Push (bfe 7) : Instruction).opcode ≠
      .ok (AnInstruction.Push (bfe 7)) ∧
    (AnInstruction.Push (bfe 7) : Instruction) ≠ AnInstruction.Push (bfe 0) ∧
    (AnInstruction.Push (bfe 7) : Instruction).opcode =
      (AnInstruction.Push (bfe 0) : Instruction).opcode := by
  decide

/-- C2 (amended): for every instruction carrying the default argument
(i.e. every entry of `ALL_INSTRUCTIONS`, the image of `Instruction::iter()`),
converting its opcode back recovers the instruction, and no two distinct
such instructions share an opcode — the opcode-to-instruction map is a
bijection between the 38 opcodes and the 38 default-argument instructions. -/
theorem opcode_roundtrip_default_args :
    (∀ i ∈ ALL_INSTRUCTIONS, Instruction.tryFromOpcode i.opcode = .ok i) ∧
    (∀ i ∈ ALL_INSTRUCTIONS, ∀ j ∈ ALL_INSTRUCTIONS,
      i.opcode = j.opcode → i = j) := by
  decide

/-- Witness for C2 (amended) at the concrete instruction `Pop`. -/
theorem opcode_roundtrip_default_args_witness :
    Instruction.tryFromOpcode (AnInstruction.Pop : Instruction).opcode =
      .ok AnInstruction.Pop :=
  opcode_roundtrip_default_args.1 AnInstruction.Pop (by decide)

/-! ## Programs (`program.rs`): encoding, decoding, address alignment -/

/-- `LabelledInstruction` from `instruction.rs`: an instruction whose `call`
target is a label name, or a label declaration. -/
inductive LabelledInstruction where
  | Instruction (instr : AnInstruction String)
  | Label (name : String)

/-- `AnInstruction::map_call_address`, with a fallible mapping function (the
Rust closure panics on a missing label; this is modelled with `Option`). -/
def AnInstruction.map_call_address {D D' : Type} (f : D → Option D') :
    AnInstruction D → Option (AnInstruction D')
  | Pop => some Pop
  | Push x => some (Push x)
  | Divine => some Divine
  | Dup x => some (Dup x)
  | Swap x => some (Swap x)
  | Nop => some Nop
  | Skiz => some Skiz
  | Call label => (f label).map Call
  | Return => some Return
  | Recurse => some Recurse
  | Assert => some Assert
  | Halt => some Halt
  | ReadMem => some ReadMem
  | WriteMem => some WriteMem
  | Hash => some Hash
  | DivineSibling => some DivineSibling
  | AssertVector => some AssertVector
  | AbsorbInit => some AbsorbInit
  | Absorb => some Absorb
  | Squeeze => some Squeeze
  | Add => some Add
  | Mul => some Mul
  | Invert => some Invert
  | Eq => some Eq
  | Split => some Split
  | Lt => some Lt
  | And => some And
  | Xor => some Xor
  | Log2Floor => some Log2Floor
  | Pow => some Pow
  | Div => some Div
  | PopCount => some PopCount
  | XxAdd => some XxAdd
  | XxMul => some XxMul
  | XInvert => some XInvert
  | XbMul => some XbMul
  | ReadIo => some ReadIo
  | WriteIo => some WriteIo

/-- Pass 1 of `convert_labels`: build the label-to-address map.  The most
recent `HashMap::insert` wins, so the map is consed in front and looked up
front-to-back after reversal of the build order (here: cons newest first
and use `List.lookup`, which finds the newest binding). -/
def buildLabelMap : List LabelledInstruction → Nat → List (String × Nat)
  | [], _ => []
  | .Label name :: rest, ip => buildLabelMap rest ip ++ [(name, ip)]
  | .Instruction instr :: rest, ip => buildLabelMap rest (ip + instr.size)

/-- Look a label up the way `HashMap::get` sees it after the inserts of
`buildLabelMap` (the most recent insert for a duplicate label wins). -/
def lookupLabel (m : List (String × Nat)) (name : String) : Option Nat :=
  m.reverse.lookup name

/-- `convert_labels_helper`: a label produces no instruction; an instruction
has its `call` target resolved through the label map (`None` models the Rust
panic on a missing label). -/
def convert_labels_helper (i : LabelledInstruction) (m : List (String × Nat)) :
    Option (List Instruction) :=
  match i with
  | .Label _ => some []
  | .Instruction instr =>
    (instr.map_call_address fun name =>
      (lookupLabel m name).map fun a => bfe a).map fun unlabelled => [unlabelled]

/-- `convert_labels` (pass 1 + pass 2): convert a labelled program into a
vector of instructions with absolute `call` addresses. -/
def convert_labels (program : List LabelledInstruction) : Option (List Instruction) :=
  let m := buildLabelMap program 0
  let rec go : List LabelledInstruction → Option (List Instruction)
    | [] => some []
    | i :: rest => do
      let xs ← convert_labels_helper i m
      let ys ← go rest
      pure (xs ++ ys)
  go program

/-- A `Program`: a vector of instructions where double-word instructions are
stored twice so that the vector index equals the instruction pointer. -/
structure Program where
  instructions : List Instruction
  deriving DecidableEq

/-- Duplication of instructions by their size (`vec![instr; instr.size()]`
flat-mapped over a list): the shape of every constructed program. -/
def inflate (l : List Instruction) : List Instruction :=
  l.flatMap fun i => List.replicate i.size i

/-- `Program::new`: resolve labels, then store each instruction `size` many
times. -/
def Program.new (input : List LabelledInstruction) : Option Program :=
  (convert_labels input).map fun instrs => ⟨inflate instrs⟩

/-- The cursor loop of `InstructionIter`: read the instruction at `pos`,
then skip `size` slots. -/
def iterAux (v : List Instruction) (pos : Nat) : List Instruction :=
  match h : v[pos]? with
  | none => []
  | some i => i :: iterAux v (pos + i.size)
  termination_by v.length - pos
  decreasing_by
    have hlt : pos < v.length := by
      by_contra hge
      rw [List.getElem?_eq_none (by omega)] at h
      exact absurd h (by simp)
    have := i.size_pos
    omega

/-- The per-instruction encoding: one word for the opcode and, if present,
one for the argument (`Program::to_bwords` body). -/
def encodeList (l : List Instruction) : List BFE :=
  l.flatMap fun i =>
    match i.arg with
    | some a => [i.opcode_b, a]
    | none => [i.opcode_b]

/-- `Program::to_bwords`: iterate the program (skipping duplicates) and emit
opcode and argument words. -/
def Program.to_bwords (p : Program) : List BFE :=
  encodeList (iterAux p.instructions 0)

/-- `Program::len_bwords`. -/
def Program.len_bwords (p : Program) : Nat := p.instructions.length

/-- `Program::encode`: a length header followed by the body words. -/
def Program.encode (p : Program) : List BFE :=
  bfe p.len_bwords :: p.to_bwords

/-- The `while idx < program_length` loop of `Program::decode`.  Rust
indexing panics are modelled as errors (they are unreachable when
`program_length` equals the sequence length, which `decode` checks first). -/
def decodeLoop (seq : List BFE) (program_length idx : Nat)
    (instructions : List Instruction) : Except String (List Instruction) :=
  if idx < program_length then
    match seq[idx]? with
    | none => .error "index out of bounds"
    | some w =>
      if w.val < 4294967296 then
        match Instruction.tryFromOpcode w.val with
        | .error e => .error e
        | .ok instruction =>
          if instruction.has_arg = false then
            decodeLoop seq program_length (idx + instruction.size)
              (instructions ++ [instruction])
          else if program_length ≤ instructions.length + 1 then
            .error "Missing argument for instruction."
          else
            match seq[idx + 1]? with
            | none => .error "index out of bounds"
            | some a =>
              match instruction.change_arg a with
              | none => .error "Invalid argument for instruction."
              | some instr2 =>
                decodeLoop seq program_length (idx + instr2.size)
                  (instructions ++ [instr2, instr2])
      else .error "Invalid opcode."
  else if idx = program_length then .ok instructions
  else .error "Expected idx to equal program_length."
  termination_by program_length - idx
  decreasing_by
    all_goals
      first
      | (have hsz := instruction.size_pos; omega)
      | (have hsz := instr2.size_pos; omega)

/-- `Program::decode` (`impl BFieldCodec for Program`): read the length
header, check it against the remaining sequence length (`ensure_eq!`, a
panic in Rust, modelled as an error), then run the decode loop, and finally
check that the loop consumed exactly `program_length` words. -/
def Program.decode (sequence : List BFE) : Except String Program :=
  match sequence with
  | [] => .error "Sequence to decode must not be empty."
  | len :: rest =>
    let program_length := len.val
    if program_length = rest.length then
      (decodeLoop rest program_length 0 []).map fun instructions =>
        ⟨instructions⟩
    else .error "Expected program_length to equal sequence length."

/-- The default-argument representative of an instruction variant (the value
`Instruction::iter()` yields for that variant). -/
def canonical : Instruction → Instruction
  | Push _ => Push (bfe 0)
  | Dup _ => Dup 0
  | Swap _ => Swap 0
  | Call _ => Call (bfe 0)
  | i => i

theorem tryFromOpcode_opcode (i : Instruction) :
    Instruction.tryFromOpcode i.opcode = .ok (canonical i) := by
  cases i <;> rfl

theorem opcode_lt_u32 (i : Instruction) : i.opcode < 4294967296 := by
  cases i <;> norm_num [AnInstruction.opcode]

theorem opcode_b_val (i : Instruction) : i.opcode_b.val = i.opcode := by
  cases i <;> rfl

theorem canonical_eq_of_arg_none {i : Instruction} (h : i.arg = none) :
    canonical i = i := by
  cases i <;> first | rfl | simp [Instruction.arg] at h

theorem size_one_of_arg_none {i : Instruction} (h : i.arg = none) :
    i.size = 1 := by
  cases i <;> first | rfl | simp [Instruction.arg] at h

theorem size_two_of_arg_some {i : Instruction} {a : BFE} (h : i.arg = some a) :
    i.size = 2 := by
  cases i <;> first | rfl | simp [Instruction.arg] at h

theorem has_arg_canonical (i : Instruction) :
    (canonical i).has_arg = i.has_arg := by
  cases i <;> rfl

theorem change_arg_canonical {i : Instruction} {a : BFE} (h : i.arg = some a) :
    (canonical i).change_arg a = some i := by
  cases i with
  | Push x =>
    simp only [Instruction.arg, Option.some.injEq] at h
    subst h; rfl
  | Call x =>
    simp only [Instruction.arg, Option.some.injEq] at h
    subst h; rfl
  | Dup x =>
    simp only [Instruction.arg, Option.some.injEq] at h
    subst h
    simp [canonical, Instruction.change_arg, OpStackElement.tryFromNat,
      OpStackElement.toBFE, x.isLt]
  | Swap x =>
    simp only [Instruction.arg, Option.some.injEq] at h
    subst h
    simp [canonical, Instruction.change_arg, OpStackElement.tryFromNat,
      OpStackElement.toBFE, x.isLt]
  | _ => simp [Instruction.arg] at h

/-- Sum of the sizes of a list of instructions. -/
def sumSizes (l : List Instruction) : Nat := (l.map AnInstruction.size).sum

theorem inflate_nil : inflate [] = [] := rfl

theorem inflate_cons (i : Instruction) (t : List Instruction) :
    inflate (i :: t) = List.replicate i.size i ++ inflate t := rfl

theorem inflate_length (l : List Instruction) :
    (inflate l).length = sumSizes l := by
  induction l with
  | nil => rfl
  | cons i t ih => simp [inflate_cons, sumSizes, ih, sumSizes] at ih ⊢ <;> omega

theorem encodeList_nil : encodeList [] = [] := rfl

theorem encodeList_cons (i : Instruction) (t : List Instruction) :
    encodeList (i :: t) =
      (match i.arg with
       | some a => [i.opcode_b, a]
       | none => [i.opcode_b]) ++ encodeList t := rfl

theorem encodeList_length (l : List Instruction) :
    (encodeList l).length = sumSizes l := by
  induction l with
  | nil => rfl
  | cons i t ih =>
    rw [encodeList_cons]
    rcases h : i.arg with _ | a
    · simp [sumSizes, ih, size_one_of_arg_none h] at ih ⊢; omega
    · simp [sumSizes, ih, size_two_of_arg_some h] at ih ⊢; omega

theorem iterAux_getElem_none {v : List Instruction} {pos : Nat}
    (h : v[pos]? = none) : iterAux v pos = [] := by
  rw [iterAux.eq_def, h]

theorem iterAux_getElem_some {v : List Instruction} {pos : Nat}
    {i : Instruction} (h : v[pos]? = some i) :
    iterAux v pos = i :: iterAux v (pos + i.size) := by
  rw [iterAux.eq_def, h]

theorem iterAux_inflate_aux (l : List Instruction) :
    ∀ v : List Instruction, iterAux (v ++ inflate l) v.length = l := by
  induction l with
  | nil =>
    intro v
    apply iterAux_getElem_none
    simp [inflate_nil]
  | cons i t ih =>
    intro v
    have hsz := i.size_pos
    have hget : (v ++ inflate (i :: t))[v.length]? = some i := by
      rw [List.getElem?_append_right (le_refl _)]
      simp only [Nat.sub_self, inflate_cons]
      rw [List.getElem?_append]
      simp [hsz, List.getElem?_replicate]
    rw [iterAux_getElem_some hget]
    have hassoc : v ++ inflate (i :: t) =
        (v ++ List.replicate i.size i) ++ inflate t := by
      rw [inflate_cons, List.append_assoc]
    have hlen : v.length + i.size = (v ++ List.replicate i.size i).length := by
      simp
    rw [hassoc, hlen, ih]

theorem iterAux_inflate (l : List Instruction) : iterAux (inflate l) 0 = l := by
  have := iterAux_inflate_aux l []
  simpa using this

theorem has_arg_false_of_arg_none {i : Instruction} (h : i.arg = none) :
    i.has_arg = false := by
  simp [Instruction.has_arg, h]

theorem has_arg_true_of_arg_some {i : Instruction} {a : BFE}
    (h : i.arg = some a) : i.has_arg = true := by
  simp [Instruction.has_arg, h]


/-- Main loop lemma for the encode/decode round trip: decoding the encoding
of `l`, appended after `done` already-consumed words, extends the
accumulator by `inflate l`. -/
theorem decodeLoop_encodeList (l : List Instruction) :
    ∀ (done : List BFE) (acc : List Instruction),
      acc.length = done.length →
      decodeLoop (done ++ encodeList l) (done.length + (encodeList l).length)
        done.length acc = .ok (acc ++ inflate l) := by
  induction l with
  | nil =>
    intro done acc hlen
    rw [decodeLoop]
    simp [inflate_nil, encodeList_nil]
  | cons i t ih =>
    intro done acc hlen
    rcases harg : i.arg with _ | a
    · have hsz : i.size = 1 := size_one_of_arg_none harg
      have henc : encodeList (i :: t) = [i.opcode_b] ++ encodeList t := by
        rw [encodeList_cons, harg]
      rw [henc]
      have hget : (done ++ ([i.opcode_b] ++ encodeList t))[done.length]? =
          some i.opcode_b := by
        rw [List.getElem?_append_right (le_refl _)]
        simp
      have hlt : done.length <
          done.length + ([i.opcode_b] ++ encodeList t).length := by simp
      have htry : Instruction.tryFromOpcode i.opcode_b.val = .ok i := by
        rw [opcode_b_val, tryFromOpcode_opcode, canonical_eq_of_arg_none harg]
      have h32 : i.opcode_b.val < 4294967296 := by
        rw [opcode_b_val]; exact opcode_lt_u32 i
      rw [decodeLoop, if_pos hlt, hget]
      simp only [h32, htry, has_arg_false_of_arg_none harg, if_true, ite_true]
      have e1 : done ++ ([i.opcode_b] ++ encodeList t) =
          (done ++ [i.opcode_b]) ++ encodeList t := (List.append_assoc _ _ _).symm
      have e2 : done.length + ([i.opcode_b] ++ encodeList t).length =
          (done ++ [i.opcode_b]).length + (encodeList t).length := by
        simp; omega
      have e3 : done.length + 1 = (done ++ [i.opcode_b]).length := by simp
      rw [hsz, e1, e2, e3, ih (done ++ [i.opcode_b]) (acc ++ [i]) (by simp [hlen])]
      simp [inflate_cons, hsz]
    · have hsz : i.size = 2 := size_two_of_arg_some harg
      have henc : encodeList (i :: t) = [i.opcode_b, a] ++ encodeList t := by
        rw [encodeList_cons, harg]
      rw [henc]
      have hget : (done ++ ([i.opcode_b, a] ++ encodeList t))[done.length]? =
          some i.opcode_b := by
        rw [List.getElem?_append_right (le_refl _)]
        simp
      have hget2 : (done ++ ([i.opcode_b, a] ++ encodeList t))[done.length + 1]? =
          some a := by
        rw [List.getElem?_append_right (by omega)]
        simp
      have hlt : done.length <
          done.length + ([i.opcode_b, a] ++ encodeList t).length := by simp
      have htry : Instruction.tryFromOpcode i.opcode_b.val = .ok (canonical i) := by
        rw [opcode_b_val, tryFromOpcode_opcode]
      have h32 : i.opcode_b.val < 4294967296 := by
        rw [opcode_b_val]; exact opcode_lt_u32 i
      have hhas : (canonical i).has_arg = true := by
        rw [has_arg_canonical]; exact has_arg_true_of_arg_some harg
      have hnomiss : ¬ (done.length + ([i.opcode_b, a] ++ encodeList t).length ≤
          acc.length + 1) := by
        simp [hlen]
      rw [decodeLoop, if_pos hlt, hget]
      simp only [h32, htry, hhas, if_true, ite_true, Bool.true_eq_false,
        if_false, ite_false, if_neg hnomiss, hget2, change_arg_canonical harg]
      have e1 : done ++ ([i.opcode_b, a] ++ encodeList t) =
          (done ++ [i.opcode_b, a]) ++ encodeList t := (List.append_assoc _ _ _).symm
      have e2 : done.length + ([i.opcode_b, a] ++ encodeList t).length =
          (done ++ [i.opcode_b, a]).length + (encodeList t).length := by
        simp; omega
      have e3 : done.length + 2 = (done ++ [i.opcode_b, a]).length := by simp
      rw [hsz, e1, e2, e3,
        ih (done ++ [i.opcode_b, a]) (acc ++ [i, i]) (by simp [hlen])]
      simp [inflate_cons, hsz]



theorem arg_none_of_has_arg_false {i : Instruction} (h : i.has_arg = false) :
    i.arg = none := by
  cases ha : i.arg with
  | none => rfl
  | some a => rw [Instruction.has_arg, ha] at h; simp at h

theorem size_of_change_arg {i j : Instruction} {a : BFE}
    (h : i.change_arg a = some j) : j.size = 2 := by
  cases i with
  | Push x => simp [Instruction.change_arg] at h; subst h; rfl
  | Call x => simp [Instruction.change_arg] at h; subst h; rfl
  | Dup x =>
    rw [Instruction.change_arg] at h
    cases ht : OpStackElement.tryFromNat a.val with
    | none => rw [ht] at h; cases h
    | some o => rw [ht] at h; cases h; rfl
  | Swap x =>
    rw [Instruction.change_arg] at h
    cases ht : OpStackElement.tryFromNat a.val with
    | none => rw [ht] at h; cases h
    | some o => rw [ht] at h; cases h; rfl
  | _ => simp [Instruction.change_arg] at h

/-- Every successful run of the decode loop extends the accumulator by a
sequence of the `inflate` shape: double-word instructions are pushed twice,
single-word instructions once. -/
theorem decodeLoop_ok_inflate (seq : List BFE) (pl : Nat) :
    ∀ (fuel idx : Nat), pl - idx ≤ fuel → ∀ (acc res : List Instruction),
      decodeLoop seq pl idx acc = .ok res → ∃ l, res = acc ++ inflate l := by
  intro fuel
  induction fuel with
  | zero =>
    intro idx hf acc res h
    have hge : ¬ idx < pl := by omega
    rw [decodeLoop, if_neg hge] at h
    by_cases he : idx = pl
    · rw [if_pos he] at h
      cases h
      exact ⟨[], by simp [inflate_nil]⟩
    · rw [if_neg he] at h
      simp at h
  | succ n ihn =>
    intro idx hf acc res h
    by_cases hlt : idx < pl
    · rw [decodeLoop, if_pos hlt] at h
      cases hg : seq[idx]? with
      | none => simp only [hg] at h; exact Except.noConfusion h
      | some w =>
        simp only [hg] at h
        by_cases h32 : w.val < 4294967296
        · rw [if_pos h32] at h
          cases ht : Instruction.tryFromOpcode w.val with
          | error e => simp only [ht] at h; exact Except.noConfusion h
          | ok ins =>
            simp only [ht] at h
            by_cases hha : ins.has_arg = false
            · rw [if_pos hha] at h
              have hsz : ins.size = 1 :=
                size_one_of_arg_none (arg_none_of_has_arg_false hha)
              obtain ⟨l, hl⟩ := ihn (idx + ins.size) (by omega) (acc ++ [ins]) res h
              exact ⟨ins :: l, by simp [hl, inflate_cons, hsz]⟩
            · rw [if_neg hha] at h
              by_cases hm : pl ≤ acc.length + 1
              · rw [if_pos hm] at h; simp at h
              · rw [if_neg hm] at h
                cases hg2 : seq[idx + 1]? with
                | none => simp only [hg2] at h; exact Except.noConfusion h
                | some a =>
                  simp only [hg2] at h
                  cases hc : ins.change_arg a with
                  | none => simp only [hc] at h; exact Except.noConfusion h
                  | some instr2 =>
                    simp only [hc] at h
                    have hsz : instr2.size = 2 := size_of_change_arg hc
                    obtain ⟨l, hl⟩ :=
                      ihn (idx + instr2.size) (by omega) (acc ++ [instr2, instr2]) res h
                    exact ⟨instr2 :: l, by simp [hl, inflate_cons, hsz]⟩
        · rw [if_neg h32] at h; simp at h
    · rw [decodeLoop, if_neg hlt] at h
      by_cases he : idx = pl
      · rw [if_pos he] at h
        cases h
        exact ⟨[], by simp [inflate_nil]⟩
      · rw [if_neg he] at h
        simp at h


theorem bfe_val_of_lt {n : Nat} (h : n < P) : (bfe n).val = n := by
  simp [bfe, Nat.mod_eq_of_lt h]

theorem encode_inflate (instrs : List Instruction) :
    Program.encode ⟨inflate instrs⟩ = bfe (sumSizes instrs) :: encodeList instrs := by
  unfold Program.encode Program.to_bwords Program.len_bwords
  rw [show (Program.mk (inflate instrs)).instructions = inflate instrs from rfl,
    iterAux_inflate, inflate_length]

theorem lookup_opcode_map_eq_none {l : List Instruction} {v : Nat}
    (h : ∀ i ∈ l, i.opcode ≠ v) :
    (l.map fun i => (i.opcode, i)).lookup v = none := by
  induction l with
  | nil => rfl
  | cons i t ih =>
    have hne : (v == i.opcode) = false := by
      have := h i (by simp)
      simp [Nat.beq_eq_true_eq]
      omega
    simp only [List.map_cons, List.lookup, hne]
    exact ih fun j hj => h j (by simp [hj])

theorem roundtrip_part (instrs : List Instruction) (hlt : sumSizes instrs < P) :
    Program.decode (Program.encode ⟨inflate instrs⟩) = .ok ⟨inflate instrs⟩ := by
  rw [encode_inflate]
  simp only [Program.decode]
  rw [bfe_val_of_lt hlt, encodeList_length]
  rw [if_pos rfl]
  have hloop := decodeLoop_encodeList instrs [] [] rfl
  simp only [List.nil_append, List.length_nil, Nat.zero_add] at hloop
  rw [encodeList_length] at hloop
  rw [hloop]
  rfl


theorem decode_header_mismatch {hd : BFE} {rest : List BFE}
    (h : hd.val ≠ rest.length) : (Program.decode (hd :: rest)).isOk = false := by
  simp only [Program.decode]
  rw [if_neg h]
  rfl

theorem decode_unknown_opcode {w : BFE}
    (hw : ∀ i ∈ ALL_INSTRUCTIONS, i.opcode ≠ w.val) :
    (Program.decode [bfe 1, w]).isOk = false := by
  simp only [Program.decode]
  have h1 : (bfe 1).val = 1 := by
    rw [bfe_val_of_lt]
    norm_num [P]
  rw [h1, if_pos (by simp)]
  have hlu : Instruction.tryFromOpcode w.val = .error
      "No instruction with opcode exists." := by
    rw [Instruction.tryFromOpcode, OPCODE_TO_INSTRUCTION_MAP,
      lookup_opcode_map_eq_none hw]
  rw [decodeLoop, if_pos (by norm_num)]
  simp only [List.getElem?_cons_zero]
  by_cases h32 : w.val < 4294967296
  · rw [if_pos h32, hlu]
    rfl
  · rw [if_neg h32]
    rfl

theorem decode_missing_argument {i : Instruction} (h : i.has_arg = true) :
    (Program.decode [bfe 1, i.opcode_b]).isOk = false := by
  simp only [Program.decode]
  have h1 : (bfe 1).val = 1 := by
    rw [bfe_val_of_lt]
    norm_num [P]
  rw [h1, if_pos (by simp)]
  have htry : Instruction.tryFromOpcode i.opcode_b.val = .ok (canonical i) := by
    rw [opcode_b_val, tryFromOpcode_opcode]
  have h32 : i.opcode_b.val < 4294967296 := by
    rw [opcode_b_val]; exact opcode_lt_u32 i
  have hhas : (canonical i).has_arg = true := by rw [has_arg_canonical]; exact h
  rw [decodeLoop, if_pos (by norm_num)]
  simp only [List.getElem?_cons_zero, h32, if_true, ite_true, htry, hhas]
  rfl

theorem decode_dup_swap_out_of_range {v : BFE} (hv : 16 ≤ v.val) :
    (Program.decode [bfe 2, (Dup 0 : Instruction).opcode_b, v]).isOk = false ∧
    (Program.decode [bfe 2, (Swap 0 : Instruction).opcode_b, v]).isOk = false := by
  have h2 : (bfe 2).val = 2 := by
    rw [bfe_val_of_lt]
    norm_num [P]
  have htf : OpStackElement.tryFromNat v.val = none := by
    rw [OpStackElement.tryFromNat]
    rw [dif_neg (by omega)]
  constructor
  · simp only [Program.decode]
    rw [h2, if_pos (by simp)]
    rw [decodeLoop, if_pos (by norm_num)]
    have htry : Instruction.tryFromOpcode
        ((Dup 0 : Instruction).opcode_b).val = .ok (Dup 0) := by rfl
    simp only [List.getElem?_cons_zero, List.getElem?_cons_succ, htry]
    rw [if_pos (by rw [opcode_b_val]; norm_num [AnInstruction.opcode])]
    rw [if_neg (by rw [show Instruction.has_arg (Dup 0) = true from rfl]; simp),
      if_neg (by simp)]
    simp only [Instruction.change_arg, htf]
    rfl
  · simp only [Program.decode]
    rw [h2, if_pos (by simp)]
    rw [decodeLoop, if_pos (by norm_num)]
    have htry : Instruction.tryFromOpcode
        ((Swap 0 : Instruction).opcode_b).val = .ok (Swap 0) := by rfl
    simp only [List.getElem?_cons_zero, List.getElem?_cons_succ, htry]
    rw [if_pos (by rw [opcode_b_val]; norm_num [AnInstruction.opcode])]
    rw [if_neg (by rw [show Instruction.has_arg (Swap 0) = true from rfl]; simp),
      if_neg (by simp)]
    simp only [Instruction.change_arg, htf]
    rfl


theorem inflate_getElem_addr (l : List Instruction) :
    ∀ (k : Nat) (instr : Instruction), l[k]? = some instr →
      (inflate l)[sumSizes (l.take k)]? = some instr ∧
      (instr.size = 2 → (inflate l)[sumSizes (l.take k) + 1]? = some instr) := by
  induction l with
  | nil => intro k instr h; simp at h
  | cons y t ih =>
    intro k instr h
    cases k with
    | zero =>
      simp only [List.getElem?_cons_zero, Option.some.injEq] at h
      subst h
      have hsz := AnInstruction.size_pos y
      constructor
      · rw [show sumSizes ((y :: t).take 0) = 0 from rfl, inflate_cons,
          List.getElem?_append]
        simp [List.getElem?_replicate, hsz]
      · intro h2
        rw [show sumSizes ((y :: t).take 0) = 0 from rfl, inflate_cons,
          List.getElem?_append]
        simp [List.getElem?_replicate, h2]
    | succ j =>
      simp only [List.getElem?_cons_succ] at h
      obtain ⟨h1, h2⟩ := ih j instr h
      have hs : sumSizes ((y :: t).take (j + 1)) =
          y.size + sumSizes (t.take j) := by
        simp [sumSizes]
      constructor
      · rw [hs, inflate_cons, List.getElem?_append_right (by simp)]
        simpa using h1
      · intro hsz2
        rw [hs, inflate_cons, List.getElem?_append_right (by simp; omega)]
        have : y.size + sumSizes (t.take j) + 1 - y.size =
            sumSizes (t.take j) + 1 := by omega
        simp only [List.length_replicate, this]
        exact h2 hsz2

theorem program_new_inflate {input : List LabelledInstruction} {p : Program}
    (h : Program.new input = some p) : ∃ l, p.instructions = inflate l := by
  rw [Program.new] at h
  cases hc : convert_labels input with
  | none => rw [hc] at h; cases h
  | some instrs =>
    rw [hc] at h
    cases h
    exact ⟨instrs, rfl⟩

theorem program_decode_inflate {seq : List BFE} {p : Program}
    (h : Program.decode seq = .ok p) : ∃ l, p.instructions = inflate l := by
  cases seq with
  | nil => exact Except.noConfusion h
  | cons hd rest =>
    simp only [Program.decode] at h
    by_cases hc : hd.val = rest.length
    · rw [if_pos hc] at h
      cases hdl : decodeLoop rest hd.val 0 [] with
      | error e => rw [hdl] at h; exact Except.noConfusion h
      | ok res =>
        rw [hdl] at h
        obtain ⟨l, hl⟩ :=
          decodeLoop_ok_inflate rest hd.val hd.val 0 (by omega) [] res hdl
        cases h
        exact ⟨l, by simpa using hl⟩
    · rw [if_neg hc] at h
      exact Except.noConfusion h

/-- C9: every program built by `Program::new` or `Program::decode` has the
address-alignment shape: it is the size-wise duplication (`inflate`) of an
instruction sequence; the vector length is the sum of the instruction sizes,
the slot at an instruction address holds that instruction, and a size-2
instruction at address `a` is stored at both `a` and `a + 1`. -/
theorem program_address_alignment :
    (∀ (input : List LabelledInstruction) (p : Program),
      Program.new input = some p → ∃ l, p.instructions = inflate l) ∧
    (∀ (seq : List BFE) (p : Program),
      Program.decode seq = .ok p → ∃ l, p.instructions = inflate l) ∧
    (∀ l : List Instruction, (inflate l).length = sumSizes l) ∧
    (∀ (l : List Instruction) (k : Nat) (instr : Instruction),
      l[k]? = some instr →
      (inflate l)[sumSizes (l.take k)]? = some instr ∧
      (instr.size = 2 → (inflate l)[sumSizes (l.take k) + 1]? = some instr)) :=
  ⟨fun _ _ h => program_new_inflate h,
   fun _ _ h => program_decode_inflate h,
   inflate_length,
   inflate_getElem_addr⟩

/-- Witness for C9: the one-instruction program `halt` produced by
`Program::new`, and the address slots of the two-slot instruction `push 7`
inside the program `push 7 halt`. -/
theorem program_address_alignment_witness :
    (∃ l, ({ instructions := [Halt] } : Program).instructions = inflate l) ∧
    (inflate [Push (bfe 7), Halt])[0]? = some (Push (bfe 7)) ∧
    (inflate [Push (bfe 7), Halt])[1]? = some (Push (bfe 7)) := by
  refine ⟨program_address_alignment.1 [.Instruction .Halt] _ (by decide), ?_, ?_⟩
  · exact (program_address_alignment.2.2.2 [Push (bfe 7), Halt] 0
      (Push (bfe 7)) (by decide)).1
  · exact (program_address_alignment.2.2.2 [Push (bfe 7), Halt] 0
      (Push (bfe 7)) (by decide)).2 (by decide)


/-- C3: decoding inverts encoding on every valid (address-aligned) program,
and decoding fails on the empty sequence, on a length header that does not
equal the number of subsequent field elements, on an unknown opcode, on a
missing trailing argument for an argument-bearing instruction, and on an
out-of-range argument for `dup`/`swap`. -/
theorem program_encode_decode_roundtrip :
    (∀ instrs : List Instruction, sumSizes instrs < P →
      Program.decode (Program.encode ⟨inflate instrs⟩) = .ok ⟨inflate instrs⟩) ∧
    (Program.decode [] = .error "Sequence to decode must not be empty.") ∧
    (∀ (hd : BFE) (rest : List BFE), hd.val ≠ rest.length →
      (Program.decode (hd :: rest)).isOk = false) ∧
    (∀ w : BFE, (∀ i ∈ ALL_INSTRUCTIONS, i.opcode ≠ w.val) →
      (Program.decode [bfe 1, w]).isOk = false) ∧
    (∀ i : Instruction, i.has_arg = true →
      (Program.decode [bfe 1, i.opcode_b]).isOk = false) ∧
    (∀ v : BFE, 16 ≤ v.val →
      (Program.decode [bfe 2, (Dup 0 : Instruction).opcode_b, v]).isOk = false ∧
      (Program.decode [bfe 2, (Swap 0 : Instruction).opcode_b, v]).isOk = false) :=
  ⟨roundtrip_part, rfl, fun _ _ h => decode_header_mismatch h,
   fun _ h => decode_unknown_opcode h, fun _ h => decode_missing_argument h,
   fun _ h => decode_dup_swap_out_of_range h⟩

/-- Witness for C3: the round trip of the program `halt`, and the failure of
decoding the sequence `[5]` whose header does not match its length. -/
theorem program_encode_decode_roundtrip_witness :
    Program.decode (Program.encode ⟨inflate [Halt]⟩) = .ok ⟨inflate [Halt]⟩ ∧
    (Program.decode [bfe 5]).isOk = false :=
  ⟨program_encode_decode_roundtrip.1 [Halt] (by decide),
   program_encode_decode_roundtrip.2.2.1 (bfe 5) [] (by decide)⟩


/-! ## Cross-table arguments (`table/cross_table_argument.rs`) -/

/-- An extension-field element, `XFieldElement`, from the external
`twenty_first` field collaborator.  Modelled from the spec: the spec (§3,
§6) consumes the extension field `Fext = F³` through its trait; the
concrete arithmetic is the cubic extension of the base field by the Shah
polynomial `x³ − x + 1` that `twenty_first` implements. -/
structure XFE where
  c0 : BFE
  c1 : BFE
  c2 : BFE
  deriving DecidableEq

namespace XFE

def zero : XFE := ⟨0, 0, 0⟩

def one : XFE := ⟨1, 0, 0⟩

/-- `BFieldElement::lift`. -/
def lift (b : BFE) : XFE := ⟨b, 0, 0⟩

def add (x y : XFE) : XFE := ⟨x.c0 + y.c0, x.c1 + y.c1, x.c2 + y.c2⟩

def sub (x y : XFE) : XFE := ⟨x.c0 - y.c0, x.c1 - y.c1, x.c2 - y.c2⟩

/-- Multiplication modulo the Shah polynomial `x³ − x + 1`. -/
def mul (x y : XFE) : XFE :=
  ⟨x.c0 * y.c0 - x.c1 * y.c2 - x.c2 * y.c1,
   x.c0 * y.c1 + x.c1 * y.c0 - x.c2 * y.c2 + x.c1 * y.c2 + x.c2 * y.c1,
   x.c0 * y.c2 + x.c1 * y.c1 + x.c2 * y.c0 + x.c2 * y.c2⟩

/-- `impl Sub<BFieldElement> for XFieldElement`: subtract from
coefficient 0. -/
def subB (x : XFE) (b : BFE) : XFE := ⟨x.c0 - b, x.c1, x.c2⟩

/-- `impl Add<BFieldElement> for XFieldElement`: add to coefficient 0. -/
def addB (x : XFE) (b : BFE) : XFE := ⟨x.c0 + b, x.c1, x.c2⟩

theorem one_mul_xfe (x : XFE) : mul one x = x := by
  cases x
  simp [mul, one]

theorem mul_one_xfe (x : XFE) : mul x one = x := by
  cases x
  simp [mul, one]

theorem zero_add_xfe (x : XFE) : add zero x = x := by
  cases x
  simp [add, zero]

end XFE

/-- `PermArg::default_initial`. -/
def PermArg.default_initial : XFE := XFE.one

/-- `PermArg::compute_terminal`: fold `initial` with multiplication over the
factors `challenge − symbolᵢ`. -/
def PermArg.compute_terminal (symbols : List BFE) (initial challenge : XFE) :
    XFE :=
  (symbols.map fun symbol => challenge.subB symbol).foldl XFE.mul initial

/-- `EvalArg::default_initial`. -/
def EvalArg.default_initial : XFE := XFE.one

/-- `EvalArg::compute_terminal`: Horner evaluation
`challenge * running_evaluation + symbol`. -/
def EvalArg.compute_terminal (symbols : List BFE) (initial challenge : XFE) :
    XFE :=
  symbols.foldl
    (fun running_evaluation symbol => (challenge.mul running_evaluation).addB symbol)
    initial

/-- `LookupArg::default_initial`. -/
def LookupArg.default_initial : XFE := XFE.zero

/-- `LookupArg::compute_terminal`, parametrised over the external field
inverse (the `Inverse` trait of `twenty_first`, consumed per spec §6). -/
def LookupArg.compute_terminal (inv : XFE → XFE) (symbols : List BFE)
    (initial challenge : XFE) : XFE :=
  (symbols.map fun symbol => inv (challenge.sub (XFE.lift symbol))).foldl
    XFE.add initial

/-- C7: for every challenge `α`, `PermArg::compute_terminal` with initial 1
and no symbols is 1, and with the one symbol `s` is `α − s`;
`EvalArg::compute_terminal` with initial 1 and symbol `s` is `α + s`;
`LookupArg::compute_terminal` with initial 0 and symbol `s` is the inverse
of `α − lift s` (given `α` differs from the lifted `s`); and the default
initials are 1, 1 and 0 respectively. -/
theorem cross_table_terminals (inv : XFE → XFE) (α : XFE) (s : BFE)
    (hne : α ≠ XFE.lift s) :
    PermArg.compute_terminal [] XFE.one α = XFE.one ∧
    PermArg.compute_terminal [s] XFE.one α = α.subB s ∧
    EvalArg.compute_terminal [s] XFE.one α = α.addB s ∧
    LookupArg.compute_terminal inv [s] XFE.zero α =
      inv (α.sub (XFE.lift s)) ∧
    PermArg.default_initial = XFE.one ∧
    EvalArg.default_initial = XFE.one ∧
    LookupArg.default_initial = XFE.zero := by
  refine ⟨rfl, ?_, ?_, ?_, rfl, rfl, rfl⟩
  · show XFE.mul XFE.one (α.subB s) = α.subB s
    exact XFE.one_mul_xfe _
  · show (XFE.mul α XFE.one).addB s = α.addB s
    rw [XFE.mul_one_xfe]
  · show XFE.add XFE.zero (inv (α.sub (XFE.lift s))) = inv (α.sub (XFE.lift s))
    exact XFE.zero_add_xfe _

/-- Witness for C7 at `α = x` (the polynomial variable, an extension element
differing from every lifted base element), `s = 0`, and the identity as the
external inverse. -/
theorem cross_table_terminals_witness :
    PermArg.compute_terminal [(0 : BFE)] XFE.one ⟨0, 1, 0⟩ =
      XFE.subB ⟨0, 1, 0⟩ 0 :=
  (cross_table_terminals id ⟨0, 1, 0⟩ 0 (by decide)).2.1


/-! ## `Proof::padded_height` (`proof.rs`) -/

/-- Proof-stream errors (`ProofStreamError`); the variants relevant to
`Proof::padded_height`, with every other error collapsed into a decode
failure payload. -/
inductive ProofStreamError where
  | noLog2PaddedHeight
  | tooManyLog2PaddedHeights
  | decodeFailure (tag : Nat)
  deriving DecidableEq

/-- A proof-stream item.  Modelled from the spec: `proof_item.rs` is not
among the sources under inspection; per spec §6 a proof is a sequence of
proof-stream items among which `Log2PaddedHeight(k)` is distinguished, and
all other item kinds are collapsed into `other`. -/
inductive ProofItem where
  | log2PaddedHeight (k : Nat)
  | other (tag : Nat)
  deriving DecidableEq

/-- `ProofItem::as_log2_padded_height`: succeeds on `Log2PaddedHeight`,
item-type mismatch otherwise. -/
def ProofItem.as_log2_padded_height : ProofItem → Except ProofStreamError Nat
  | .log2PaddedHeight k => .ok k
  | .other tag => .error (.decodeFailure tag)

/-- `Proof::padded_height`, parametrised over the result of
`ProofStream::try_from(proof)` (the proof-stream decoder lives in
`proof_stream.rs`, outside the sources under inspection; it is abstracted
here as the already-decoded item list, or a decode error). -/
def paddedHeight (streamResult : Except ProofStreamError (List ProofItem)) :
    Except ProofStreamError Nat :=
  match streamResult with
  | .error e => .error e
  | .ok items =>
    match items.filterMap fun item => item.as_log2_padded_height.toOption with
    | [] => .error .noLog2PaddedHeight
    | [log2] => .ok (1 <<< log2)
    | _ :: _ :: _ => .error .tooManyLog2PaddedHeights

/-- The item stream contains exactly one `Log2PaddedHeight` item, and its
value is `k`. -/
def ExactlyOneLog2 (items : List ProofItem) (k : Nat) : Prop :=
  ∃ pre post, items = pre ++ ProofItem.log2PaddedHeight k :: post ∧
    (∀ j, ProofItem.log2PaddedHeight j ∉ pre) ∧
    (∀ j, ProofItem.log2PaddedHeight j ∉ post)

theorem filterMap_log2_cons_log2 (k : Nat) (t : List ProofItem) :
    (ProofItem.log2PaddedHeight k :: t).filterMap
      (fun item => item.as_log2_padded_height.toOption) =
    k :: t.filterMap (fun item => item.as_log2_padded_height.toOption) := by
  simp only [List.filterMap_cons, ProofItem.as_log2_padded_height,
    Except.toOption]

theorem filterMap_log2_cons_other (tag : Nat) (t : List ProofItem) :
    (ProofItem.other tag :: t).filterMap
      (fun item => item.as_log2_padded_height.toOption) =
    t.filterMap (fun item => item.as_log2_padded_height.toOption) := by
  simp only [List.filterMap_cons, ProofItem.as_log2_padded_height,
    Except.toOption]

theorem filterMap_log2_eq_nil_iff (l : List ProofItem) :
    l.filterMap (fun item => item.as_log2_padded_height.toOption) = [] ↔
      ∀ j, ProofItem.log2PaddedHeight j ∉ l := by
  induction l with
  | nil => simp
  | cons it t ih =>
    cases it with
    | log2PaddedHeight k =>
      rw [filterMap_log2_cons_log2]
      constructor
      · intro h
        exact List.noConfusion h
      · intro h
        exact absurd (List.mem_cons_self _ _) (h k)
    | other tag =>
      rw [filterMap_log2_cons_other, ih]
      constructor
      · intro h j hj
        rcases List.mem_cons.mp hj with hj | hj
        · exact ProofItem.noConfusion hj
        · exact h j hj
      · intro h j hj
        exact h j (List.mem_cons_of_mem _ hj)

theorem filterMap_log2_singleton_iff (l : List ProofItem) (k : Nat) :
    l.filterMap (fun item => item.as_log2_padded_height.toOption) = [k] ↔
      ExactlyOneLog2 l k := by
  induction l with
  | nil => simp [ExactlyOneLog2]
  | cons it t ih =>
    cases it with
    | log2PaddedHeight j =>
      rw [filterMap_log2_cons_log2]
      constructor
      · intro h
        have hj : j = k := by
          have := congrArg (fun l => l.headD 0) h
          simpa using this
        subst hj
        have ht : t.filterMap
            (fun item => item.as_log2_padded_height.toOption) = [] := by
          have := congrArg List.tail h
          simpa using this
        exact ⟨[], t, by simp, by simp,
          (filterMap_log2_eq_nil_iff t).mp ht⟩
      · rintro ⟨pre, post, heq, hpre, hpost⟩
        cases pre with
        | nil =>
          simp only [List.nil_append, List.cons.injEq] at heq
          obtain ⟨heq1, rfl⟩ := heq
          cases heq1
          rw [(filterMap_log2_eq_nil_iff t).mpr hpost]
        | cons p ps =>
          simp only [List.cons_append, List.cons.injEq] at heq
          obtain ⟨rfl, _⟩ := heq
          exact absurd (List.mem_cons_self _ _) (hpre j)
    | other tag =>
      rw [filterMap_log2_cons_other, ih]
      constructor
      · rintro ⟨pre, post, heq, hpre, hpost⟩
        refine ⟨ProofItem.other tag :: pre, post, by simp [heq], ?_, hpost⟩
        intro j hj
        rcases List.mem_cons.mp hj with hj | hj
        · exact ProofItem.noConfusion hj
        · exact hpre j hj
      · rintro ⟨pre, post, heq, hpre, hpost⟩
        cases pre with
        | nil => simp at heq
        | cons p ps =>
          simp only [List.cons_append, List.cons.injEq] at heq
          obtain ⟨rfl, heq2⟩ := heq
          exact ⟨ps, post, heq2,
            fun j hj => hpre j (List.mem_cons_of_mem _ hj), hpost⟩

/-- C8: `Proof::padded_height` returns `Ok(2^k)` exactly when the proof
stream decodes successfully and its items contain exactly one
`Log2PaddedHeight` item, of value `k`; it propagates decode errors, errors
with `NoLog2PaddedHeight` when no such item exists, and errors with
`TooManyLog2PaddedHeights` when more than one exists. -/
theorem proof_padded_height_spec
    (d : Except ProofStreamError (List ProofItem)) :
    (∀ n, paddedHeight d = .ok n ↔
      ∃ items k, d = .ok items ∧ n = 2 ^ k ∧ ExactlyOneLog2 items k) ∧
    (∀ items, d = .ok items → (∀ j, ProofItem.log2PaddedHeight j ∉ items) →
      paddedHeight d = .error .noLog2PaddedHeight) ∧
    (∀ pre mid post k1 k2,
      d = .ok (pre ++ ProofItem.log2PaddedHeight k1 ::
        (mid ++ ProofItem.log2PaddedHeight k2 :: post)) →
      paddedHeight d = .error .tooManyLog2PaddedHeights) ∧
    (∀ e, d = .error e → paddedHeight d = .error e) := by
  refine ⟨?_, ?_, ?_, ?_⟩
  · intro n
    constructor
    · intro h
      cases d with
      | error e => exact Except.noConfusion h
      | ok items =>
        simp only [paddedHeight] at h
        cases hf : items.filterMap
            (fun item => item.as_log2_padded_height.toOption) with
        | nil => rw [hf] at h; exact Except.noConfusion h
        | cons a rest =>
          cases rest with
          | nil =>
            rw [hf] at h
            cases h
            exact ⟨items, a, rfl, (Nat.one_shiftLeft a).symm ▸ rfl,
              (filterMap_log2_singleton_iff items a).mp hf⟩
          | cons b rest2 => rw [hf] at h; exact Except.noConfusion h
    · rintro ⟨items, k, rfl, rfl, hone⟩
      have hf := (filterMap_log2_singleton_iff items k).mpr hone
      simp only [paddedHeight, hf]
      rw [Nat.one_shiftLeft]
  · intro items hd hnone
    subst hd
    have hf := (filterMap_log2_eq_nil_iff items).mpr hnone
    simp only [paddedHeight, hf]
  · intro pre mid post k1 k2 hd
    subst hd
    have hsplit : (pre ++ ProofItem.log2PaddedHeight k1 ::
        (mid ++ ProofItem.log2PaddedHeight k2 :: post)).filterMap
        (fun item => item.as_log2_padded_height.toOption) =
        pre.filterMap (fun item => item.as_log2_padded_height.toOption) ++
        k1 :: (mid.filterMap
          (fun item => item.as_log2_padded_height.toOption) ++
          k2 :: post.filterMap
            (fun item => item.as_log2_padded_height.toOption)) := by
      simp [List.filterMap_append, List.filterMap_cons,
        ProofItem.as_log2_padded_height, Except.toOption]
    have hlen : 2 ≤ ((pre ++ ProofItem.log2PaddedHeight k1 ::
        (mid ++ ProofItem.log2PaddedHeight k2 :: post)).filterMap
        (fun item => item.as_log2_padded_height.toOption)).length := by
      rw [hsplit]
      simp
      omega
    rcases hL : (pre ++ ProofItem.log2PaddedHeight k1 ::
        (mid ++ ProofItem.log2PaddedHeight k2 :: post)).filterMap
        (fun item => item.as_log2_padded_height.toOption) with
      _ | ⟨x, _ | ⟨y, rest⟩⟩
    · rw [hL] at hlen; simp at hlen
    · rw [hL] at hlen; simp at hlen
    · simp only [paddedHeight, hL]
  · intro e hd
    subst hd
    rfl

/-- Witness for C8: a stream holding one `Log2PaddedHeight(8)` item yields
padded height `256 = 2^8`; a stream with no such item yields the
`NoLog2PaddedHeight` error. -/
theorem proof_padded_height_spec_witness :
    paddedHeight (.ok [ProofItem.other 0, ProofItem.log2PaddedHeight 8]) =
      .ok 256 ∧
    paddedHeight (.ok [ProofItem.other 0]) =
      .error .noLog2PaddedHeight := by
  constructor
  · exact ((proof_padded_height_spec _).1 256).mpr
      ⟨[ProofItem.other 0, ProofItem.log2PaddedHeight 8], 8, rfl, by norm_num,
        [ProofItem.other 0], [], rfl, by intro j h; simp at h,
        by intro j h; simp at h⟩
  · exact (proof_padded_height_spec _).2.1 [ProofItem.other 0] rfl
      (by intro j h; simp at h)


/-! ## Algebraic execution trace table lengths (`aet.rs`) -/

/-- The sponge rate of the `StarkHasher` (`Tip5::RATE = 10`), a constant of
the external hash collaborator (spec §6). -/
def RATE : Nat := 10

/-- A u32-table entry: the current instruction and its two operands
(`u32_table.rs::U32TableEntry`). -/
structure U32TableEntry where
  ci : Nat
  lhs : Nat
  rhs : Nat

/-- `U32TableEntry::table_length_contribution`.  Modelled from the spec
(§4.3): `u32_table.rs` is not among the sources under inspection; the
number of rows an entry contributes is `max(1, ⌈log₂(max(lhs, rhs)+1)⌉)`,
and `⌈log₂ n⌉ = Nat.clog 2 n`. -/
def U32TableEntry.table_length_contribution (e : U32TableEntry) : Nat :=
  max 1 (Nat.clog 2 (max e.lhs e.rhs + 1))

/-- The fields of an `AlgebraicExecutionTrace` that its table lengths
depend on: the program, the row counts of the six append-only row
matrices, the u32 entry keys and the cascade-table multiplicity keys. -/
structure AlgebraicExecutionTrace where
  program : Program
  processor_trace_nrows : Nat
  op_stack_underflow_trace_nrows : Nat
  ram_trace_nrows : Nat
  program_hash_trace_nrows : Nat
  hash_trace_nrows : Nat
  sponge_trace_nrows : Nat
  u32_entries : List U32TableEntry
  cascade_table_lookup_keys : List Nat

namespace AlgebraicExecutionTrace

/-- `padded_program_length`: `program.len_bwords() + 1`, rounded up to the
next multiple of the sponge rate. -/
def padded_program_length (program : Program) : Nat :=
  let min_padded_len := program.len_bwords + 1
  let remainder_len := min_padded_len % RATE
  let num_zeros_to_add :=
    match remainder_len with
    | 0 => 0
    | _ => RATE - remainder_len
  min_padded_len + num_zeros_to_add

def program_table_length (aet : AlgebraicExecutionTrace) : Nat :=
  padded_program_length aet.program

def processor_table_length (aet : AlgebraicExecutionTrace) : Nat :=
  aet.processor_trace_nrows

def op_stack_table_length (aet : AlgebraicExecutionTrace) : Nat :=
  aet.op_stack_underflow_trace_nrows

def ram_table_length (aet : AlgebraicExecutionTrace) : Nat :=
  aet.ram_trace_nrows

def hash_table_length (aet : AlgebraicExecutionTrace) : Nat :=
  aet.sponge_trace_nrows + aet.hash_trace_nrows + aet.program_hash_trace_nrows

def cascade_table_length (aet : AlgebraicExecutionTrace) : Nat :=
  aet.cascade_table_lookup_keys.length

def lookup_table_length (_ : AlgebraicExecutionTrace) : Nat := 1 <<< 8

def u32_table_length (aet : AlgebraicExecutionTrace) : Nat :=
  (aet.u32_entries.map U32TableEntry.table_length_contribution).sum

/-- `usize::next_power_of_two`: the smallest power of two not below the
input (1 for inputs 0 and 1). -/
def nextPowerOfTwo (n : Nat) : Nat := 2 ^ Nat.clog 2 n

/-- `AlgebraicExecutionTrace::padded_height`: the maximum of the eight
relevant table heights, rounded up to the next power of two.  (The Rust
`.max().unwrap()` over the non-empty array is embedded as a fold of
`Nat.max` over the same list.) -/
def padded_height (aet : AlgebraicExecutionTrace) : Nat :=
  nextPowerOfTwo ([aet.program_table_length, aet.processor_table_length,
    aet.op_stack_table_length, aet.ram_table_length, aet.hash_table_length,
    aet.cascade_table_length, aet.lookup_table_length,
    aet.u32_table_length].foldr max 0)

end AlgebraicExecutionTrace

/-- The `AlgebraicExecutionTrace` of scenario S1 (program `halt`): one-word
program, one processor row, no co-processor activity. -/
def haltAET : AlgebraicExecutionTrace :=
  { program := ⟨[Halt]⟩
    processor_trace_nrows := 1
    op_stack_underflow_trace_nrows := 0
    ram_trace_nrows := 0
    program_hash_trace_nrows := 1
    hash_trace_nrows := 0
    sponge_trace_nrows := 0
    u32_entries := []
    cascade_table_lookup_keys := [] }

/-- C10: `lookup_table_length` is the constant 256 for every algebraic
execution trace, so `padded_height` is always a power of two that is at
least 256 — also for the trace of the one-instruction program `halt`. -/
theorem lookup_table_length_constant (aet : AlgebraicExecutionTrace) :
    aet.lookup_table_length = 256 ∧
    (∃ k, aet.padded_height = 2 ^ k) ∧
    256 ≤ aet.padded_height ∧
    haltAET.padded_height = 256 := by
  refine ⟨rfl, ⟨_, rfl⟩, ?_, ?_⟩
  · show 256 ≤ AlgebraicExecutionTrace.nextPowerOfTwo _
    have hmax : 256 ≤ [aet.program_table_length, aet.processor_table_length,
        aet.op_stack_table_length, aet.ram_table_length,
        aet.hash_table_length, aet.cascade_table_length,
        aet.lookup_table_length, aet.u32_table_length].foldr max 0 := by
      have h256 : aet.lookup_table_length = 256 := rfl
      simp only [List.foldr]
      omega
    calc (256 : Nat) = 2 ^ Nat.clog 2 256 := by norm_num [Nat.clog]
    _ ≤ 2 ^ Nat.clog 2 ([aet.program_table_length,
        aet.processor_table_length, aet.op_stack_table_length,
        aet.ram_table_length, aet.hash_table_length,
        aet.cascade_table_length, aet.lookup_table_length,
        aet.u32_table_length].foldr max 0) := by
      exact Nat.pow_le_pow_right (by norm_num)
        (Nat.clog_mono_right 2 hmax)
  · have h1 : haltAET.padded_height =
        AlgebraicExecutionTrace.nextPowerOfTwo 256 := rfl
    rw [h1, AlgebraicExecutionTrace.nextPowerOfTwo,
      show (256 : Nat) = 2 ^ 8 by norm_num,
      Nat.clog_pow _ _ (by norm_num)]


/-! ## Constraint circuits (`table/constraint_circuit.rs`)

The Rust circuit is a multi-rooted DAG of reference-counted,
interior-mutable nodes.  Two views are embedded:

* a tree view (`CTree`), the full unfolding of a node: `PartialEq` and
  `Hash` of `ConstraintCircuit` ignore the `id` and visit counter and
  compare expressions structurally through the shared children, which is
  exactly equality of unfoldings (`exprEq` below); constant folding is a
  function of this view, since the in-place substitution rewrites every
  shared occurrence alike;
* an arena view (`Builder`), for the builder's node set, hash-consing and
  `substitute`, where edges are node ids.
-/

/-- `BinOp`. -/
inductive BinOp where
  | Add
  | Sub
  | Mul
  deriving DecidableEq

/-- `SingleRowIndicator`: the `InputIndicator` for single-row constraints. -/
inductive SRI where
  | BaseRow (i : Nat)
  | ExtRow (i : Nat)
  deriving DecidableEq

/-- `SingleRowIndicator::is_base_table_column`. -/
def SRI.is_base_table_column : SRI → Bool
  | .BaseRow _ => true
  | .ExtRow _ => false

/-- `InputIndicator::base_table_input`. -/
def SRI.base_table_input (index : Nat) : SRI := .BaseRow index

/-- `InputIndicator::ext_table_input`. -/
def SRI.ext_table_input (index : Nat) : SRI := .ExtRow index

/-- The tree view of a `ConstraintCircuit`: the `CircuitExpression` with
children fully unfolded, each node carrying its `id`.  `PartialEq`/`Hash`
ignore the ids. -/
inductive CTree where
  | XConstant (id : Nat) (x : XFE)
  | BConstant (id : Nat) (b : BFE)
  | Input (id : Nat) (ii : SRI)
  | Challenge (id : Nat) (cid : Nat)
  | BinaryOperation (id : Nat) (op : BinOp) (lhs rhs : CTree)
  deriving DecidableEq

namespace CTree

/-- The `id` field of a node. -/
def nodeId : CTree → Nat
  | .XConstant i _ | .BConstant i _ | .Input i _ | .Challenge i _
  | .BinaryOperation i _ _ _ => i

/-- Number of nodes of the tree (counting shared occurrences separately). -/
def sizeT : CTree → Nat
  | .BinaryOperation _ _ lhs rhs => 1 + lhs.sizeT + rhs.sizeT
  | _ => 1

theorem sizeT_pos (t : CTree) : 0 < t.sizeT := by
  cases t <;> simp [sizeT]

/-- `ConstraintCircuit::is_zero`: a constant node of value zero. -/
def is_zero : CTree → Bool
  | .BConstant _ b => b == 0
  | .XConstant _ x => x == XFE.zero
  | _ => false

/-- `ConstraintCircuit::is_one`: a constant node of value one. -/
def is_one : CTree → Bool
  | .XConstant _ x => x == XFE.one
  | .BConstant _ b => b == 1
  | _ => false

/-- `PartialEq for CircuitExpression`: structural equality through the
children, ignoring ids; commutativity is *not* respected here. -/
def exprEq : CTree → CTree → Bool
  | .BConstant _ a, .BConstant _ b => a == b
  | .XConstant _ a, .XConstant _ b => a == b
  | .Input _ a, .Input _ b => a == b
  | .Challenge _ a, .Challenge _ b => a == b
  | .BinaryOperation _ o1 l1 r1, .BinaryOperation _ o2 l2 r2 =>
    o1 == o2 && exprEq l1 l2 && exprEq r1 r2
  | _, _ => false

/-- Structural equality with `+` and `×` treated as commutative (the
equivalence the spec's hash-consing guarantee is stated in). -/
def commEq : CTree → CTree → Bool
  | .BConstant _ a, .BConstant _ b => a == b
  | .XConstant _ a, .XConstant _ b => a == b
  | .Input _ a, .Input _ b => a == b
  | .Challenge _ a, .Challenge _ b => a == b
  | .BinaryOperation _ o1 l1 r1, .BinaryOperation _ o2 l2 r2 =>
    o1 == o2 && (commEq l1 l2 && commEq r1 r2 ||
      (o1 == BinOp.Add || o1 == BinOp.Mul) && commEq l1 r2 && commEq r1 l2)
  | _, _ => false

/-- `ConstraintCircuit::evaluates_to_base_element`. -/
def evaluates_to_base_element : CTree → Bool
  | .BConstant _ _ => true
  | .XConstant _ _ => false
  | .Input _ indicator => indicator.is_base_table_column
  | .Challenge _ _ => false
  | .BinaryOperation _ _ lhs rhs =>
    lhs.evaluates_to_base_element && rhs.evaluates_to_base_element

/-- `ConstraintCircuit::degree`. -/
def degree (t : CTree) : Int :=
  if t.is_zero then -1
  else
    match t with
    | .BinaryOperation _ binop lhs rhs =>
      let degree_lhs := lhs.degree
      let degree_rhs := rhs.degree
      let degree_additive := max degree_lhs degree_rhs
      let degree_multiplicative :=
        if degree_lhs = -1 ∨ degree_rhs = -1 then -1
        else degree_lhs + degree_rhs
      match binop with
      | .Add | .Sub => degree_additive
      | .Mul => degree_multiplicative
    | .Input _ _ => 1
    | .BConstant _ _ | .XConstant _ _ | .Challenge _ _ => 0

end CTree

/-- `XFieldElement::unlift`: a base-field value when coefficients 1 and 2
vanish (external `twenty_first` helper; spec §4.4: an `XConst` that fits in
the base field is silently lowered). -/
def XFE.unlift (x : XFE) : Option BFE :=
  if x.c1 = 0 ∧ x.c2 = 0 then some x.c0 else none

namespace BinOp

/-- `BinOp::operation` at base ⊙ base. -/
def operationBB : BinOp → BFE → BFE → BFE
  | .Add, l, r => l + r
  | .Sub, l, r => l - r
  | .Mul, l, r => l * r

/-- `BinOp::operation` at base ⊙ extension (mixed ops of `twenty_first`:
the base operand acts on coefficient 0, resp. scalarly for `Mul`). -/
def operationBX : BinOp → BFE → XFE → XFE
  | .Add, l, r => ⟨l + r.c0, r.c1, r.c2⟩
  | .Sub, l, r => ⟨l - r.c0, 0 - r.c1, 0 - r.c2⟩
  | .Mul, l, r => ⟨l * r.c0, l * r.c1, l * r.c2⟩

/-- `BinOp::operation` at extension ⊙ base. -/
def operationXB : BinOp → XFE → BFE → XFE
  | .Add, l, r => l.addB r
  | .Sub, l, r => l.subB r
  | .Mul, l, r => ⟨l.c0 * r, l.c1 * r, l.c2 * r⟩

/-- `BinOp::operation` at extension ⊙ extension. -/
def operationXX : BinOp → XFE → XFE → XFE
  | .Add, l, r => l.add r
  | .Sub, l, r => l.sub r
  | .Mul, l, r => l.mul r

end BinOp

/-- The `XConstant`-lowering step of `ConstraintCircuitBuilder::make_leaf`
applied to a freshly created constant (new constants created during
constant folding pass through `make_leaf`; the id a builder would assign is
irrelevant to circuit equality and fixed to 0 in the tree view). -/
def make_leaf_lowered (e : CTree) : CTree :=
  match e with
  | .XConstant i x =>
    match x.unlift with
    | some b => .BConstant i b
    | none => .XConstant i x
  | e => e

/-- `ConstraintCircuitMonad::find_equivalent_expression`, on the tree view:
the neutral-element and annihilation rules in source order, then constant
evaluation (respecting base/extension typing) for constant-only nodes. -/
def find_equivalent_expression (t : CTree) : Option CTree :=
  match t with
  | .BinaryOperation _ op lhs rhs =>
    if (op = .Add ∨ op = .Sub) ∧ rhs.is_zero then some lhs
    else if op = .Add ∧ lhs.is_zero then some rhs
    else if op = .Mul ∧ rhs.is_one then some lhs
    else if op = .Mul ∧ lhs.is_one then some rhs
    else if op = .Mul ∧ lhs.is_zero then some lhs
    else if op = .Mul ∧ rhs.is_zero then some rhs
    else
      match lhs, rhs with
      | .BConstant _ l, .BConstant _ r =>
        some (make_leaf_lowered (.BConstant 0 (op.operationBB l r)))
      | .BConstant _ l, .XConstant _ r =>
        some (make_leaf_lowered (.XConstant 0 (op.operationBX l r)))
      | .XConstant _ l, .BConstant _ r =>
        some (make_leaf_lowered (.XConstant 0 (op.operationXB l r)))
      | .XConstant _ l, .XConstant _ r =>
        some (make_leaf_lowered (.XConstant 0 (op.operationXX l r)))
      | _, _ => none
  | _ => none

/-- `ConstraintCircuitMonad::constant_fold_inner`, on the tree view: fold
both children, then look for an equivalent expression of the updated node;
the boolean records whether any change was applied. -/
def constant_fold_inner : CTree → Bool × CTree
  | .BinaryOperation i op lhs rhs =>
    let foldedL := constant_fold_inner lhs
    let foldedR := constant_fold_inner rhs
    let t2 := CTree.BinaryOperation i op foldedL.2 foldedR.2
    match find_equivalent_expression t2 with
    | some equivalent => (true, equivalent)
    | none => (foldedL.1 || foldedR.1, t2)
  | t => (false, t)

/-- The `while mutated` loop of
`ConstraintCircuitMonad::constant_folding` for one root, with explicit
fuel: each mutation strictly shrinks the tree, so `sizeT` fuel reaches the
fixed point (`constant_folding_reaches_fixpoint` below). -/
def constant_folding_loop : Nat → CTree → CTree
  | 0, t => t
  | fuel + 1, t =>
    match constant_fold_inner t with
    | (true, t2) => constant_folding_loop fuel t2
    | (false, _) => t

/-- `ConstraintCircuitMonad::constant_folding`, for one root: apply
`constant_fold_inner` until no change is reported. -/
def constant_folding_root (t : CTree) : CTree :=
  constant_folding_loop t.sizeT t


namespace CTree

theorem exprEq_refl (t : CTree) : exprEq t t = true := by
  induction t with
  | BinaryOperation i op l r ihl ihr => simp [exprEq, ihl, ihr]
  | _ => simp [exprEq]

theorem exprEq_sizeT : ∀ {s t : CTree}, exprEq s t = true → s.sizeT = t.sizeT := by
  intro s
  induction s with
  | BinaryOperation i op l r ihl ihr =>
    intro t h
    cases t
    case BinaryOperation i2 op2 l2 r2 =>
      simp only [exprEq, Bool.and_eq_true] at h
      obtain ⟨⟨-, hl⟩, hr⟩ := h
      simp [sizeT, ihl hl, ihr hr]
    all_goals simp [exprEq] at h
  | XConstant i x => intro t h; cases t <;> simp [exprEq] at h <;> simp [sizeT]
  | BConstant i b => intro t h; cases t <;> simp [exprEq] at h <;> simp [sizeT]
  | Input i ii => intro t h; cases t <;> simp [exprEq] at h <;> simp [sizeT]
  | Challenge i c => intro t h; cases t <;> simp [exprEq] at h <;> simp [sizeT]

end CTree

theorem inner_of_is_zero {t : CTree} (h : t.is_zero = true) :
    constant_fold_inner t = (false, t) := by
  cases t <;> first | rfl | simp [CTree.is_zero] at h

theorem inner_of_is_one {t : CTree} (h : t.is_one = true) :
    constant_fold_inner t = (false, t) := by
  cases t <;> first | rfl | simp [CTree.is_one] at h

theorem inner_false_fix : ∀ {t : CTree},
    (constant_fold_inner t).1 = false → (constant_fold_inner t).2 = t := by
  intro t
  induction t with
  | BinaryOperation i op l r ihl ihr =>
    intro h
    simp only [constant_fold_inner] at h ⊢
    cases hfe : find_equivalent_expression
        (.BinaryOperation i op (constant_fold_inner l).2
          (constant_fold_inner r).2) with
    | some e => simp [hfe] at h
    | none =>
      simp only [hfe] at h ⊢
      simp only [Bool.or_eq_false_iff] at h
      rw [ihl h.1, ihr h.2]
  | XConstant i x => intro h; rfl
  | BConstant i b => intro h; rfl
  | Input i ii => intro h; rfl
  | Challenge i c => intro h; rfl

theorem make_leaf_lowered_sizeT (e : CTree) (h : e.sizeT = 1) :
    (make_leaf_lowered e).sizeT = 1 := by
  cases e with
  | XConstant i x =>
    rw [make_leaf_lowered]
    cases x.unlift <;> rfl
  | BinaryOperation i op l r => exact h
  | _ => exact h

/-- The result of `find_equivalent_expression` is a child of the node or a
freshly created constant leaf. -/
theorem find_equiv_cases {i : Nat} {op : BinOp} {l r e : CTree}
    (h : find_equivalent_expression (.BinaryOperation i op l r) = some e) :
    e = l ∨ e = r ∨ e.sizeT = 1 := by
  simp only [find_equivalent_expression] at h
  split_ifs at h
  · cases h; exact Or.inl rfl
  · cases h; exact Or.inr (Or.inl rfl)
  · cases h; exact Or.inl rfl
  · cases h; exact Or.inr (Or.inl rfl)
  · cases h; exact Or.inl rfl
  · cases h; exact Or.inr (Or.inl rfl)
  · split at h
    · cases h
      exact Or.inr (Or.inr (make_leaf_lowered_sizeT _ rfl))
    · cases h
      exact Or.inr (Or.inr (make_leaf_lowered_sizeT _ rfl))
    · cases h
      exact Or.inr (Or.inr (make_leaf_lowered_sizeT _ rfl))
    · cases h
      exact Or.inr (Or.inr (make_leaf_lowered_sizeT _ rfl))
    · exact Option.noConfusion h

theorem find_equiv_sizeT {i : Nat} {op : BinOp} {l r e : CTree}
    (h : find_equivalent_expression (.BinaryOperation i op l r) = some e) :
    e.sizeT < (CTree.BinaryOperation i op l r).sizeT := by
  have hl := l.sizeT_pos
  have hr := r.sizeT_pos
  rcases find_equiv_cases h with rfl | rfl | h1 <;> simp [CTree.sizeT] <;> omega


theorem inner_sizeT (t : CTree) :
    (constant_fold_inner t).2.sizeT ≤ t.sizeT ∧
    ((constant_fold_inner t).1 = true →
      (constant_fold_inner t).2.sizeT < t.sizeT) := by
  induction t with
  | BinaryOperation i op l r ihl ihr =>
    simp only [constant_fold_inner]
    cases hfe : find_equivalent_expression
        (.BinaryOperation i op (constant_fold_inner l).2
          (constant_fold_inner r).2) with
    | some e =>
      have h1 := find_equiv_sizeT hfe
      simp only [CTree.sizeT] at h1 ⊢
      have h2 := ihl.1
      have h3 := ihr.1
      exact ⟨by omega, fun _ => by omega⟩
    | none =>
      simp only [CTree.sizeT]
      have h2 := ihl.1
      have h3 := ihr.1
      refine ⟨by omega, fun hflag => ?_⟩
      rcases Bool.or_eq_true_iff.mp hflag with hf | hf
      · have := ihl.2 hf
        omega
      · have := ihr.2 hf
        omega
  | XConstant i x => exact ⟨le_refl _, fun h => Bool.noConfusion h⟩
  | BConstant i b => exact ⟨le_refl _, fun h => Bool.noConfusion h⟩
  | Input i ii => exact ⟨le_refl _, fun h => Bool.noConfusion h⟩
  | Challenge i c => exact ⟨le_refl _, fun h => Bool.noConfusion h⟩

theorem inner_lt {t t2 : CTree} (h : constant_fold_inner t = (true, t2)) :
    t2.sizeT < t.sizeT := by
  have := (inner_sizeT t).2
  rw [h] at this
  exact this rfl

theorem root_of_inner_false {t : CTree}
    (h : (constant_fold_inner t).1 = false) : constant_folding_root t = t := by
  rw [constant_folding_root]
  have h1 : t.sizeT = (t.sizeT - 1) + 1 := by
    have := t.sizeT_pos
    omega
  rw [h1, constant_folding_loop]
  cases hin : constant_fold_inner t with
  | mk flag t2 =>
    rw [hin] at h
    cases flag
    · simp
    · simp at h

theorem loop_congr : ∀ (f : Nat) {g : Nat} {t : CTree}, t.sizeT ≤ f →
    t.sizeT ≤ g → constant_folding_loop f t = constant_folding_loop g t := by
  intro f
  induction f with
  | zero =>
    intro g t hf hg
    have := t.sizeT_pos
    omega
  | succ n ih =>
    intro g t hf hg
    cases g with
    | zero =>
      have := t.sizeT_pos
      omega
    | succ m =>
      simp only [constant_folding_loop]
      cases hin : constant_fold_inner t with
      | mk flag t2 =>
        cases flag
        · simp
        · simp only []
          have hlt := inner_lt hin
          exact ih (by omega) (by omega)

theorem root_step {t t2 : CTree} (h : constant_fold_inner t = (true, t2)) :
    constant_folding_root t = constant_folding_root t2 := by
  rw [constant_folding_root, constant_folding_root]
  have h1 : t.sizeT = (t.sizeT - 1) + 1 := by
    have := t.sizeT_pos
    omega
  rw [h1, constant_folding_loop, h]
  have hlt := inner_lt h
  exact loop_congr _ (by omega) (le_refl _)

theorem root_inner (t : CTree) :
    constant_folding_root (constant_fold_inner t).2 = constant_folding_root t := by
  cases hin : constant_fold_inner t with
  | mk flag t2 =>
    cases flag
    · have hfix : (constant_fold_inner t).2 = t := inner_false_fix (by rw [hin])
      rw [hin] at hfix
      simp only at hfix
      rw [hfix]
    · exact (root_step hin).symm

/-- Once `constant_fold_inner` reports no change, the loop has reached the
fixed point; with `sizeT` fuel, `constant_folding_root` reaches it (the
Rust loop has no fuel, and this is its termination witness). -/
theorem constant_folding_reaches_fixpoint (t : CTree) :
    (constant_fold_inner (constant_folding_root t)).1 = false := by
  suffices h : ∀ (n : Nat) (u : CTree), u.sizeT ≤ n →
      (constant_fold_inner (constant_folding_root u)).1 = false by
    exact h t.sizeT t (le_refl _)
  intro n
  induction n with
  | zero =>
    intro u hu
    have := u.sizeT_pos
    omega
  | succ m ih =>
    intro u hu
    cases hin : constant_fold_inner u with
    | mk flag t2 =>
      cases flag
      · rw [root_of_inner_false (by rw [hin])]
        rw [hin]
      · rw [root_step hin]
        exact ih t2 (by have := inner_lt hin; omega)


/-- Well-formedness of the constants in a tree: every `XConstant` is
unliftable.  Every node a `ConstraintCircuitBuilder` creates satisfies this,
since `make_leaf` silently lowers liftable extension constants. -/
def wf_constants : CTree → Bool
  | .XConstant _ x => x.unlift == none
  | .BinaryOperation _ _ lhs rhs => wf_constants lhs && wf_constants rhs
  | _ => true

theorem wf_make_leaf_lowered (i : Nat) (x : XFE) :
    wf_constants (make_leaf_lowered (.XConstant i x)) = true := by
  rw [make_leaf_lowered]
  cases hu : x.unlift with
  | none => simp [wf_constants, hu]
  | some b => rfl

theorem wf_find_equiv {i : Nat} {op : BinOp} {l r e : CTree}
    (hw : wf_constants (.BinaryOperation i op l r) = true)
    (h : find_equivalent_expression (.BinaryOperation i op l r) = some e) :
    wf_constants e = true := by
  rw [wf_constants, Bool.and_eq_true] at hw
  simp only [find_equivalent_expression] at h
  split_ifs at h
  · cases h; exact hw.1
  · cases h; exact hw.2
  · cases h; exact hw.1
  · cases h; exact hw.2
  · cases h; exact hw.1
  · cases h; exact hw.2
  · split at h
    · cases h; rfl
    · cases h; exact wf_make_leaf_lowered _ _
    · cases h; exact wf_make_leaf_lowered _ _
    · cases h; exact wf_make_leaf_lowered _ _
    · exact Option.noConfusion h

theorem wf_inner : ∀ {t : CTree}, wf_constants t = true →
    wf_constants (constant_fold_inner t).2 = true := by
  intro t
  induction t with
  | BinaryOperation i op l r ihl ihr =>
    intro hw
    rw [wf_constants, Bool.and_eq_true] at hw
    simp only [constant_fold_inner]
    have hw2 : wf_constants (.BinaryOperation i op (constant_fold_inner l).2
        (constant_fold_inner r).2) = true := by
      rw [wf_constants, Bool.and_eq_true]
      exact ⟨ihl hw.1, ihr hw.2⟩
    cases hfe : find_equivalent_expression
        (.BinaryOperation i op (constant_fold_inner l).2
          (constant_fold_inner r).2) with
    | some e => exact wf_find_equiv hw2 hfe
    | none => exact hw2
  | XConstant i x => intro hw; exact hw
  | BConstant i b => intro hw; exact hw
  | Input i ii => intro hw; exact hw
  | Challenge i c => intro hw; exact hw

theorem wf_loop : ∀ (f : Nat) {t : CTree}, wf_constants t = true →
    wf_constants (constant_folding_loop f t) = true := by
  intro f
  induction f with
  | zero => intro t hw; exact hw
  | succ n ih =>
    intro t hw
    rw [constant_folding_loop]
    cases hin : constant_fold_inner t with
    | mk flag t2 =>
      cases flag
      · exact hw
      · have h2 : wf_constants t2 = true := by
          have := wf_inner hw
          rw [hin] at this
          exact this
        exact ih h2

theorem wf_root {t : CTree} (hw : wf_constants t = true) :
    wf_constants (constant_folding_root t) = true :=
  wf_loop _ hw

theorem zero_shape {t : CTree} (hz : t.is_zero = true)
    (hw : wf_constants t = true) : ∃ id, t = .BConstant id 0 := by
  cases t with
  | BConstant i b =>
    rw [CTree.is_zero, beq_iff_eq] at hz
    exact ⟨i, by rw [hz]⟩
  | XConstant i x =>
    rw [CTree.is_zero, beq_iff_eq] at hz
    rw [wf_constants, hz] at hw
    simp [XFE.unlift, XFE.zero] at hw
  | _ => simp [CTree.is_zero] at hz

theorem one_shape {t : CTree} (ho : t.is_one = true)
    (hw : wf_constants t = true) : ∃ id, t = .BConstant id 1 := by
  cases t with
  | BConstant i b =>
    rw [CTree.is_one, beq_iff_eq] at ho
    exact ⟨i, by rw [ho]⟩
  | XConstant i x =>
    rw [CTree.is_one, beq_iff_eq] at ho
    rw [wf_constants, ho] at hw
    simp [XFE.unlift, XFE.one] at hw
  | _ => simp [CTree.is_one] at ho

theorem zero_not_one {t : CTree} (hz : t.is_zero = true) : t.is_one = false := by
  cases t with
  | BConstant i b =>
    rw [CTree.is_zero, beq_iff_eq] at hz
    subst hz
    rw [CTree.is_one]
    decide
  | XConstant i x =>
    rw [CTree.is_zero, beq_iff_eq] at hz
    subst hz
    rw [CTree.is_one]
    decide
  | _ => rfl


theorem inner_binop_some {i : Nat} {op : BinOp} {l r e : CTree}
    (h : find_equivalent_expression
      (.BinaryOperation i op (constant_fold_inner l).2
        (constant_fold_inner r).2) = some e) :
    constant_fold_inner (.BinaryOperation i op l r) = (true, e) := by
  simp only [constant_fold_inner, h]

theorem fold_add_sub_zero (i : Nat) (op : BinOp)
    (hop : op = .Add ∨ op = .Sub) (a z : CTree) (hz : z.is_zero = true) :
    constant_folding_root (.BinaryOperation i op a z) =
      constant_folding_root a := by
  have hzin := inner_of_is_zero hz
  have hfe : find_equivalent_expression
      (.BinaryOperation i op (constant_fold_inner a).2
        (constant_fold_inner z).2) = some ((constant_fold_inner a).2) := by
    rw [hzin]
    simp only [find_equivalent_expression]
    rw [if_pos ⟨hop, hz⟩]
  rw [root_step (inner_binop_some hfe), root_inner]

theorem fold_zero_add (i : Nat) (a z : CTree) (hz : z.is_zero = true)
    (hwz : wf_constants z = true) (hwa : wf_constants a = true) :
    CTree.exprEq (constant_folding_root (.BinaryOperation i .Add z a))
      (constant_folding_root a) = true := by
  have hzin := inner_of_is_zero hz
  by_cases hz2 : (constant_fold_inner a).2.is_zero = true
  · have hfe : find_equivalent_expression
        (.BinaryOperation i .Add (constant_fold_inner z).2
          (constant_fold_inner a).2) = some z := by
      rw [hzin]
      simp only [find_equivalent_expression]
      rw [if_pos ⟨Or.inl trivial, hz2⟩]
    rw [root_step (inner_binop_some hfe)]
    rw [root_of_inner_false (by rw [hzin])]
    rw [← root_inner a, root_of_inner_false (by rw [inner_of_is_zero hz2])]
    obtain ⟨id1, rfl⟩ := zero_shape hz hwz
    obtain ⟨id2, he⟩ := zero_shape hz2 (wf_inner hwa)
    rw [he]
    simp [CTree.exprEq]
  · have hfe : find_equivalent_expression
        (.BinaryOperation i .Add (constant_fold_inner z).2
          (constant_fold_inner a).2) = some ((constant_fold_inner a).2) := by
      rw [hzin]
      simp only [find_equivalent_expression]
      rw [if_neg (by rintro ⟨-, hcc⟩; exact hz2 hcc), if_pos ⟨trivial, hz⟩]
    rw [root_step (inner_binop_some hfe), root_inner]
    exact CTree.exprEq_refl _

theorem fold_mul_one (i : Nat) (a o : CTree) (ho : o.is_one = true) :
    constant_folding_root (.BinaryOperation i .Mul a o) =
      constant_folding_root a := by
  have hoin := inner_of_is_one ho
  have hfe : find_equivalent_expression
      (.BinaryOperation i .Mul (constant_fold_inner a).2
        (constant_fold_inner o).2) = some ((constant_fold_inner a).2) := by
    rw [hoin]
    simp only [find_equivalent_expression]
    rw [if_neg (by rintro ⟨h | h, -⟩ <;> cases h),
      if_neg (by rintro ⟨h, -⟩; cases h), if_pos ⟨trivial, ho⟩]
  rw [root_step (inner_binop_some hfe), root_inner]

theorem fold_one_mul (i : Nat) (a o : CTree) (ho : o.is_one = true)
    (hwo : wf_constants o = true) (hwa : wf_constants a = true) :
    CTree.exprEq (constant_folding_root (.BinaryOperation i .Mul o a))
      (constant_folding_root a) = true := by
  have hoin := inner_of_is_one ho
  by_cases ho2 : (constant_fold_inner a).2.is_one = true
  · have hfe : find_equivalent_expression
        (.BinaryOperation i .Mul (constant_fold_inner o).2
          (constant_fold_inner a).2) = some o := by
      rw [hoin]
      simp only [find_equivalent_expression]
      rw [if_neg (by rintro ⟨h | h, -⟩ <;> cases h),
        if_neg (by rintro ⟨h, -⟩; cases h), if_pos ⟨trivial, ho2⟩]
    rw [root_step (inner_binop_some hfe)]
    rw [root_of_inner_false (by rw [hoin])]
    rw [← root_inner a, root_of_inner_false (by rw [inner_of_is_one ho2])]
    obtain ⟨id1, rfl⟩ := one_shape ho hwo
    obtain ⟨id2, he⟩ := one_shape ho2 (wf_inner hwa)
    rw [he]
    simp [CTree.exprEq]
  · have hfe : find_equivalent_expression
        (.BinaryOperation i .Mul (constant_fold_inner o).2
          (constant_fold_inner a).2) = some ((constant_fold_inner a).2) := by
      rw [hoin]
      simp only [find_equivalent_expression]
      rw [if_neg (by rintro ⟨h | h, -⟩ <;> cases h),
        if_neg (by rintro ⟨h, -⟩; cases h),
        if_neg (by rintro ⟨-, hcc⟩; exact ho2 hcc), if_pos ⟨trivial, ho⟩]
    rw [root_step (inner_binop_some hfe), root_inner]
    exact CTree.exprEq_refl _

theorem fold_mul_zero_r (i : Nat) (a z : CTree) (hz : z.is_zero = true) :
    (constant_folding_root (.BinaryOperation i .Mul a z)).is_zero = true := by
  have hzin := inner_of_is_zero hz
  by_cases h4 : (constant_fold_inner a).2.is_one = true
  · have hfe : find_equivalent_expression
        (.BinaryOperation i .Mul (constant_fold_inner a).2
          (constant_fold_inner z).2) = some z := by
      rw [hzin]
      simp only [find_equivalent_expression]
      rw [if_neg (by rintro ⟨h | h, -⟩ <;> cases h),
        if_neg (by rintro ⟨h, -⟩; cases h),
        if_neg (by rintro ⟨-, hcc⟩; rw [zero_not_one hz] at hcc; cases hcc),
        if_pos ⟨trivial, h4⟩]
    rw [root_step (inner_binop_some hfe),
      root_of_inner_false (by rw [hzin])]
    exact hz
  · by_cases h5 : (constant_fold_inner a).2.is_zero = true
    · have hfe : find_equivalent_expression
          (.BinaryOperation i .Mul (constant_fold_inner a).2
            (constant_fold_inner z).2) = some ((constant_fold_inner a).2) := by
        rw [hzin]
        simp only [find_equivalent_expression]
        rw [if_neg (by rintro ⟨h | h, -⟩ <;> cases h),
          if_neg (by rintro ⟨h, -⟩; cases h),
          if_neg (by rintro ⟨-, hcc⟩; rw [zero_not_one hz] at hcc; cases hcc),
          if_neg (by rintro ⟨-, hcc⟩; exact h4 hcc), if_pos ⟨trivial, h5⟩]
      rw [root_step (inner_binop_some hfe),
        root_of_inner_false (by rw [inner_of_is_zero h5])]
      exact h5
    · have hfe : find_equivalent_expression
          (.BinaryOperation i .Mul (constant_fold_inner a).2
            (constant_fold_inner z).2) = some z := by
        rw [hzin]
        simp only [find_equivalent_expression]
        rw [if_neg (by rintro ⟨h | h, -⟩ <;> cases h),
          if_neg (by rintro ⟨h, -⟩; cases h),
          if_neg (by rintro ⟨-, hcc⟩; rw [zero_not_one hz] at hcc; cases hcc),
          if_neg (by rintro ⟨-, hcc⟩; exact h4 hcc),
          if_neg (by rintro ⟨-, hcc⟩; exact h5 hcc), if_pos ⟨trivial, hz⟩]
      rw [root_step (inner_binop_some hfe),
        root_of_inner_false (by rw [hzin])]
      exact hz

theorem fold_mul_zero_l (i : Nat) (a z : CTree) (hz : z.is_zero = true) :
    (constant_folding_root (.BinaryOperation i .Mul z a)).is_zero = true := by
  have hzin := inner_of_is_zero hz
  by_cases h3 : (constant_fold_inner a).2.is_one = true
  · have hfe : find_equivalent_expression
        (.BinaryOperation i .Mul (constant_fold_inner z).2
          (constant_fold_inner a).2) = some z := by
      rw [hzin]
      simp only [find_equivalent_expression]
      rw [if_neg (by rintro ⟨h | h, -⟩ <;> cases h),
        if_neg (by rintro ⟨h, -⟩; cases h), if_pos ⟨trivial, h3⟩]
    rw [root_step (inner_binop_some hfe),
      root_of_inner_false (by rw [hzin])]
    exact hz
  · have hfe : find_equivalent_expression
        (.BinaryOperation i .Mul (constant_fold_inner z).2
          (constant_fold_inner a).2) = some z := by
      rw [hzin]
      simp only [find_equivalent_expression]
      rw [if_neg (by rintro ⟨h | h, -⟩ <;> cases h),
        if_neg (by rintro ⟨h, -⟩; cases h),
        if_neg (by rintro ⟨-, hcc⟩; exact h3 hcc),
        if_neg (by rintro ⟨-, hcc⟩; rw [zero_not_one hz] at hcc; cases hcc),
        if_pos ⟨trivial, hz⟩]
    rw [root_step (inner_binop_some hfe),
      root_of_inner_false (by rw [hzin])]
    exact hz

/-- A constant leaf node: `BConstant` or `XConstant`. -/
def CTree.is_constant : CTree → Bool
  | .BConstant _ _ => true
  | .XConstant _ _ => true
  | _ => false

theorem inner_of_constant {t : CTree} (h : t.is_constant = true) :
    constant_fold_inner t = (false, t) := by
  cases t <;> first | rfl | simp [CTree.is_constant] at h

theorem root_of_constant {e : CTree} (h : e.is_constant = true) :
    constant_folding_root e = e := by
  cases e <;> first | exact root_of_inner_false rfl | simp [CTree.is_constant] at h

theorem make_leaf_lowered_constant (j : Nat) (x : XFE) :
    (make_leaf_lowered (.XConstant j x)).is_constant = true := by
  rw [make_leaf_lowered]
  cases x.unlift <;> rfl

theorem inner_binop_none {i : Nat} {op : BinOp} {l r : CTree}
    (h : find_equivalent_expression
      (.BinaryOperation i op (constant_fold_inner l).2
        (constant_fold_inner r).2) = none) :
    constant_fold_inner (.BinaryOperation i op l r) =
      ((constant_fold_inner l).1 || (constant_fold_inner r).1,
        .BinaryOperation i op (constant_fold_inner l).2
          (constant_fold_inner r).2) := by
  simp only [constant_fold_inner, h]

/-- In the Goldilocks field `0 - c = c` forces `c = 0` (the modulus is odd). -/
theorem bfe_neg_eq_self {c : BFE} (h : (0 : BFE) - c = c) : c = 0 := by
  have h2 : c + c = (0 : BFE) := (sub_eq_iff_eq_add.mp h).symm
  have hv : (c.val + c.val) % P = 0 := by
    have h3 := congrArg Fin.val h2
    rwa [Fin.val_add] at h3
  obtain ⟨k, hk⟩ := Nat.dvd_of_mod_eq_zero hv
  have hc : c.val < P := c.isLt
  have hodd : P % 2 = 1 := by norm_num [P]
  have hval : c.val = 0 := by
    rcases k with _ | _ | k
    · omega
    · omega
    · exfalso
      have h5 : P * 2 ≤ P * (k + 1 + 1) :=
        Nat.mul_le_mul (le_refl P) (by omega)
      rw [← hk] at h5
      omega
  exact Fin.ext (by rw [hval]; rfl)

theorem unlift_none_ne_zero {x : XFE} (h : x.unlift = none) :
    (x == XFE.zero) = false := by
  rw [beq_eq_false_iff_ne]
  rintro rfl
  simp [XFE.unlift, XFE.zero] at h

theorem unlift_none_ne_one {x : XFE} (h : x.unlift = none) :
    (x == XFE.one) = false := by
  rw [beq_eq_false_iff_ne]
  rintro rfl
  simp [XFE.unlift, XFE.one] at h

/-- Folding a node with two base-constant children yields the base constant
of the evaluated operation (every rule of the chain agrees with the
evaluation). -/
theorem fold_BB (i j k : Nat) (op : BinOp) (l r : BFE) :
    ∃ m, constant_folding_root
      (.BinaryOperation i op (.BConstant j l) (.BConstant k r)) =
        .BConstant m (op.operationBB l r) := by
  have key : ∃ m, find_equivalent_expression
      (.BinaryOperation i op (.BConstant j l) (.BConstant k r)) =
        some (.BConstant m (op.operationBB l r)) := by
    simp only [find_equivalent_expression]
    split_ifs with h1 h2 h3 h4 h5 h6
    · obtain ⟨hop, hr⟩ := h1
      rw [CTree.is_zero, beq_iff_eq] at hr
      subst hr
      refine ⟨j, ?_⟩
      rcases hop with rfl | rfl <;> simp [BinOp.operationBB]
    · obtain ⟨rfl, hl⟩ := h2
      rw [CTree.is_zero, beq_iff_eq] at hl
      subst hl
      exact ⟨k, by simp [BinOp.operationBB]⟩
    · obtain ⟨rfl, hr⟩ := h3
      rw [CTree.is_one, beq_iff_eq] at hr
      subst hr
      exact ⟨j, by simp [BinOp.operationBB]⟩
    · obtain ⟨rfl, hl⟩ := h4
      rw [CTree.is_one, beq_iff_eq] at hl
      subst hl
      exact ⟨k, by simp [BinOp.operationBB]⟩
    · obtain ⟨rfl, hl⟩ := h5
      rw [CTree.is_zero, beq_iff_eq] at hl
      subst hl
      exact ⟨j, by simp [BinOp.operationBB]⟩
    · obtain ⟨rfl, hr⟩ := h6
      rw [CTree.is_zero, beq_iff_eq] at hr
      subst hr
      exact ⟨k, by simp [BinOp.operationBB]⟩
    · exact ⟨0, rfl⟩
  obtain ⟨m, hfe⟩ := key
  refine ⟨m, ?_⟩
  rw [root_step (inner_binop_some hfe)]
  exact root_of_inner_false rfl

/-- Folding a node whose children are extension constants that do not fit
in the base field evaluates the operation and passes the result through the
`make_leaf` lowering (so the result can still be a base constant). -/
theorem fold_XX (i j k : Nat) (op : BinOp) (l r : XFE)
    (hl : l.unlift = none) (hr : r.unlift = none) :
    constant_folding_root
      (.BinaryOperation i op (.XConstant j l) (.XConstant k r)) =
        make_leaf_lowered (.XConstant 0 (op.operationXX l r)) := by
  have hfe : find_equivalent_expression
      (.BinaryOperation i op (.XConstant j l) (.XConstant k r)) =
        some (make_leaf_lowered (.XConstant 0 (op.operationXX l r))) := by
    simp only [find_equivalent_expression]
    rw [if_neg (by
        rintro ⟨-, hc⟩
        rw [CTree.is_zero, unlift_none_ne_zero hr] at hc
        exact Bool.false_ne_true hc),
      if_neg (by
        rintro ⟨-, hc⟩
        rw [CTree.is_zero, unlift_none_ne_zero hl] at hc
        exact Bool.false_ne_true hc),
      if_neg (by
        rintro ⟨-, hc⟩
        rw [CTree.is_one, unlift_none_ne_one hr] at hc
        exact Bool.false_ne_true hc),
      if_neg (by
        rintro ⟨-, hc⟩
        rw [CTree.is_one, unlift_none_ne_one hl] at hc
        exact Bool.false_ne_true hc),
      if_neg (by
        rintro ⟨-, hc⟩
        rw [CTree.is_zero, unlift_none_ne_zero hl] at hc
        exact Bool.false_ne_true hc),
      if_neg (by
        rintro ⟨-, hc⟩
        rw [CTree.is_zero, unlift_none_ne_zero hr] at hc
        exact Bool.false_ne_true hc)]
  rw [root_step (inner_binop_some hfe)]
  exact root_of_constant (make_leaf_lowered_constant 0 _)

/-- Folding any node with two constant children yields a single constant
node. -/
theorem fold_const_const (i : Nat) (op : BinOp) {l r : CTree}
    (hl : l.is_constant = true) (hr : r.is_constant = true) :
    (constant_folding_root (.BinaryOperation i op l r)).is_constant = true := by
  have key : ∃ e, find_equivalent_expression
      (.BinaryOperation i op l r) = some e ∧ e.is_constant = true := by
    simp only [find_equivalent_expression]
    split_ifs
    · exact ⟨l, rfl, hl⟩
    · exact ⟨r, rfl, hr⟩
    · exact ⟨l, rfl, hl⟩
    · exact ⟨r, rfl, hr⟩
    · exact ⟨l, rfl, hl⟩
    · exact ⟨r, rfl, hr⟩
    · cases l <;> cases r <;>
        first
          | exact ⟨_, rfl, rfl⟩
          | exact ⟨_, rfl, make_leaf_lowered_constant 0 _⟩
          | simp [CTree.is_constant] at hl hr
  obtain ⟨e, hfe, hc⟩ := key
  have hfe2 : find_equivalent_expression
      (.BinaryOperation i op (constant_fold_inner l).2
        (constant_fold_inner r).2) = some e := by
    rw [inner_of_constant hl, inner_of_constant hr]
    exact hfe
  rw [root_step (inner_binop_some hfe2), root_of_constant hc]
  exact hc

/-- `constant_folding` never identifies `0 - a` with `a` unless the folded
`a` is the constant zero: there is no rewrite rule for `Sub` with a zero
left operand, and constant evaluation of `0 - c` returns `c` only for
`c = 0` (the modulus is odd). -/
theorem fold_zero_sub_aux : ∀ (n : Nat) (a : CTree), a.sizeT ≤ n →
    ∀ (i idz : Nat), wf_constants a = true →
    CTree.exprEq
      (constant_folding_root
        (.BinaryOperation i .Sub (.BConstant idz 0) a))
      (constant_folding_root a) = true →
    (constant_folding_root a).is_zero = true := by
  intro n
  induction n with
  | zero =>
    intro a ha
    have := a.sizeT_pos
    omega
  | succ m ih =>
    intro a ha i idz hwa heq
    by_cases hz2 : (constant_fold_inner a).2.is_zero = true
    · rw [← root_inner a,
        root_of_inner_false (by rw [inner_of_is_zero hz2])]
      exact hz2
    · by_cases hcst : (constant_fold_inner a).2.is_constant = true
      · cases hca2 : (constant_fold_inner a).2 with
        | BConstant k c =>
          have hfe : find_equivalent_expression
              (.BinaryOperation i .Sub
                (constant_fold_inner (CTree.BConstant idz 0)).2
                (constant_fold_inner a).2) =
              some (.BConstant 0 ((0 : BFE) - c)) := by
            rw [hca2]
            show find_equivalent_expression
              (.BinaryOperation i .Sub (.BConstant idz 0)
                (.BConstant k c)) = some (.BConstant 0 ((0 : BFE) - c))
            simp only [find_equivalent_expression]
            rw [if_neg (by
                rintro ⟨-, hcc⟩
                rw [hca2] at hz2
                exact hz2 hcc),
              if_neg (by rintro ⟨hcc, -⟩; cases hcc),
              if_neg (by rintro ⟨hcc, -⟩; cases hcc),
              if_neg (by rintro ⟨hcc, -⟩; cases hcc),
              if_neg (by rintro ⟨hcc, -⟩; cases hcc),
              if_neg (by rintro ⟨hcc, -⟩; cases hcc)]
            rfl
          rw [root_step (inner_binop_some hfe),
            show constant_folding_root (CTree.BConstant 0 ((0 : BFE) - c)) =
              CTree.BConstant 0 ((0 : BFE) - c) from root_of_inner_false rfl,
            ← root_inner a, hca2,
            show constant_folding_root (CTree.BConstant k c) =
              CTree.BConstant k c from root_of_inner_false rfl] at heq
          rw [CTree.exprEq, beq_iff_eq] at heq
          have hc0 := bfe_neg_eq_self heq
          rw [hca2] at hz2
          exact absurd (by rw [CTree.is_zero, hc0]; decide) hz2
        | XConstant k x =>
          have hx : x.unlift = none := by
            have hw2 := wf_inner hwa
            rw [hca2, wf_constants] at hw2
            rwa [beq_iff_eq] at hw2
          have hfe : find_equivalent_expression
              (.BinaryOperation i .Sub
                (constant_fold_inner (CTree.BConstant idz 0)).2
                (constant_fold_inner a).2) =
              some (.XConstant 0 (BinOp.operationBX .Sub 0 x)) := by
            rw [hca2]
            show find_equivalent_expression
              (.BinaryOperation i .Sub (.BConstant idz 0)
                (.XConstant k x)) =
                some (.XConstant 0 (BinOp.operationBX .Sub 0 x))
            simp only [find_equivalent_expression]
            rw [if_neg (by
                rintro ⟨-, hcc⟩
                rw [CTree.is_zero, unlift_none_ne_zero hx] at hcc
                exact Bool.false_ne_true hcc),
              if_neg (by rintro ⟨hcc, -⟩; cases hcc),
              if_neg (by rintro ⟨hcc, -⟩; cases hcc),
              if_neg (by rintro ⟨hcc, -⟩; cases hcc),
              if_neg (by rintro ⟨hcc, -⟩; cases hcc),
              if_neg (by rintro ⟨hcc, -⟩; cases hcc)]
            have hyl : (BinOp.operationBX .Sub (0 : BFE) x).unlift = none := by
              have hng : ¬((BinOp.operationBX .Sub (0 : BFE) x).c1 = 0 ∧
                  (BinOp.operationBX .Sub (0 : BFE) x).c2 = 0) := by
                rintro ⟨h1, h2⟩
                have h1b : (0 : BFE) - x.c1 = 0 := h1
                have h2b : (0 : BFE) - x.c2 = 0 := h2
                rw [zero_sub, neg_eq_zero] at h1b
                rw [zero_sub, neg_eq_zero] at h2b
                rw [XFE.unlift, if_pos ⟨h1b, h2b⟩] at hx
                exact Option.noConfusion hx
              rw [XFE.unlift, if_neg hng]
            simp only [make_leaf_lowered, hyl]
          rw [root_step (inner_binop_some hfe),
            show constant_folding_root
                (CTree.XConstant 0 (BinOp.operationBX .Sub 0 x)) =
              CTree.XConstant 0 (BinOp.operationBX .Sub 0 x) from
                root_of_inner_false rfl,
            ← root_inner a, hca2,
            show constant_folding_root (CTree.XConstant k x) =
              CTree.XConstant k x from root_of_inner_false rfl] at heq
          rw [CTree.exprEq, beq_iff_eq] at heq
          have h1 : (0 : BFE) - x.c1 = x.c1 := congrArg XFE.c1 heq
          have h2 : (0 : BFE) - x.c2 = x.c2 := congrArg XFE.c2 heq
          have hx1 := bfe_neg_eq_self h1
          have hx2 := bfe_neg_eq_self h2
          rw [XFE.unlift, if_pos ⟨hx1, hx2⟩] at hx
          exact Option.noConfusion hx
        | Input k ii =>
          rw [hca2] at hcst
          simp [CTree.is_constant] at hcst
        | Challenge k cid =>
          rw [hca2] at hcst
          simp [CTree.is_constant] at hcst
        | BinaryOperation k op2 l2 r2 =>
          rw [hca2] at hcst
          simp [CTree.is_constant] at hcst
      · have hfe : find_equivalent_expression
            (.BinaryOperation i .Sub
              (constant_fold_inner (CTree.BConstant idz 0)).2
              (constant_fold_inner a).2) = none := by
          show find_equivalent_expression
            (.BinaryOperation i .Sub (.BConstant idz 0)
              (constant_fold_inner a).2) = none
          simp only [find_equivalent_expression]
          rw [if_neg (by rintro ⟨-, hcc⟩; exact hz2 hcc),
            if_neg (by rintro ⟨hcc, -⟩; cases hcc),
            if_neg (by rintro ⟨hcc, -⟩; cases hcc),
            if_neg (by rintro ⟨hcc, -⟩; cases hcc),
            if_neg (by rintro ⟨hcc, -⟩; cases hcc),
            if_neg (by rintro ⟨hcc, -⟩; cases hcc)]
          cases hca2 : (constant_fold_inner a).2 with
          | BConstant k c =>
            rw [hca2] at hcst
            simp [CTree.is_constant] at hcst
          | XConstant k c =>
            rw [hca2] at hcst
            simp [CTree.is_constant] at hcst
          | Input k ii => rfl
          | Challenge k cid => rfl
          | BinaryOperation k op2 l2 r2 => rfl
        have hin : constant_fold_inner
            (.BinaryOperation i .Sub (.BConstant idz 0) a) =
            ((constant_fold_inner a).1,
              .BinaryOperation i .Sub (.BConstant idz 0)
                (constant_fold_inner a).2) := by
          rw [inner_binop_none hfe]
          rfl
        cases hflag : (constant_fold_inner a).1 with
        | false =>
          have h0 : (constant_fold_inner
              (.BinaryOperation i .Sub (.BConstant idz 0) a)).1 = false := by
            rw [hin]
            exact hflag
          rw [root_of_inner_false h0, root_of_inner_false hflag] at heq
          have hsz := CTree.exprEq_sizeT heq
          rw [CTree.sizeT] at hsz
          exact absurd hsz (by omega)
        | true =>
          have hstep : constant_fold_inner a =
              (true, (constant_fold_inner a).2) := by
            rw [← hflag]
          have hin2 : constant_fold_inner
              (.BinaryOperation i .Sub (.BConstant idz 0) a) =
              (true, .BinaryOperation i .Sub (.BConstant idz 0)
                (constant_fold_inner a).2) := by
            rw [hin, hflag]
          rw [root_step hin2, root_step hstep] at heq
          rw [root_step hstep]
          have hlt := inner_lt hstep
          exact ih (constant_fold_inner a).2 (by omega) i idz
            (wf_inner hwa) heq

/-- C5 counterexample: the claim says a base-field constant results from
constant evaluation iff both children are base-field constants.  Folding
the subtraction of the extension constants `(1,1,0)` and `(0,1,0)` (both
unliftable, hence legitimate builder nodes that do not evaluate to base
elements) produces the difference `(1,0,0)`, which `make_leaf` silently
lowers to the base constant `1`. -/
theorem constant_folding_counterexample :
    constant_folding_root
      (.BinaryOperation 2 .Sub (.XConstant 0 ⟨1, 1, 0⟩)
        (.XConstant 1 ⟨0, 1, 0⟩)) = .BConstant 0 1 ∧
    CTree.evaluates_to_base_element (.XConstant 0 ⟨1, 1, 0⟩) = false ∧
    CTree.evaluates_to_base_element (.XConstant 1 ⟨0, 1, 0⟩) = false ∧
    CTree.evaluates_to_base_element (.BConstant 0 1) = true := by
  decide

/-- C5: `constant_folding` rewrites `a + 0` and `a - 0` to (the folding of)
`a` exactly, `0 + a` and `1 * a` to it up to node ids (given the builder's
guarantee that extension constants are unliftable), `a * 1` to it exactly,
folds `a * 0` and `0 * a` to a zero constant, evaluates constant-only
binary nodes to a single constant node — `B ⊙ B` to the base constant of
the result, `X ⊙ X` (unliftable operands) to the `make_leaf`-lowered
extension result, which can be a base constant — and never identifies
`0 - a` with `a` unless `a` folds to zero. -/
theorem constant_folding_spec :
    (∀ (i : Nat) (op : BinOp) (a z : CTree), (op = .Add ∨ op = .Sub) →
      z.is_zero = true →
      constant_folding_root (.BinaryOperation i op a z) =
        constant_folding_root a) ∧
    (∀ (i : Nat) (a z : CTree), z.is_zero = true → wf_constants z = true →
      wf_constants a = true →
      CTree.exprEq (constant_folding_root (.BinaryOperation i .Add z a))
        (constant_folding_root a) = true) ∧
    (∀ (i : Nat) (a o : CTree), o.is_one = true →
      constant_folding_root (.BinaryOperation i .Mul a o) =
        constant_folding_root a) ∧
    (∀ (i : Nat) (a o : CTree), o.is_one = true → wf_constants o = true →
      wf_constants a = true →
      CTree.exprEq (constant_folding_root (.BinaryOperation i .Mul o a))
        (constant_folding_root a) = true) ∧
    (∀ (i : Nat) (a z : CTree), z.is_zero = true →
      (constant_folding_root (.BinaryOperation i .Mul a z)).is_zero = true) ∧
    (∀ (i : Nat) (a z : CTree), z.is_zero = true →
      (constant_folding_root (.BinaryOperation i .Mul z a)).is_zero = true) ∧
    (∀ (i j k : Nat) (op : BinOp) (l r : BFE), ∃ m,
      constant_folding_root
        (.BinaryOperation i op (.BConstant j l) (.BConstant k r)) =
        .BConstant m (op.operationBB l r)) ∧
    (∀ (i j k : Nat) (op : BinOp) (l r : XFE), l.unlift = none →
      r.unlift = none →
      constant_folding_root
        (.BinaryOperation i op (.XConstant j l) (.XConstant k r)) =
        make_leaf_lowered (.XConstant 0 (op.operationXX l r))) ∧
    (∀ (i : Nat) (op : BinOp) (l r : CTree), l.is_constant = true →
      r.is_constant = true →
      (constant_folding_root
        (.BinaryOperation i op l r)).is_constant = true) ∧
    (∀ (i : Nat) (z a : CTree), z.is_zero = true → wf_constants z = true →
      wf_constants a = true →
      CTree.exprEq (constant_folding_root (.BinaryOperation i .Sub z a))
        (constant_folding_root a) = true →
      (constant_folding_root a).is_zero = true) := by
  refine ⟨?_, ?_, ?_, ?_, ?_, ?_, ?_, ?_, ?_, ?_⟩
  · exact fun i op a z hop hz => fold_add_sub_zero i op hop a z hz
  · exact fun i a z hz hwz hwa => fold_zero_add i a z hz hwz hwa
  · exact fun i a o ho => fold_mul_one i a o ho
  · exact fun i a o ho hwo hwa => fold_one_mul i a o ho hwo hwa
  · exact fun i a z hz => fold_mul_zero_r i a z hz
  · exact fun i a z hz => fold_mul_zero_l i a z hz
  · exact fun i j k op l r => fold_BB i j k op l r
  · exact fun i j k op l r hl hr => fold_XX i j k op l r hl hr
  · exact fun i op l r hl hr => fold_const_const i op hl hr
  · intro i z a hz hwz hwa heq
    obtain ⟨idz, rfl⟩ := zero_shape hz hwz
    exact fold_zero_sub_aux a.sizeT a (le_refl _) i idz hwa heq

/-- Witness for C5 at concrete inputs: `input + 0` folds to the input, and
the `0 - a` conjunct applied to the zero constant. -/
theorem constant_folding_spec_witness :
    (constant_folding_root
      (.BinaryOperation 9 .Add (.Input 4 (.BaseRow 3)) (.BConstant 5 0)) =
      constant_folding_root (.Input 4 (.BaseRow 3))) ∧
    (constant_folding_root (.BConstant 1 0)).is_zero = true :=
  ⟨constant_folding_spec.1 9 .Add (.Input 4 (.BaseRow 3)) (.BConstant 5 0)
      (Or.inl rfl) (by decide),
    constant_folding_spec.2.2.2.2.2.2.2.2.2 3 (.BConstant 0 0)
      (.BConstant 1 0) (by decide) (by decide) (by decide) (by decide)⟩

/-- `CircuitExpression` in the arena view of a `ConstraintCircuitBuilder`:
binary operations refer to their children by node id (the `Rc` pointers of
the Rust code, with the arena giving each pointed-to circuit its id). -/
inductive CExpr where
  | BConstant (b : BFE)
  | XConstant (x : XFE)
  | Input (ii : SRI)
  | Challenge (cid : Nat)
  | BinaryOperation (op : BinOp) (lhs rhs : Nat)
  deriving DecidableEq

/-- A `ConstraintCircuit`: an id together with its expression
(`visited_counter` plays no role in the functions studied here). -/
structure CNode where
  id : Nat
  expr : CExpr
  deriving DecidableEq

/-- `ConstraintCircuitBuilder`: the shared `id_counter` and the
`all_nodes` set (as a list in insertion order). -/
structure Builder where
  id_counter : Nat
  all_nodes : List CNode
  deriving DecidableEq

/-- Resolve a child pointer: the node of `all_nodes` carrying id `i`. -/
def getNode (ns : List CNode) (i : Nat) : Option CNode :=
  ns.find? (fun n => n.id == i)

/-- Unfold an arena expression to the pointer tree it denotes (the ids of
the produced tree are irrelevant to `PartialEq` and set to 0); `none` when
a child id is dangling or the fuel is exhausted. -/
def unfoldE : Nat → List CNode → CExpr → Option CTree
  | _, _, .BConstant b => some (.BConstant 0 b)
  | _, _, .XConstant x => some (.XConstant 0 x)
  | _, _, .Input ii => some (.Input 0 ii)
  | _, _, .Challenge c => some (.Challenge 0 c)
  | 0, _, .BinaryOperation _ _ _ => none
  | fuel + 1, ns, .BinaryOperation op l r =>
    match getNode ns l, getNode ns r with
    | some nl, some nr =>
      match unfoldE fuel ns nl.expr, unfoldE fuel ns nr.expr with
      | some tl, some tr => some (.BinaryOperation 0 op tl tr)
      | _, _ => none
    | _, _ => none

/-- `PartialEq for CircuitExpression` on two arena expressions: deep
structural equality of the pointed-to trees, ignoring ids. -/
def deepEq (fuel : Nat) (ns : List CNode) (e1 e2 : CExpr) : Bool :=
  match unfoldE fuel ns e1, unfoldE fuel ns e2 with
  | some t1, some t2 => CTree.exprEq t1 t2
  | _, _ => false

/-- `all_nodes.get(&new_node)`: the set member whose expression equals the
probed expression (unique under the hash-consing invariant). -/
def findEq (s : Builder) (e : CExpr) : Option CNode :=
  s.all_nodes.find? (fun n => deepEq (s.id_counter + 1) s.all_nodes n.expr e)

/-- `ConstraintCircuitBuilder::make_leaf`: lower a liftable extension
constant, return an existing equal node if there is one, else insert a
fresh node under the current `id_counter` and bump the counter. -/
def make_leaf (s : Builder) (e0 : CExpr) : Builder × CNode :=
  let e := match e0 with
    | .XConstant x =>
      match x.unlift with
      | some b => .BConstant b
      | none => .XConstant x
    | e0 => e0
  let newNode : CNode := ⟨s.id_counter, e⟩
  match findEq s e with
  | some n => (s, n)
  | none => (⟨s.id_counter + 1, s.all_nodes ++ [newNode]⟩, newNode)

/-- The free function `binop`: look for the node itself, then (for the
commutative operators) for the operand-switched node, and only then insert
a fresh node and bump the counter. -/
def binop (op : BinOp) (s : Builder) (l r : CNode) : Builder × CNode :=
  let e := CExpr.BinaryOperation op l.id r.id
  let newNode : CNode := ⟨s.id_counter, e⟩
  match findEq s e with
  | some n => (s, n)
  | none =>
    match op, findEq s (.BinaryOperation op r.id l.id) with
    | .Add, some n => (s, n)
    | .Mul, some n => (s, n)
    | _, _ => (⟨s.id_counter + 1, s.all_nodes ++ [newNode]⟩, newNode)

/-- `ConstraintCircuitBuilder::substitute`: redirect every child edge
pointing to `old_id` towards `new`, skipping the node with `old_id`
itself. -/
def substitute (s : Builder) (old_id : Nat) (new : CNode) : Builder :=
  ⟨s.id_counter, s.all_nodes.map (fun n =>
    if n.id == old_id then n
    else
      match n.expr with
      | .BinaryOperation op l r =>
        ⟨n.id, .BinaryOperation op (if l == old_id then new.id else l)
          (if r == old_id then new.id else r)⟩
      | _ => n)⟩

/-- A builder state reached by legal API use: leaves `x`, `y`, `c`, the
nodes `x + c` and `y + c`, then `substitute(x.id, y)` (the call
`lower_to_degree` makes after picking a node). -/
def cexState : Builder :=
  let s0 : Builder := ⟨0, []⟩
  let r1 := make_leaf s0 (.Input (.BaseRow 0))
  let r2 := make_leaf r1.1 (.Input (.BaseRow 1))
  let r3 := make_leaf r2.1 (.Challenge 0)
  let r4 := binop .Add r3.1 r1.2 r3.2
  let r5 := binop .Add r4.1 r2.2 r3.2
  substitute r5.1 r1.2.id r2.2

/-- C6 counterexample: after building leaves `x`, `y`, `c` and the sums
`x + c`, `y + c`, the public `substitute(x.id, y)` — the rewiring
`lower_to_degree` performs — leaves two distinct nodes (ids 3 and 4) in
`all_nodes` whose expressions are structurally identical (`y + c`). -/
theorem builder_hash_consing_counterexample :
    (⟨3, .BinaryOperation .Add 1 2⟩ : CNode) ∈ cexState.all_nodes ∧
    (⟨4, .BinaryOperation .Add 1 2⟩ : CNode) ∈ cexState.all_nodes ∧
    deepEq (cexState.id_counter + 1) cexState.all_nodes
      (.BinaryOperation .Add 1 2) (.BinaryOperation .Add 1 2) = true ∧
    (⟨3, .BinaryOperation .Add 1 2⟩ : CNode) ≠ ⟨4, .BinaryOperation .Add 1 2⟩ := by
  decide

theorem getNode_append {ns : List CNode} {m x : CNode} {i : Nat}
    (h : getNode ns i = some x) : getNode (ns ++ [m]) i = some x := by
  induction ns with
  | nil => simp [getNode, List.find?] at h
  | cons a t ih =>
    rw [getNode, List.find?] at h
    rw [getNode, List.cons_append, List.find?]
    cases hpa : (a.id == i) with
    | true =>
      simp only [hpa] at h ⊢
      exact h
    | false =>
      simp only [hpa] at h ⊢
      exact ih h

theorem unfold_mono : ∀ (f g : Nat), f ≤ g → ∀ (ns : List CNode) (e : CExpr)
    (t : CTree), unfoldE f ns e = some t → unfoldE g ns e = some t := by
  intro f
  induction f with
  | zero =>
    intro g hg ns e t h
    cases e with
    | BinaryOperation op l r => rw [unfoldE] at h; exact Option.noConfusion h
    | BConstant b => rw [unfoldE] at h; rw [unfoldE]; exact h
    | XConstant x => rw [unfoldE] at h; rw [unfoldE]; exact h
    | Input ii => rw [unfoldE] at h; rw [unfoldE]; exact h
    | Challenge c => rw [unfoldE] at h; rw [unfoldE]; exact h
  | succ f ih =>
    intro g hg ns e t h
    cases e with
    | BConstant b => rw [unfoldE] at h; rw [unfoldE]; exact h
    | XConstant x => rw [unfoldE] at h; rw [unfoldE]; exact h
    | Input ii => rw [unfoldE] at h; rw [unfoldE]; exact h
    | Challenge c => rw [unfoldE] at h; rw [unfoldE]; exact h
    | BinaryOperation op l r =>
      cases g with
      | zero => omega
      | succ g2 =>
        rw [unfoldE] at h
        rw [unfoldE]
        cases hl : getNode ns l with
        | none => simp only [hl] at h; exact Option.noConfusion h
        | some nl =>
          cases hr : getNode ns r with
          | none => simp only [hl, hr] at h; exact Option.noConfusion h
          | some nr =>
            simp only [hl, hr] at h ⊢
            cases htl : unfoldE f ns nl.expr with
            | none => simp only [htl] at h; exact Option.noConfusion h
            | some tl =>
              cases htr : unfoldE f ns nr.expr with
              | none => simp only [htl, htr] at h; exact Option.noConfusion h
              | some tr =>
                simp only [htl, htr] at h
                simp only [ih g2 (by omega) ns nl.expr tl htl,
                  ih g2 (by omega) ns nr.expr tr htr]
                exact h

theorem unfold_append (m : CNode) : ∀ (f : Nat) (ns : List CNode) (e : CExpr)
    (t : CTree), unfoldE f ns e = some t → unfoldE f (ns ++ [m]) e = some t := by
  intro f
  induction f with
  | zero =>
    intro ns e t h
    cases e with
    | BinaryOperation op l r => rw [unfoldE] at h; exact Option.noConfusion h
    | BConstant b => rw [unfoldE] at h; rw [unfoldE]; exact h
    | XConstant x => rw [unfoldE] at h; rw [unfoldE]; exact h
    | Input ii => rw [unfoldE] at h; rw [unfoldE]; exact h
    | Challenge c => rw [unfoldE] at h; rw [unfoldE]; exact h
  | succ f ih =>
    intro ns e t h
    cases e with
    | BConstant b => rw [unfoldE] at h; rw [unfoldE]; exact h
    | XConstant x => rw [unfoldE] at h; rw [unfoldE]; exact h
    | Input ii => rw [unfoldE] at h; rw [unfoldE]; exact h
    | Challenge c => rw [unfoldE] at h; rw [unfoldE]; exact h
    | BinaryOperation op l r =>
      rw [unfoldE] at h
      rw [unfoldE]
      cases hl : getNode ns l with
      | none => simp only [hl] at h; exact Option.noConfusion h
      | some nl =>
        cases hr : getNode ns r with
        | none => simp only [hl, hr] at h; exact Option.noConfusion h
        | some nr =>
          simp only [hl, hr] at h
          simp only [getNode_append hl, getNode_append hr]
          cases htl : unfoldE f ns nl.expr with
          | none => simp only [htl] at h; exact Option.noConfusion h
          | some tl =>
            cases htr : unfoldE f ns nr.expr with
            | none => simp only [htl, htr] at h; exact Option.noConfusion h
            | some tr =>
              simp only [htl, htr] at h
              simp only [ih ns nl.expr tl htl, ih ns nr.expr tr htr]
              exact h

theorem unfold_binop_elim {f : Nat} {ns : List CNode} {op : BinOp}
    {a b : Nat} {t : CTree}
    (h : unfoldE (f + 1) ns (.BinaryOperation op a b) = some t) :
    ∃ na nb ta tb, getNode ns a = some na ∧ getNode ns b = some nb ∧
      unfoldE f ns na.expr = some ta ∧ unfoldE f ns nb.expr = some tb ∧
      t = .BinaryOperation 0 op ta tb := by
  rw [unfoldE] at h
  cases hl : getNode ns a with
  | none => simp only [hl] at h; exact Option.noConfusion h
  | some nl =>
    cases hr : getNode ns b with
    | none => simp only [hl, hr] at h; exact Option.noConfusion h
    | some nr =>
      simp only [hl, hr] at h
      cases htl : unfoldE f ns nl.expr with
      | none => simp only [htl] at h; exact Option.noConfusion h
      | some tl =>
        cases htr : unfoldE f ns nr.expr with
        | none => simp only [htl, htr] at h; exact Option.noConfusion h
        | some tr =>
          simp only [htl, htr, Option.some.injEq] at h
          exact ⟨nl, nr, tl, tr, rfl, rfl, htl, htr, h.symm⟩

theorem getNode_unique {ns : List CNode}
    (h2 : ∀ n1 ∈ ns, ∀ n2 ∈ ns, n1.id = n2.id → n1 = n2)
    {m : CNode} {i : Nat} (hm : m ∈ ns) (hid : m.id = i) :
    getNode ns i = some m := by
  cases hg : getNode ns i with
  | none =>
    rw [getNode, List.find?_eq_none] at hg
    exact absurd (by rw [beq_iff_eq]; exact hid) (hg m hm)
  | some x =>
    rw [getNode] at hg
    have hpx := List.find?_some hg
    have hmem := List.mem_of_find?_eq_some hg
    rw [beq_iff_eq] at hpx
    rw [h2 x hmem m hm (by rw [hpx, hid])]

theorem unfold_success : ∀ (f : Nat) (ns : List CNode),
    (∀ n1 ∈ ns, ∀ n2 ∈ ns, n1.id = n2.id → n1 = n2) →
    (∀ n ∈ ns, ∀ op l r, n.expr = .BinaryOperation op l r →
      (∃ m ∈ ns, m.id = l ∧ m.id < n.id) ∧
      (∃ m ∈ ns, m.id = r ∧ m.id < n.id)) →
    ∀ n, n ∈ ns → n.id < f → ∃ t, unfoldE f ns n.expr = some t := by
  intro f
  induction f with
  | zero =>
    intro ns h2 h3 n hn hlt
    omega
  | succ f ih =>
    intro ns h2 h3 n hn hlt
    cases he : n.expr with
    | BConstant b => exact ⟨_, by rw [unfoldE]⟩
    | XConstant x => exact ⟨_, by rw [unfoldE]⟩
    | Input ii => exact ⟨_, by rw [unfoldE]⟩
    | Challenge c => exact ⟨_, by rw [unfoldE]⟩
    | BinaryOperation op l r =>
      obtain ⟨⟨ml, hml, hmlid, hmllt⟩, ⟨mr, hmr, hmrid, hmrlt⟩⟩ :=
        h3 n hn op l r he
      have hgl : getNode ns l = some ml := getNode_unique h2 hml hmlid
      have hgr : getNode ns r = some mr := getNode_unique h2 hmr hmrid
      obtain ⟨tl, htl⟩ := ih ns h2 h3 ml hml (by omega)
      obtain ⟨tr, htr⟩ := ih ns h2 h3 mr hmr (by omega)
      refine ⟨.BinaryOperation 0 op tl tr, ?_⟩
      rw [unfoldE]
      simp only [hgl, hgr, htl, htr]

/-- A leaf arena expression (anything but a binary operation). -/
def CExpr.isLeafE : CExpr → Bool
  | .BinaryOperation _ _ _ => false
  | _ => true

/-- A leaf tree (anything but a binary operation). -/
def CTree.isLeafT : CTree → Bool
  | .BinaryOperation _ _ _ _ => false
  | _ => true

theorem exprEq_symm : ∀ {s t : CTree}, CTree.exprEq s t = true →
    CTree.exprEq t s = true := by
  intro s
  induction s with
  | BinaryOperation i op l r ihl ihr =>
    intro t h
    cases t with
    | BinaryOperation i2 op2 l2 r2 =>
      simp only [CTree.exprEq, Bool.and_eq_true, beq_iff_eq] at h ⊢
      obtain ⟨⟨hop, hl⟩, hr⟩ := h
      exact ⟨⟨hop.symm, ihl hl⟩, ihr hr⟩
    | BConstant i2 b => simp [CTree.exprEq] at h
    | XConstant i2 x => simp [CTree.exprEq] at h
    | Input i2 ii => simp [CTree.exprEq] at h
    | Challenge i2 c => simp [CTree.exprEq] at h
  | BConstant i b =>
    intro t h
    cases t with
    | BConstant i2 b2 =>
      simp only [CTree.exprEq, beq_iff_eq] at h ⊢
      exact h.symm
    | XConstant i2 x => simp [CTree.exprEq] at h
    | Input i2 ii => simp [CTree.exprEq] at h
    | Challenge i2 c => simp [CTree.exprEq] at h
    | BinaryOperation i2 op l r => simp [CTree.exprEq] at h
  | XConstant i x =>
    intro t h
    cases t with
    | XConstant i2 x2 =>
      simp only [CTree.exprEq, beq_iff_eq] at h ⊢
      exact h.symm
    | BConstant i2 b => simp [CTree.exprEq] at h
    | Input i2 ii => simp [CTree.exprEq] at h
    | Challenge i2 c => simp [CTree.exprEq] at h
    | BinaryOperation i2 op l r => simp [CTree.exprEq] at h
  | Input i ii =>
    intro t h
    cases t with
    | Input i2 ii2 =>
      simp only [CTree.exprEq, beq_iff_eq] at h ⊢
      exact h.symm
    | BConstant i2 b => simp [CTree.exprEq] at h
    | XConstant i2 x => simp [CTree.exprEq] at h
    | Challenge i2 c => simp [CTree.exprEq] at h
    | BinaryOperation i2 op l r => simp [CTree.exprEq] at h
  | Challenge i c =>
    intro t h
    cases t with
    | Challenge i2 c2 =>
      simp only [CTree.exprEq, beq_iff_eq] at h ⊢
      exact h.symm
    | BConstant i2 b => simp [CTree.exprEq] at h
    | XConstant i2 x => simp [CTree.exprEq] at h
    | Input i2 ii => simp [CTree.exprEq] at h
    | BinaryOperation i2 op l r => simp [CTree.exprEq] at h

theorem commEq_symm : ∀ {s t : CTree}, CTree.commEq s t = true →
    CTree.commEq t s = true := by
  intro s
  induction s with
  | BinaryOperation i op l r ihl ihr =>
    intro t h
    cases t with
    | BinaryOperation i2 op2 l2 r2 =>
      simp only [CTree.commEq, Bool.and_eq_true, Bool.or_eq_true,
        beq_iff_eq] at h ⊢
      obtain ⟨hop, hbr⟩ := h
      subst hop
      rcases hbr with ⟨hl, hr⟩ | ⟨⟨hguard, hl⟩, hr⟩
      · exact ⟨rfl, Or.inl ⟨ihl hl, ihr hr⟩⟩
      · exact ⟨rfl, Or.inr ⟨⟨hguard, ihr hr⟩, ihl hl⟩⟩
    | BConstant i2 b => simp [CTree.commEq] at h
    | XConstant i2 x => simp [CTree.commEq] at h
    | Input i2 ii => simp [CTree.commEq] at h
    | Challenge i2 c => simp [CTree.commEq] at h
  | BConstant i b =>
    intro t h
    cases t with
    | BConstant i2 b2 =>
      simp only [CTree.commEq, beq_iff_eq] at h ⊢
      exact h.symm
    | XConstant i2 x => simp [CTree.commEq] at h
    | Input i2 ii => simp [CTree.commEq] at h
    | Challenge i2 c => simp [CTree.commEq] at h
    | BinaryOperation i2 op l r => simp [CTree.commEq] at h
  | XConstant i x =>
    intro t h
    cases t with
    | XConstant i2 x2 =>
      simp only [CTree.commEq, beq_iff_eq] at h ⊢
      exact h.symm
    | BConstant i2 b => simp [CTree.commEq] at h
    | Input i2 ii => simp [CTree.commEq] at h
    | Challenge i2 c => simp [CTree.commEq] at h
    | BinaryOperation i2 op l r => simp [CTree.commEq] at h
  | Input i ii =>
    intro t h
    cases t with
    | Input i2 ii2 =>
      simp only [CTree.commEq, beq_iff_eq] at h ⊢
      exact h.symm
    | BConstant i2 b => simp [CTree.commEq] at h
    | XConstant i2 x => simp [CTree.commEq] at h
    | Challenge i2 c => simp [CTree.commEq] at h
    | BinaryOperation i2 op l r => simp [CTree.commEq] at h
  | Challenge i c =>
    intro t h
    cases t with
    | Challenge i2 c2 =>
      simp only [CTree.commEq, beq_iff_eq] at h ⊢
      exact h.symm
    | BConstant i2 b => simp [CTree.commEq] at h
    | XConstant i2 x => simp [CTree.commEq] at h
    | Input i2 ii => simp [CTree.commEq] at h
    | BinaryOperation i2 op l r => simp [CTree.commEq] at h

theorem commEq_leaf {t1 t2 : CTree} (h : t2.isLeafT = true) :
    CTree.commEq t1 t2 = CTree.exprEq t1 t2 := by
  cases t2 with
  | BinaryOperation i op l r => simp [CTree.isLeafT] at h
  | BConstant i b => cases t1 <;> rfl
  | XConstant i x => cases t1 <;> rfl
  | Input i ii => cases t1 <;> rfl
  | Challenge i c => cases t1 <;> rfl

theorem unfold_leaf_any {e : CExpr} (h : e.isLeafE = true) {f : Nat}
    {ns : List CNode} {t : CTree} (hu : unfoldE f ns e = some t)
    (g : Nat) (ms : List CNode) : unfoldE g ms e = some t := by
  cases e with
  | BinaryOperation op l r => simp [CExpr.isLeafE] at h
  | BConstant b => rw [unfoldE] at hu; rw [unfoldE]; exact hu
  | XConstant x => rw [unfoldE] at hu; rw [unfoldE]; exact hu
  | Input ii => rw [unfoldE] at hu; rw [unfoldE]; exact hu
  | Challenge c => rw [unfoldE] at hu; rw [unfoldE]; exact hu

theorem unfold_leaf_shape {e : CExpr} (h : e.isLeafE = true) {f : Nat}
    {ns : List CNode} {t : CTree} (hu : unfoldE f ns e = some t) :
    t.isLeafT = true := by
  cases e with
  | BinaryOperation op l r => simp [CExpr.isLeafE] at h
  | BConstant b => rw [unfoldE] at hu; cases hu; rfl
  | XConstant x => rw [unfoldE] at hu; cases hu; rfl
  | Input ii => rw [unfoldE] at hu; cases hu; rfl
  | Challenge c => rw [unfoldE] at hu; cases hu; rfl

/-- Builder well-formedness: ids below the counter, ids unique, and every
child edge resolving to a member with a smaller id. -/
structure BWF (s : Builder) : Prop where
  bound : ∀ n ∈ s.all_nodes, n.id < s.id_counter
  uid : ∀ n1 ∈ s.all_nodes, ∀ n2 ∈ s.all_nodes, n1.id = n2.id → n1 = n2
  children : ∀ n ∈ s.all_nodes, ∀ op l r, n.expr = .BinaryOperation op l r →
    (∃ m ∈ s.all_nodes, m.id = l ∧ m.id < n.id) ∧
    (∃ m ∈ s.all_nodes, m.id = r ∧ m.id < n.id)

/-- The hash-consing invariant: no two distinct member nodes unfold to
trees equal modulo commutativity of `+` and `*`. -/
def UniqU (s : Builder) : Prop :=
  ∀ n1 ∈ s.all_nodes, ∀ n2 ∈ s.all_nodes, ∀ t1 t2,
    unfoldE (s.id_counter + 1) s.all_nodes n1.expr = some t1 →
    unfoldE (s.id_counter + 1) s.all_nodes n2.expr = some t2 →
    CTree.commEq t1 t2 = true → n1 = n2

theorem node_unfold_exists {s : Builder} (hw : BWF s) {n : CNode}
    (hn : n ∈ s.all_nodes) :
    ∃ t, unfoldE (s.id_counter + 1) s.all_nodes n.expr = some t :=
  unfold_success (s.id_counter + 1) s.all_nodes hw.uid hw.children n hn
    (by have := hw.bound n hn; omega)

theorem old_unfold_eq {s : Builder} (hw : BWF s) (w : CNode) {n : CNode}
    (hn : n ∈ s.all_nodes) {t : CTree}
    (h : unfoldE (s.id_counter + 2) (s.all_nodes ++ [w]) n.expr = some t) :
    unfoldE (s.id_counter + 1) s.all_nodes n.expr = some t := by
  obtain ⟨t0, ht0⟩ := node_unfold_exists hw hn
  have h1 := unfold_mono _ (s.id_counter + 2) (by omega) _ _ _ ht0
  have h2 := unfold_append w _ _ _ _ h1
  rw [h2] at h
  exact Option.some.inj h ▸ ht0

theorem new_binop_unfold {s : Builder} (hw : BWF s) (op : BinOp)
    {l r : CNode} (hl : l ∈ s.all_nodes) (hr : r ∈ s.all_nodes)
    (w : CNode) :
    ∃ tl tr, unfoldE (s.id_counter + 1) s.all_nodes l.expr = some tl ∧
      unfoldE (s.id_counter + 1) s.all_nodes r.expr = some tr ∧
      unfoldE (s.id_counter + 2) (s.all_nodes ++ [w])
        (.BinaryOperation op l.id r.id) =
          some (.BinaryOperation 0 op tl tr) := by
  obtain ⟨tl, htl⟩ := node_unfold_exists hw hl
  obtain ⟨tr, htr⟩ := node_unfold_exists hw hr
  refine ⟨tl, tr, htl, htr, ?_⟩
  rw [show s.id_counter + 2 = (s.id_counter + 1) + 1 from rfl, unfoldE]
  have hgl : getNode (s.all_nodes ++ [w]) l.id = some l :=
    getNode_append (getNode_unique hw.uid hl rfl)
  have hgr : getNode (s.all_nodes ++ [w]) r.id = some r :=
    getNode_append (getNode_unique hw.uid hr rfl)
  simp only [hgl, hgr, unfold_append w _ _ _ _ htl, unfold_append w _ _ _ _ htr]

theorem findEq_none_elim {s : Builder} {e : CExpr}
    (h : findEq s e = none) {n : CNode} (hn : n ∈ s.all_nodes) :
    deepEq (s.id_counter + 1) s.all_nodes n.expr e = false := by
  rw [findEq, List.find?_eq_none] at h
  have h2 := h n hn
  cases hb : deepEq (s.id_counter + 1) s.all_nodes n.expr e with
  | false => rfl
  | true => exact absurd hb h2

theorem deepEq_of_unfolds {f : Nat} {ns : List CNode} {e1 e2 : CExpr}
    {t1 t2 : CTree} (h1 : unfoldE f ns e1 = some t1)
    (h2 : unfoldE f ns e2 = some t2) (he : CTree.exprEq t1 t2 = true) :
    deepEq f ns e1 e2 = true := by
  rw [deepEq]
  simp only [h1, h2]
  exact he

theorem insert_leaf_preserves {s : Builder} {e : CExpr}
    (hw : BWF s) (hu : UniqU s) (hleaf : e.isLeafE = true)
    (hnone : findEq s e = none) :
    BWF ⟨s.id_counter + 1, s.all_nodes ++ [⟨s.id_counter, e⟩]⟩ ∧
    UniqU ⟨s.id_counter + 1, s.all_nodes ++ [⟨s.id_counter, e⟩]⟩ := by
  constructor
  · refine ⟨?_, ?_, ?_⟩
    · intro n hn
      rcases List.mem_append.mp hn with h | h
      · have := hw.bound n h
        show n.id < s.id_counter + 1
        omega
      · rcases List.mem_singleton.mp h with rfl
        exact Nat.lt_succ_self _
    · intro n1 h1 n2 h2 hid
      rcases List.mem_append.mp h1 with h1m | h1m <;>
        rcases List.mem_append.mp h2 with h2m | h2m
      · exact hw.uid n1 h1m n2 h2m hid
      · rcases List.mem_singleton.mp h2m with rfl
        have hb := hw.bound n1 h1m
        have hid2 : n1.id = s.id_counter := hid
        omega
      · rcases List.mem_singleton.mp h1m with rfl
        have hb := hw.bound n2 h2m
        have hid2 : s.id_counter = n2.id := hid
        omega
      · rcases List.mem_singleton.mp h1m with rfl
        rcases List.mem_singleton.mp h2m with rfl
        rfl
    · intro n hn op a b he
      rcases List.mem_append.mp hn with h | h
      · obtain ⟨⟨ml, hml, hmlid, hmllt⟩, ⟨mr, hmr, hmrid, hmrlt⟩⟩ :=
          hw.children n h op a b he
        exact ⟨⟨ml, List.mem_append_left _ hml, hmlid, hmllt⟩,
          ⟨mr, List.mem_append_left _ hmr, hmrid, hmrlt⟩⟩
      · rcases List.mem_singleton.mp h with rfl
        have he2 : e = .BinaryOperation op a b := he
        rw [he2] at hleaf
        simp [CExpr.isLeafE] at hleaf
  · intro n1 h1 n2 h2 t1 t2 ht1 ht2 hc
    rcases List.mem_append.mp h1 with h1m | h1m <;>
      rcases List.mem_append.mp h2 with h2m | h2m
    · exact hu n1 h1m n2 h2m t1 t2 (old_unfold_eq hw _ h1m ht1)
        (old_unfold_eq hw _ h2m ht2) hc
    · exfalso
      rcases List.mem_singleton.mp h2m with rfl
      have e1 := old_unfold_eq hw _ h1m ht1
      have hl2 : t2.isLeafT = true := unfold_leaf_shape hleaf ht2
      have hee : CTree.exprEq t1 t2 = true := by
        rw [← commEq_leaf hl2]
        exact hc
      have e2 : unfoldE (s.id_counter + 1) s.all_nodes e = some t2 :=
        unfold_leaf_any hleaf ht2 _ _
      have hde := deepEq_of_unfolds e1 e2 hee
      rw [findEq_none_elim hnone h1m] at hde
      exact Bool.noConfusion hde
    · exfalso
      rcases List.mem_singleton.mp h1m with rfl
      have e2 := old_unfold_eq hw _ h2m ht2
      have hl1 : t1.isLeafT = true := unfold_leaf_shape hleaf ht1
      have hee : CTree.exprEq t2 t1 = true := by
        rw [← commEq_leaf hl1]
        exact commEq_symm hc
      have e1 : unfoldE (s.id_counter + 1) s.all_nodes e = some t1 :=
        unfold_leaf_any hleaf ht1 _ _
      have hde := deepEq_of_unfolds e2 e1 hee
      rw [findEq_none_elim hnone h2m] at hde
      exact Bool.noConfusion hde
    · rcases List.mem_singleton.mp h1m with rfl
      rcases List.mem_singleton.mp h2m with rfl
      rfl

theorem no_binop_dup {s : Builder} {op : BinOp} {l r : CNode}
    (hl : l ∈ s.all_nodes) (hr : r ∈ s.all_nodes) (hw : BWF s) (hu : UniqU s)
    (hnone : findEq s (.BinaryOperation op l.id r.id) = none)
    (hsw : op = .Add ∨ op = .Mul →
      findEq s (.BinaryOperation op r.id l.id) = none)
    {n1 : CNode} (h1 : n1 ∈ s.all_nodes) {t1 tl tr : CTree}
    (ht1 : unfoldE (s.id_counter + 1) s.all_nodes n1.expr = some t1)
    (htl : unfoldE (s.id_counter + 1) s.all_nodes l.expr = some tl)
    (htr : unfoldE (s.id_counter + 1) s.all_nodes r.expr = some tr)
    (hc : CTree.commEq t1 (.BinaryOperation 0 op tl tr) = true) : False := by
  have ht1o := ht1
  obtain ⟨tl0, htl0⟩ := unfold_success s.id_counter s.all_nodes hw.uid
    hw.children l hl (hw.bound l hl)
  obtain ⟨tr0, htr0⟩ := unfold_success s.id_counter s.all_nodes hw.uid
    hw.children r hr (hw.bound r hr)
  have htl0e : tl = tl0 := by
    have hm := unfold_mono s.id_counter (s.id_counter + 1) (by omega)
      _ _ _ htl0
    rw [htl] at hm
    exact Option.some.inj hm
  have htr0e : tr = tr0 := by
    have hm := unfold_mono s.id_counter (s.id_counter + 1) (by omega)
      _ _ _ htr0
    rw [htr] at hm
    exact Option.some.inj hm
  subst htl0e htr0e
  cases he1 : n1.expr with
  | BConstant b =>
    rw [he1, unfoldE] at ht1
    cases ht1
    exact Bool.noConfusion hc
  | XConstant x =>
    rw [he1, unfoldE] at ht1
    cases ht1
    exact Bool.noConfusion hc
  | Input ii =>
    rw [he1, unfoldE] at ht1
    cases ht1
    exact Bool.noConfusion hc
  | Challenge c =>
    rw [he1, unfoldE] at ht1
    cases ht1
    exact Bool.noConfusion hc
  | BinaryOperation op1 a b =>
    rw [he1] at ht1
    obtain ⟨na, nb, ta, tb, hga, hgb, hta, htb, rfl⟩ := unfold_binop_elim ht1
    simp only [CTree.commEq, Bool.and_eq_true, Bool.or_eq_true,
      beq_iff_eq] at hc
    obtain ⟨hop, hbr⟩ := hc
    subst hop
    have hna : na ∈ s.all_nodes := by
      rw [getNode] at hga
      exact List.mem_of_find?_eq_some hga
    have hnb : nb ∈ s.all_nodes := by
      rw [getNode] at hgb
      exact List.mem_of_find?_eq_some hgb
    have hnaid : na.id = a := by
      rw [getNode] at hga
      have := List.find?_some hga
      rwa [beq_iff_eq] at this
    have hnbid : nb.id = b := by
      rw [getNode] at hgb
      have := List.find?_some hgb
      rwa [beq_iff_eq] at this
    have hta1 := unfold_mono s.id_counter (s.id_counter + 1) (by omega)
      _ _ _ hta
    have htb1 := unfold_mono s.id_counter (s.id_counter + 1) (by omega)
      _ _ _ htb
    rcases hbr with ⟨hcl, hcr⟩ | ⟨⟨hguard, hcl⟩, hcr⟩
    · have h1l := hu na hna l hl ta tl hta1 htl hcl
      have h1r := hu nb hnb r hr tb tr htb1 htr hcr
      have htae : ta = tl := by
        rw [h1l] at hta1
        rw [htl] at hta1
        exact Option.some.inj hta1.symm
      have htbe : tb = tr := by
        rw [h1r] at htb1
        rw [htr] at htb1
        exact Option.some.inj htb1.symm
      subst htae htbe
      have hue : unfoldE (s.id_counter + 1) s.all_nodes
          (.BinaryOperation op1 l.id r.id) =
            some (.BinaryOperation 0 op1 ta tb) := by
        rw [unfoldE]
        simp only [getNode_unique hw.uid hl rfl, getNode_unique hw.uid hr rfl,
          htl0, htr0]
      have hde := deepEq_of_unfolds ht1o hue (CTree.exprEq_refl _)
      rw [findEq_none_elim hnone h1] at hde
      exact Bool.noConfusion hde
    · have h1r := hu na hna r hr ta tr hta1 htr hcl
      have h1l := hu nb hnb l hl tb tl htb1 htl hcr
      have htae : ta = tr := by
        rw [h1r] at hta1
        rw [htr] at hta1
        exact Option.some.inj hta1.symm
      have htbe : tb = tl := by
        rw [h1l] at htb1
        rw [htl] at htb1
        exact Option.some.inj htb1.symm
      subst htae htbe
      have hue : unfoldE (s.id_counter + 1) s.all_nodes
          (.BinaryOperation op1 r.id l.id) =
            some (.BinaryOperation 0 op1 ta tb) := by
        rw [unfoldE]
        simp only [getNode_unique hw.uid hr rfl, getNode_unique hw.uid hl rfl,
          htr0, htl0]
      have hde := deepEq_of_unfolds ht1o hue (CTree.exprEq_refl _)
      rw [findEq_none_elim (hsw hguard) h1] at hde
      exact Bool.noConfusion hde

theorem insert_binop_preserves {s : Builder} {op : BinOp} {l r : CNode}
    (hl : l ∈ s.all_nodes) (hr : r ∈ s.all_nodes) (hw : BWF s) (hu : UniqU s)
    (hnone : findEq s (.BinaryOperation op l.id r.id) = none)
    (hsw : op = .Add ∨ op = .Mul →
      findEq s (.BinaryOperation op r.id l.id) = none) :
    BWF ⟨s.id_counter + 1,
      s.all_nodes ++ [⟨s.id_counter, .BinaryOperation op l.id r.id⟩]⟩ ∧
    UniqU ⟨s.id_counter + 1,
      s.all_nodes ++ [⟨s.id_counter, .BinaryOperation op l.id r.id⟩]⟩ := by
  constructor
  · refine ⟨?_, ?_, ?_⟩
    · intro n hn
      rcases List.mem_append.mp hn with h | h
      · have := hw.bound n h
        show n.id < s.id_counter + 1
        omega
      · rcases List.mem_singleton.mp h with rfl
        exact Nat.lt_succ_self _
    · intro n1 h1 n2 h2 hid
      rcases List.mem_append.mp h1 with h1m | h1m <;>
        rcases List.mem_append.mp h2 with h2m | h2m
      · exact hw.uid n1 h1m n2 h2m hid
      · rcases List.mem_singleton.mp h2m with rfl
        have hb := hw.bound n1 h1m
        have hid2 : n1.id = s.id_counter := hid
        omega
      · rcases List.mem_singleton.mp h1m with rfl
        have hb := hw.bound n2 h2m
        have hid2 : s.id_counter = n2.id := hid
        omega
      · rcases List.mem_singleton.mp h1m with rfl
        rcases List.mem_singleton.mp h2m with rfl
        rfl
    · intro n hn op2 a b he
      rcases List.mem_append.mp hn with h | h
      · obtain ⟨⟨ml, hml, hmlid, hmllt⟩, ⟨mr, hmr, hmrid, hmrlt⟩⟩ :=
          hw.children n h op2 a b he
        exact ⟨⟨ml, List.mem_append_left _ hml, hmlid, hmllt⟩,
          ⟨mr, List.mem_append_left _ hmr, hmrid, hmrlt⟩⟩
      · rcases List.mem_singleton.mp h with rfl
        have he2 : CExpr.BinaryOperation op l.id r.id =
            .BinaryOperation op2 a b := he
        injection he2 with hop ha hb
        subst ha hb
        exact ⟨⟨l, List.mem_append_left _ hl, rfl, hw.bound l hl⟩,
          ⟨r, List.mem_append_left _ hr, rfl, hw.bound r hr⟩⟩
  · intro n1 h1 n2 h2 t1 t2 ht1 ht2 hc
    rcases List.mem_append.mp h1 with h1m | h1m <;>
      rcases List.mem_append.mp h2 with h2m | h2m
    · exact hu n1 h1m n2 h2m t1 t2 (old_unfold_eq hw _ h1m ht1)
        (old_unfold_eq hw _ h2m ht2) hc
    · exfalso
      rcases List.mem_singleton.mp h2m with rfl
      obtain ⟨tl, tr, htl, htr, hwu⟩ := new_binop_unfold hw op hl hr
        ⟨s.id_counter, .BinaryOperation op l.id r.id⟩
      have ht2b : unfoldE (s.id_counter + 2)
          (s.all_nodes ++ [⟨s.id_counter, .BinaryOperation op l.id r.id⟩])
          (CExpr.BinaryOperation op l.id r.id) = some t2 := ht2
      rw [hwu] at ht2b
      have ht2e := Option.some.inj ht2b
      have e1 := old_unfold_eq hw _ h1m ht1
      refine no_binop_dup hl hr hw hu hnone hsw h1m e1 htl htr ?_
      rw [ht2e]
      exact hc
    · exfalso
      rcases List.mem_singleton.mp h1m with rfl
      obtain ⟨tl, tr, htl, htr, hwu⟩ := new_binop_unfold hw op hl hr
        ⟨s.id_counter, .BinaryOperation op l.id r.id⟩
      have ht1b : unfoldE (s.id_counter + 2)
          (s.all_nodes ++ [⟨s.id_counter, .BinaryOperation op l.id r.id⟩])
          (CExpr.BinaryOperation op l.id r.id) = some t1 := ht1
      rw [hwu] at ht1b
      have ht1e := Option.some.inj ht1b
      have e2 := old_unfold_eq hw _ h2m ht2
      refine no_binop_dup hl hr hw hu hnone hsw h2m e2 htl htr ?_
      rw [ht1e]
      exact commEq_symm hc
    · rcases List.mem_singleton.mp h1m with rfl
      rcases List.mem_singleton.mp h2m with rfl
      rfl

/-- Builder states reachable through the public constructors
(`b_constant`, `x_constant`, `input`, `challenge` — all through
`make_leaf` — and the `binop` behind `Add`/`Sub`/`Mul`), without
`substitute`. -/
inductive Built : Builder → Prop where
  | empty : Built ⟨0, []⟩
  | bconst (s : Builder) (b : BFE) : Built s →
      Built (make_leaf s (.BConstant b)).1
  | xconst (s : Builder) (x : XFE) : Built s →
      Built (make_leaf s (.XConstant x)).1
  | input (s : Builder) (ii : SRI) : Built s →
      Built (make_leaf s (.Input ii)).1
  | challenge (s : Builder) (c : Nat) : Built s →
      Built (make_leaf s (.Challenge c)).1
  | node (s : Builder) (op : BinOp) (l r : CNode) : Built s →
      l ∈ s.all_nodes → r ∈ s.all_nodes → Built (binop op s l r).1

theorem built_inv : ∀ s : Builder, Built s → BWF s ∧ UniqU s := by
  intro s h
  induction h with
  | empty =>
    refine ⟨⟨?_, ?_, ?_⟩, ?_⟩
    · intro n hn
      cases hn
    · intro n1 h1
      cases h1
    · intro n hn
      cases hn
    · intro n1 h1
      cases h1
  | bconst s b hb ih =>
    cases hf : findEq s (.BConstant b) with
    | some n =>
      have hml : make_leaf s (.BConstant b) = (s, n) := by
        simp only [make_leaf, hf]
      rw [hml]
      exact ih
    | none =>
      have hml : make_leaf s (.BConstant b) =
          (⟨s.id_counter + 1, s.all_nodes ++ [⟨s.id_counter, .BConstant b⟩]⟩,
            ⟨s.id_counter, .BConstant b⟩) := by
        simp only [make_leaf, hf]
      rw [hml]
      exact insert_leaf_preserves ih.1 ih.2 rfl hf
  | xconst s x hb ih =>
    cases hux : x.unlift with
    | some b =>
      cases hf : findEq s (.BConstant b) with
      | some n =>
        have hml : make_leaf s (.XConstant x) = (s, n) := by
          simp only [make_leaf, hux, hf]
        rw [hml]
        exact ih
      | none =>
        have hml : make_leaf s (.XConstant x) =
            (⟨s.id_counter + 1,
              s.all_nodes ++ [⟨s.id_counter, .BConstant b⟩]⟩,
              ⟨s.id_counter, .BConstant b⟩) := by
          simp only [make_leaf, hux, hf]
        rw [hml]
        exact insert_leaf_preserves ih.1 ih.2 rfl hf
    | none =>
      cases hf : findEq s (.XConstant x) with
      | some n =>
        have hml : make_leaf s (.XConstant x) = (s, n) := by
          simp only [make_leaf, hux, hf]
        rw [hml]
        exact ih
      | none =>
        have hml : make_leaf s (.XConstant x) =
            (⟨s.id_counter + 1,
              s.all_nodes ++ [⟨s.id_counter, .XConstant x⟩]⟩,
              ⟨s.id_counter, .XConstant x⟩) := by
          simp only [make_leaf, hux, hf]
        rw [hml]
        exact insert_leaf_preserves ih.1 ih.2 rfl hf
  | input s ii hb ih =>
    cases hf : findEq s (.Input ii) with
    | some n =>
      have hml : make_leaf s (.Input ii) = (s, n) := by
        simp only [make_leaf, hf]
      rw [hml]
      exact ih
    | none =>
      have hml : make_leaf s (.Input ii) =
          (⟨s.id_counter + 1, s.all_nodes ++ [⟨s.id_counter, .Input ii⟩]⟩,
            ⟨s.id_counter, .Input ii⟩) := by
        simp only [make_leaf, hf]
      rw [hml]
      exact insert_leaf_preserves ih.1 ih.2 rfl hf
  | challenge s c hb ih =>
    cases hf : findEq s (.Challenge c) with
    | some n =>
      have hml : make_leaf s (.Challenge c) = (s, n) := by
        simp only [make_leaf, hf]
      rw [hml]
      exact ih
    | none =>
      have hml : make_leaf s (.Challenge c) =
          (⟨s.id_counter + 1, s.all_nodes ++ [⟨s.id_counter, .Challenge c⟩]⟩,
            ⟨s.id_counter, .Challenge c⟩) := by
        simp only [make_leaf, hf]
      rw [hml]
      exact insert_leaf_preserves ih.1 ih.2 rfl hf
  | node s op l r hb hl hr ih =>
    cases hf1 : findEq s (.BinaryOperation op l.id r.id) with
    | some n =>
      have hbo : binop op s l r = (s, n) := by
        simp only [binop, hf1]
      rw [hbo]
      exact ih
    | none =>
      cases op with
      | Add =>
        cases hf2 : findEq s (.BinaryOperation .Add r.id l.id) with
        | some n =>
          have hbo : binop .Add s l r = (s, n) := by
            simp only [binop, hf1, hf2]
          rw [hbo]
          exact ih
        | none =>
          have hbo : binop .Add s l r =
              (⟨s.id_counter + 1, s.all_nodes ++
                [⟨s.id_counter, .BinaryOperation .Add l.id r.id⟩]⟩,
                ⟨s.id_counter, .BinaryOperation .Add l.id r.id⟩) := by
            simp only [binop, hf1, hf2]
          rw [hbo]
          exact insert_binop_preserves hl hr ih.1 ih.2 hf1 (fun _ => hf2)
      | Mul =>
        cases hf2 : findEq s (.BinaryOperation .Mul r.id l.id) with
        | some n =>
          have hbo : binop .Mul s l r = (s, n) := by
            simp only [binop, hf1, hf2]
          rw [hbo]
          exact ih
        | none =>
          have hbo : binop .Mul s l r =
              (⟨s.id_counter + 1, s.all_nodes ++
                [⟨s.id_counter, .BinaryOperation .Mul l.id r.id⟩]⟩,
                ⟨s.id_counter, .BinaryOperation .Mul l.id r.id⟩) := by
            simp only [binop, hf1, hf2]
          rw [hbo]
          exact insert_binop_preserves hl hr ih.1 ih.2 hf1 (fun _ => hf2)
      | Sub =>
        cases hf2 : findEq s (.BinaryOperation .Sub r.id l.id) with
        | some n =>
          have hbo : binop .Sub s l r =
              (⟨s.id_counter + 1, s.all_nodes ++
                [⟨s.id_counter, .BinaryOperation .Sub l.id r.id⟩]⟩,
                ⟨s.id_counter, .BinaryOperation .Sub l.id r.id⟩) := by
            simp only [binop, hf1, hf2]
          rw [hbo]
          exact insert_binop_preserves hl hr ih.1 ih.2 hf1
            (fun hg => by rcases hg with hg | hg <;> exact BinOp.noConfusion hg)
        | none =>
          have hbo : binop .Sub s l r =
              (⟨s.id_counter + 1, s.all_nodes ++
                [⟨s.id_counter, .BinaryOperation .Sub l.id r.id⟩]⟩,
                ⟨s.id_counter, .BinaryOperation .Sub l.id r.id⟩) := by
            simp only [binop, hf1, hf2]
          rw [hbo]
          exact insert_binop_preserves hl hr ih.1 ih.2 hf1
            (fun hg => by rcases hg with hg | hg <;> exact BinOp.noConfusion hg)

/-- C6: for builder states reached without `substitute`, `all_nodes` never
holds two distinct nodes whose expressions unfold to the same tree modulo
commutativity of `+` and `*`; and `binop` over a commutative operator
returns an existing node — creating none — whenever the operand-switched
expression is already in the set. -/
theorem builder_hash_consing :
    (∀ s : Builder, Built s → ∀ n1 ∈ s.all_nodes, ∀ n2 ∈ s.all_nodes,
      ∀ t1 t2, unfoldE (s.id_counter + 1) s.all_nodes n1.expr = some t1 →
        unfoldE (s.id_counter + 1) s.all_nodes n2.expr = some t2 →
        CTree.commEq t1 t2 = true → n1 = n2) ∧
    (∀ (op : BinOp) (s : Builder) (l r : CNode), (op = .Add ∨ op = .Mul) →
      (findEq s (.BinaryOperation op r.id l.id)).isSome = true →
      (binop op s l r).1 = s ∧ (binop op s l r).2 ∈ s.all_nodes) := by
  constructor
  · intro s hb
    exact (built_inv s hb).2
  · intro op s l r hop hsome
    cases hf1 : findEq s (.BinaryOperation op l.id r.id) with
    | some n =>
      have hbo : binop op s l r = (s, n) := by
        simp only [binop, hf1]
      rw [hbo]
      refine ⟨rfl, ?_⟩
      rw [findEq] at hf1
      exact List.mem_of_find?_eq_some hf1
    | none =>
      cases hf2 : findEq s (.BinaryOperation op r.id l.id) with
      | none =>
        rw [hf2] at hsome
        exact absurd hsome (by simp)
      | some m =>
        have hmem : m ∈ s.all_nodes := by
          rw [findEq] at hf2
          exact List.mem_of_find?_eq_some hf2
        rcases hop with rfl | rfl
        · have hbo : binop .Add s l r = (s, m) := by
            simp only [binop, hf1, hf2]
          rw [hbo]
          exact ⟨rfl, hmem⟩
        · have hbo : binop .Mul s l r = (s, m) := by
            simp only [binop, hf1, hf2]
          rw [hbo]
          exact ⟨rfl, hmem⟩

/-- Witness for C6 at concrete inputs: with nodes `x`, `y`, `x + y` built,
requesting `y + x` returns the existing `x + y` node without touching the
builder; and the invariant applied to a one-leaf built state. -/
theorem builder_hash_consing_witness :
    ((binop .Add ⟨3, [⟨0, .Input (.BaseRow 0)⟩, ⟨1, .Input (.BaseRow 1)⟩,
          ⟨2, .BinaryOperation .Add 0 1⟩]⟩
        ⟨1, .Input (.BaseRow 1)⟩ ⟨0, .Input (.BaseRow 0)⟩).1 =
      ⟨3, [⟨0, .Input (.BaseRow 0)⟩, ⟨1, .Input (.BaseRow 1)⟩,
        ⟨2, .BinaryOperation .Add 0 1⟩]⟩ ∧
      (binop .Add ⟨3, [⟨0, .Input (.BaseRow 0)⟩, ⟨1, .Input (.BaseRow 1)⟩,
          ⟨2, .BinaryOperation .Add 0 1⟩]⟩
        ⟨1, .Input (.BaseRow 1)⟩ ⟨0, .Input (.BaseRow 0)⟩).2 ∈
        ([⟨0, .Input (.BaseRow 0)⟩, ⟨1, .Input (.BaseRow 1)⟩,
          ⟨2, .BinaryOperation .Add 0 1⟩] : List CNode)) ∧
    (⟨0, .Input (.BaseRow 0)⟩ : CNode) = ⟨0, .Input (.BaseRow 0)⟩ :=
  ⟨builder_hash_consing.2 .Add
      ⟨3, [⟨0, .Input (.BaseRow 0)⟩, ⟨1, .Input (.BaseRow 1)⟩,
        ⟨2, .BinaryOperation .Add 0 1⟩]⟩
      ⟨1, .Input (.BaseRow 1)⟩ ⟨0, .Input (.BaseRow 0)⟩
      (Or.inl rfl) (by decide),
    builder_hash_consing.1 ⟨1, [⟨0, .Input (.BaseRow 0)⟩]⟩
      (Built.input ⟨0, []⟩ (.BaseRow 0) Built.empty)
      ⟨0, .Input (.BaseRow 0)⟩ (by decide)
      ⟨0, .Input (.BaseRow 0)⟩ (by decide)
      (.Input 0 (.BaseRow 0)) (.Input 0 (.BaseRow 0))
      (by decide) (by decide) (by decide)⟩

/-- `ConstraintCircuitMonad::all_nodes_in_circuit`: every node of the tree,
children first, with duplicates. -/
def all_nodes_in_circuit : CTree → List CTree
  | .BinaryOperation i op l r =>
    all_nodes_in_circuit l ++ all_nodes_in_circuit r ++
      [.BinaryOperation i op l r]
  | t => [t]

/-- `ConstraintCircuitMonad::all_nodes_in_multicircuit`. -/
def all_nodes_in_multicircuit (rs : List CTree) : List CTree :=
  rs.flatMap all_nodes_in_circuit

/-- `ConstraintCircuitMonad::multicircuit_degree`: maximum degree, `-1`
when empty. -/
def multicircuit_degree (rs : List CTree) : Int :=
  (rs.map CTree.degree).foldr max (-1)

/-- `ConstraintCircuitBuilder::substitute` seen on the unfolded trees of
the multicircuit: every subtree whose root carries `old_id` becomes `v`
(together with the explicit root replacement of `lower_to_degree`). -/
def substituteT (old_id : Nat) (v : CTree) : CTree → CTree
  | .BinaryOperation i op l r =>
    if i = old_id then v
    else .BinaryOperation i op (substituteT old_id v l) (substituteT old_id v r)
  | t => if t.nodeId = old_id then v else t

/-- Termination measure: the number of subtree occurrences of degree at
least 2. -/
def cnt : CTree → Nat
  | .BinaryOperation i op l r =>
    cnt l + cnt r +
      (if 2 ≤ (CTree.BinaryOperation i op l r).degree then 1 else 0)
  | t => if 2 ≤ t.degree then 1 else 0

/-- The termination measure of a whole multicircuit. -/
def cntM (rs : List CTree) : Nat := (rs.map cnt).sum

/-- The candidate list of `pick_node_to_substitute`: descendants of nodes
of degree above the target whose own degree lies in `(1, d]` (the
occurrence-count and degree tie-breaks of the Rust code only choose among
these; which candidate wins depends on `HashSet` iteration order). -/
def candidates (d : Int) (rs : List CTree) : List CTree :=
  (all_nodes_in_multicircuit
      ((all_nodes_in_multicircuit rs).filter (fun t => decide (d < t.degree)))).filter
    (fun t => decide (1 < t.degree ∧ t.degree ≤ d))

/-- A node the Rust `pick_node_to_substitute` may return. -/
def Candidate (rs : List CTree) (d : Int) (c : CTree) : Prop :=
  c ∈ candidates d rs

/-- A deterministic pick: the first candidate. -/
def pickF (d : Int) (rs : List CTree) : CTree :=
  (candidates d rs).headD (.BConstant 0 0)

/-- The state `lower_to_degree` threads: the multicircuit, the two
constraint vectors, and the builder's id counter (source of fresh node
ids). -/
structure LowerState where
  roots : List CTree
  base_constraints : List CTree
  ext_constraints : List CTree
  next_id : Nat
  deriving DecidableEq

/-- One iteration of the `while` loop of `lower_to_degree`, with `c` the
chosen node: allocate the new variable (base- or extension-column input
according to `evaluates_to_base_element`), substitute it throughout the
arena — multicircuit and previously created constraints — and record the
new constraint `new_variable - chosen`. -/
def lower_step (nb ne : Nat) (s : LowerState) (c : CTree) : LowerState :=
  let isBase := c.evaluates_to_base_element
  let v : CTree :=
    if isBase then .Input s.next_id (.BaseRow (nb + s.base_constraints.length))
    else .Input s.next_id (.ExtRow (ne + s.ext_constraints.length))
  let newConstraint : CTree := .BinaryOperation (s.next_id + 1) .Sub v c
  { roots := s.roots.map (substituteT c.nodeId v),
    base_constraints :=
      (s.base_constraints.map (substituteT c.nodeId v)) ++
        (if isBase then [newConstraint] else []),
    ext_constraints :=
      (s.ext_constraints.map (substituteT c.nodeId v)) ++
        (if isBase then [] else [newConstraint]),
    next_id := s.next_id + 2 }

/-- The `while multicircuit_degree > target` loop of `lower_to_degree`,
with explicit fuel (`cntM` fuel suffices, as proved below). -/
def lower_loop (d : Int) (nb ne : Nat) (pick : List CTree → CTree) :
    Nat → LowerState → LowerState
  | 0, s => s
  | fuel + 1, s =>
    if d < multicircuit_degree s.roots then
      lower_loop d nb ne pick fuel (lower_step nb ne s (pick s.roots))
    else s

/-- `ConstraintCircuitMonad::lower_to_degree` on the tree view. -/
def lower_to_degree (d : Int) (nb ne : Nat) (pick : List CTree → CTree)
    (fuel : Nat) (roots : List CTree) (fresh : Nat) : LowerState :=
  lower_loop d nb ne pick fuel ⟨roots, [], [], fresh⟩

theorem mem_all_nodes_self (t : CTree) : t ∈ all_nodes_in_circuit t := by
  cases t with
  | BinaryOperation i op l r =>
    rw [all_nodes_in_circuit]
    simp
  | BConstant j b => exact List.mem_singleton.mpr rfl
  | XConstant j x => exact List.mem_singleton.mpr rfl
  | Input j ii => exact List.mem_singleton.mpr rfl
  | Challenge j c => exact List.mem_singleton.mpr rfl

theorem all_nodes_trans : ∀ {t u w : CTree}, u ∈ all_nodes_in_circuit t →
    w ∈ all_nodes_in_circuit u → w ∈ all_nodes_in_circuit t := by
  intro t
  induction t with
  | BinaryOperation i op l r ihl ihr =>
    intro u w hu hw
    rw [all_nodes_in_circuit] at hu ⊢
    simp only [List.mem_append, List.mem_singleton] at hu ⊢
    rcases hu with (hu | hu) | hu
    · exact Or.inl (Or.inl (ihl hu hw))
    · exact Or.inl (Or.inr (ihr hu hw))
    · subst hu
      rw [all_nodes_in_circuit] at hw
      simp only [List.mem_append, List.mem_singleton] at hw
      exact hw
  | BConstant j b =>
    intro u w hu hw
    have hu2 : u ∈ [CTree.BConstant j b] := hu
    rw [List.mem_singleton] at hu2
    subst hu2
    exact hw
  | XConstant j x =>
    intro u w hu hw
    have hu2 : u ∈ [CTree.XConstant j x] := hu
    rw [List.mem_singleton] at hu2
    subst hu2
    exact hw
  | Input j ii =>
    intro u w hu hw
    have hu2 : u ∈ [CTree.Input j ii] := hu
    rw [List.mem_singleton] at hu2
    subst hu2
    exact hw
  | Challenge j c =>
    intro u w hu hw
    have hu2 : u ∈ [CTree.Challenge j c] := hu
    rw [List.mem_singleton] at hu2
    subst hu2
    exact hw

theorem all_nodes_size : ∀ {t u : CTree}, u ∈ all_nodes_in_circuit t →
    u.sizeT ≤ t.sizeT := by
  intro t
  induction t with
  | BinaryOperation i op l r ihl ihr =>
    intro u hu
    rw [all_nodes_in_circuit] at hu
    simp only [List.mem_append, List.mem_singleton] at hu
    rcases hu with (hu | hu) | hu
    · have := ihl hu
      rw [CTree.sizeT]
      omega
    · have := ihr hu
      rw [CTree.sizeT]
      omega
    · subst hu
      exact le_refl _
  | BConstant j b =>
    intro u hu
    have hu2 : u ∈ [CTree.BConstant j b] := hu
    rw [List.mem_singleton] at hu2
    subst hu2
    exact le_refl _
  | XConstant j x =>
    intro u hu
    have hu2 : u ∈ [CTree.XConstant j x] := hu
    rw [List.mem_singleton] at hu2
    subst hu2
    exact le_refl _
  | Input j ii =>
    intro u hu
    have hu2 : u ∈ [CTree.Input j ii] := hu
    rw [List.mem_singleton] at hu2
    subst hu2
    exact le_refl _
  | Challenge j c =>
    intro u hu
    have hu2 : u ∈ [CTree.Challenge j c] := hu
    rw [List.mem_singleton] at hu2
    subst hu2
    exact le_refl _

theorem all_nodes_size_strict {i : Nat} {op : BinOp} {l r u : CTree}
    (hu : u ∈ all_nodes_in_circuit l ++ all_nodes_in_circuit r) :
    u.sizeT < (CTree.BinaryOperation i op l r).sizeT := by
  rw [List.mem_append] at hu
  rw [CTree.sizeT]
  rcases hu with hu | hu
  · have := all_nodes_size hu
    omega
  · have := all_nodes_size hu
    omega

theorem degree_binop (i : Nat) (op : BinOp) (l r : CTree) :
    (CTree.BinaryOperation i op l r).degree =
      match op with
      | .Add | .Sub => max l.degree r.degree
      | .Mul =>
        if l.degree = -1 ∨ r.degree = -1 then -1 else l.degree + r.degree := by
  cases op <;> rfl

theorem degree_ge : ∀ t : CTree, -1 ≤ t.degree := by
  intro t
  induction t with
  | BinaryOperation i op l r ihl ihr =>
    rw [degree_binop]
    cases op with
    | Add => exact le_trans ihl (le_max_left _ _)
    | Sub => exact le_trans ihl (le_max_left _ _)
    | Mul =>
      show -1 ≤ if l.degree = -1 ∨ r.degree = -1 then -1 else l.degree + r.degree
      split_ifs with h
      · exact le_refl _
      · omega
  | BConstant b =>
    rw [CTree.degree]
    split_ifs <;> omega
  | XConstant x =>
    rw [CTree.degree]
    split_ifs <;> omega
  | Input ii =>
    rw [CTree.degree]
    split_ifs <;> omega
  | Challenge c =>
    rw [CTree.degree]
    split_ifs <;> omega

theorem binop_of_degree_ge_two {t : CTree} (h : 2 ≤ t.degree) :
    ∃ i op l r, t = CTree.BinaryOperation i op l r := by
  cases t with
  | BinaryOperation i op l r => exact ⟨i, op, l, r, rfl⟩
  | BConstant b =>
    rw [CTree.degree] at h
    split_ifs at h <;> omega
  | XConstant x =>
    rw [CTree.degree] at h
    split_ifs at h <;> omega
  | Input ii =>
    rw [CTree.degree] at h
    split_ifs at h <;> omega
  | Challenge c =>
    rw [CTree.degree] at h
    split_ifs at h <;> omega

theorem degree_le_multidegree {rs : List CTree} {t : CTree} (h : t ∈ rs) :
    t.degree ≤ multicircuit_degree rs := by
  induction rs with
  | nil => cases h
  | cons a l ih =>
    rw [multicircuit_degree, List.map_cons, List.foldr_cons]
    rcases List.mem_cons.mp h with rfl | h2
    · exact le_max_left _ _
    · exact le_trans (ih h2) (le_max_right _ _)

theorem exists_of_multidegree {rs : List CTree} {d : Int} (hd : -1 ≤ d)
    (h : d < multicircuit_degree rs) : ∃ t ∈ rs, d < t.degree := by
  induction rs with
  | nil =>
    rw [multicircuit_degree] at h
    simp at h
    omega
  | cons a l ih =>
    rw [multicircuit_degree, List.map_cons, List.foldr_cons] at h
    rcases lt_max_iff.mp h with h2 | h2
    · exact ⟨a, List.mem_cons_self a l, h2⟩
    · obtain ⟨t, ht, hd⟩ := ih h2
      exact ⟨t, List.mem_cons_of_mem a ht, hd⟩

theorem mem_all_nodes_left {i : Nat} {op : BinOp} {l r u : CTree}
    (h : u ∈ all_nodes_in_circuit l) :
    u ∈ all_nodes_in_circuit (CTree.BinaryOperation i op l r) := by
  rw [all_nodes_in_circuit]
  simp only [List.mem_append]
  exact Or.inl (Or.inl h)

theorem mem_all_nodes_right {i : Nat} {op : BinOp} {l r u : CTree}
    (h : u ∈ all_nodes_in_circuit r) :
    u ∈ all_nodes_in_circuit (CTree.BinaryOperation i op l r) := by
  rw [all_nodes_in_circuit]
  simp only [List.mem_append]
  exact Or.inl (Or.inr h)

theorem substituteT_eq (cid : Nat) (v t : CTree) :
    substituteT cid v t =
      if t.nodeId = cid then v
      else
        match t with
        | .BinaryOperation i op l r =>
          .BinaryOperation i op (substituteT cid v l) (substituteT cid v r)
        | t => t := by
  cases t <;> rfl

theorem substituteT_nodeId {cid : Nat} {v t : CTree} (h : ¬ t.nodeId = cid) :
    (substituteT cid v t).nodeId = t.nodeId := by
  rw [substituteT_eq, if_neg h]
  cases t <;> rfl

theorem substituteT_of_not_mem {cid : Nat} {v : CTree} :
    ∀ {t : CTree}, (∀ u ∈ all_nodes_in_circuit t, ¬ u.nodeId = cid) →
      substituteT cid v t = t := by
  intro t
  induction t with
  | BinaryOperation i op l r ihl ihr =>
    intro h
    rw [substituteT_eq, if_neg (h _ (mem_all_nodes_self _))]
    show CTree.BinaryOperation i op (substituteT cid v l)
      (substituteT cid v r) = CTree.BinaryOperation i op l r
    rw [ihl (fun u hu => h u (mem_all_nodes_left hu)),
      ihr (fun u hu => h u (mem_all_nodes_right hu))]
  | BConstant j b =>
    intro h
    rw [substituteT_eq, if_neg (h _ (mem_all_nodes_self _))]
  | XConstant j x =>
    intro h
    rw [substituteT_eq, if_neg (h _ (mem_all_nodes_self _))]
  | Input j ii =>
    intro h
    rw [substituteT_eq, if_neg (h _ (mem_all_nodes_self _))]
  | Challenge j c =>
    intro h
    rw [substituteT_eq, if_neg (h _ (mem_all_nodes_self _))]

theorem mem_substituteT {cid : Nat} {v : CTree} :
    ∀ {t u : CTree}, u ∈ all_nodes_in_circuit (substituteT cid v t) →
      u ∈ all_nodes_in_circuit v ∨
        ∃ u0 ∈ all_nodes_in_circuit t, ¬ u0.nodeId = cid ∧
          u = substituteT cid v u0 := by
  intro t
  induction t with
  | BinaryOperation i op l r ihl ihr =>
    intro u hu
    rw [substituteT_eq] at hu
    by_cases hid : (CTree.BinaryOperation i op l r).nodeId = cid
    · rw [if_pos hid] at hu
      exact Or.inl hu
    · rw [if_neg hid] at hu
      have hu2 : u ∈ all_nodes_in_circuit
          (CTree.BinaryOperation i op (substituteT cid v l)
            (substituteT cid v r)) := hu
      rw [all_nodes_in_circuit] at hu2
      simp only [List.mem_append, List.mem_singleton] at hu2
      rcases hu2 with (h2 | h2) | h2
      · rcases ihl h2 with h3 | ⟨u0, hm, hne, he⟩
        · exact Or.inl h3
        · exact Or.inr ⟨u0, mem_all_nodes_left hm, hne, he⟩
      · rcases ihr h2 with h3 | ⟨u0, hm, hne, he⟩
        · exact Or.inl h3
        · exact Or.inr ⟨u0, mem_all_nodes_right hm, hne, he⟩
      · subst h2
        refine Or.inr ⟨.BinaryOperation i op l r, mem_all_nodes_self _, hid, ?_⟩
        rw [substituteT_eq cid v (CTree.BinaryOperation i op l r), if_neg hid]
  | BConstant j b =>
    intro u hu
    rw [substituteT_eq] at hu
    by_cases hid : (CTree.BConstant j b).nodeId = cid
    · rw [if_pos hid] at hu
      exact Or.inl hu
    · rw [if_neg hid] at hu
      have hu2 : u ∈ [CTree.BConstant j b] := hu
      rw [List.mem_singleton] at hu2
      subst hu2
      exact Or.inr ⟨_, mem_all_nodes_self _, hid,
        by rw [substituteT_eq cid v (CTree.BConstant j b), if_neg hid]⟩
  | XConstant j x =>
    intro u hu
    rw [substituteT_eq] at hu
    by_cases hid : (CTree.XConstant j x).nodeId = cid
    · rw [if_pos hid] at hu
      exact Or.inl hu
    · rw [if_neg hid] at hu
      have hu2 : u ∈ [CTree.XConstant j x] := hu
      rw [List.mem_singleton] at hu2
      subst hu2
      exact Or.inr ⟨_, mem_all_nodes_self _, hid,
        by rw [substituteT_eq cid v (CTree.XConstant j x), if_neg hid]⟩
  | Input j ii =>
    intro u hu
    rw [substituteT_eq] at hu
    by_cases hid : (CTree.Input j ii).nodeId = cid
    · rw [if_pos hid] at hu
      exact Or.inl hu
    · rw [if_neg hid] at hu
      have hu2 : u ∈ [CTree.Input j ii] := hu
      rw [List.mem_singleton] at hu2
      subst hu2
      exact Or.inr ⟨_, mem_all_nodes_self _, hid,
        by rw [substituteT_eq cid v (CTree.Input j ii), if_neg hid]⟩
  | Challenge j c =>
    intro u hu
    rw [substituteT_eq] at hu
    by_cases hid : (CTree.Challenge j c).nodeId = cid
    · rw [if_pos hid] at hu
      exact Or.inl hu
    · rw [if_neg hid] at hu
      have hu2 : u ∈ [CTree.Challenge j c] := hu
      rw [List.mem_singleton] at hu2
      subst hu2
      exact Or.inr ⟨_, mem_all_nodes_self _, hid,
        by rw [substituteT_eq cid v (CTree.Challenge j c), if_neg hid]⟩

theorem substituteT_no_cid {cid : Nat} {v : CTree}
    (hvn : ∀ w ∈ all_nodes_in_circuit v, ¬ w.nodeId = cid) {t u : CTree}
    (hu : u ∈ all_nodes_in_circuit (substituteT cid v t)) :
    ¬ u.nodeId = cid := by
  rcases mem_substituteT hu with h | ⟨u0, hm, hne, he⟩
  · exact hvn u h
  · subst he
    rw [substituteT_nodeId hne]
    exact hne

theorem degree_substituteT_le {cid : Nat} {v c : CTree}
    (hvd : v.degree = 1) (hcd : 2 ≤ c.degree) :
    ∀ {t : CTree}, (∀ u ∈ all_nodes_in_circuit t, u.nodeId = cid → u = c) →
      (substituteT cid v t).degree ≤ t.degree := by
  intro t
  induction t with
  | BinaryOperation i op l r ihl ihr =>
    intro h
    rw [substituteT_eq]
    by_cases hid : (CTree.BinaryOperation i op l r).nodeId = cid
    · rw [if_pos hid]
      have he := h _ (mem_all_nodes_self _) hid
      rw [← he] at hcd
      omega
    · rw [if_neg hid]
      have hl := ihl (fun u hu hc => h u (mem_all_nodes_left hu) hc)
      have hr := ihr (fun u hu hc => h u (mem_all_nodes_right hu) hc)
      show (CTree.BinaryOperation i op (substituteT cid v l)
        (substituteT cid v r)).degree ≤
          (CTree.BinaryOperation i op l r).degree
      rw [degree_binop, degree_binop]
      cases op with
      | Add => exact max_le_max hl hr
      | Sub => exact max_le_max hl hr
      | Mul =>
        show (if (substituteT cid v l).degree = -1 ∨
            (substituteT cid v r).degree = -1 then -1
          else (substituteT cid v l).degree + (substituteT cid v r).degree) ≤
          (if l.degree = -1 ∨ r.degree = -1 then -1
            else l.degree + r.degree)
        have hgl := degree_ge l
        have hgr := degree_ge r
        have hgl2 := degree_ge (substituteT cid v l)
        have hgr2 := degree_ge (substituteT cid v r)
        split_ifs with h1 h2 <;> omega
  | BConstant j b =>
    intro h
    rw [substituteT_eq]
    by_cases hid : (CTree.BConstant j b).nodeId = cid
    · rw [if_pos hid]
      have he := h _ (mem_all_nodes_self _) hid
      rw [← he] at hcd
      omega
    · rw [if_neg hid]
  | XConstant j x =>
    intro h
    rw [substituteT_eq]
    by_cases hid : (CTree.XConstant j x).nodeId = cid
    · rw [if_pos hid]
      have he := h _ (mem_all_nodes_self _) hid
      rw [← he] at hcd
      omega
    · rw [if_neg hid]
  | Input j ii =>
    intro h
    rw [substituteT_eq]
    by_cases hid : (CTree.Input j ii).nodeId = cid
    · rw [if_pos hid]
      have he := h _ (mem_all_nodes_self _) hid
      rw [← he] at hcd
      omega
    · rw [if_neg hid]
  | Challenge j c2 =>
    intro h
    rw [substituteT_eq]
    by_cases hid : (CTree.Challenge j c2).nodeId = cid
    · rw [if_pos hid]
      have he := h _ (mem_all_nodes_self _) hid
      rw [← he] at hcd
      omega
    · rw [if_neg hid]

theorem cnt_eq (t : CTree) : cnt t =
    match t with
    | .BinaryOperation i op l r =>
      cnt l + cnt r +
        (if 2 ≤ (CTree.BinaryOperation i op l r).degree then 1 else 0)
    | t => if 2 ≤ t.degree then 1 else 0 := by
  cases t <;> rfl

theorem cnt_pos {t : CTree} (h : 2 ≤ t.degree) : 1 ≤ cnt t := by
  rw [cnt_eq]
  cases t with
  | BinaryOperation i op l r =>
    show 1 ≤ cnt l + cnt r +
      (if 2 ≤ (CTree.BinaryOperation i op l r).degree then 1 else 0)
    rw [if_pos h]
    omega
  | BConstant j b =>
    show 1 ≤ if 2 ≤ (CTree.BConstant j b).degree then 1 else 0
    rw [if_pos h]
  | XConstant j x =>
    show 1 ≤ if 2 ≤ (CTree.XConstant j x).degree then 1 else 0
    rw [if_pos h]
  | Input j ii =>
    show 1 ≤ if 2 ≤ (CTree.Input j ii).degree then 1 else 0
    rw [if_pos h]
  | Challenge j c =>
    show 1 ≤ if 2 ≤ (CTree.Challenge j c).degree then 1 else 0
    rw [if_pos h]

theorem cnt_substituteT_le {cid : Nat} {v c : CTree}
    (hvd : v.degree = 1) (hvc : cnt v = 0) (hcd : 2 ≤ c.degree) :
    ∀ {t : CTree}, (∀ u ∈ all_nodes_in_circuit t, u.nodeId = cid → u = c) →
      cnt (substituteT cid v t) ≤ cnt t := by
  intro t
  induction t with
  | BinaryOperation i op l r ihl ihr =>
    intro h
    rw [substituteT_eq]
    by_cases hid : (CTree.BinaryOperation i op l r).nodeId = cid
    · rw [if_pos hid, hvc]
      omega
    · rw [if_neg hid]
      have hl := ihl (fun u hu hc => h u (mem_all_nodes_left hu) hc)
      have hr := ihr (fun u hu hc => h u (mem_all_nodes_right hu) hc)
      have hdeg : (substituteT cid v
          (CTree.BinaryOperation i op l r)).degree ≤
            (CTree.BinaryOperation i op l r).degree :=
        degree_substituteT_le hvd hcd h
      rw [substituteT_eq, if_neg hid] at hdeg
      show cnt (CTree.BinaryOperation i op (substituteT cid v l)
        (substituteT cid v r)) ≤ cnt (CTree.BinaryOperation i op l r)
      rw [cnt_eq, cnt_eq]
      show cnt (substituteT cid v l) + cnt (substituteT cid v r) +
          (if 2 ≤ (CTree.BinaryOperation i op (substituteT cid v l)
            (substituteT cid v r)).degree then 1 else 0) ≤
        cnt l + cnt r +
          (if 2 ≤ (CTree.BinaryOperation i op l r).degree then 1 else 0)
      have hdeg2 : (CTree.BinaryOperation i op (substituteT cid v l)
          (substituteT cid v r)).degree ≤
            (CTree.BinaryOperation i op l r).degree := hdeg
      split_ifs with h1 h2 <;> omega
  | BConstant j b =>
    intro h
    rw [substituteT_eq]
    by_cases hid : (CTree.BConstant j b).nodeId = cid
    · rw [if_pos hid, hvc]
      omega
    · rw [if_neg hid]
  | XConstant j x =>
    intro h
    rw [substituteT_eq]
    by_cases hid : (CTree.XConstant j x).nodeId = cid
    · rw [if_pos hid, hvc]
      omega
    · rw [if_neg hid]
  | Input j ii =>
    intro h
    rw [substituteT_eq]
    by_cases hid : (CTree.Input j ii).nodeId = cid
    · rw [if_pos hid, hvc]
      omega
    · rw [if_neg hid]
  | Challenge j c2 =>
    intro h
    rw [substituteT_eq]
    by_cases hid : (CTree.Challenge j c2).nodeId = cid
    · rw [if_pos hid, hvc]
      omega
    · rw [if_neg hid]

theorem cnt_substituteT_lt {cid : Nat} {v c : CTree}
    (hvd : v.degree = 1) (hvc : cnt v = 0) (hcd : 2 ≤ c.degree)
    (hcid : c.nodeId = cid) :
    ∀ {t : CTree}, (∀ u ∈ all_nodes_in_circuit t, u.nodeId = cid → u = c) →
      c ∈ all_nodes_in_circuit t →
      cnt (substituteT cid v t) < cnt t := by
  intro t
  induction t with
  | BinaryOperation i op l r ihl ihr =>
    intro h hin
    rw [substituteT_eq]
    by_cases hid : (CTree.BinaryOperation i op l r).nodeId = cid
    · rw [if_pos hid, hvc]
      have he := h _ (mem_all_nodes_self _) hid
      have := cnt_pos (t := CTree.BinaryOperation i op l r) (by rw [he]; exact hcd)
      omega
    · rw [if_neg hid]
      rw [all_nodes_in_circuit] at hin
      simp only [List.mem_append, List.mem_singleton] at hin
      have hdeg : (substituteT cid v
          (CTree.BinaryOperation i op l r)).degree ≤
            (CTree.BinaryOperation i op l r).degree :=
        degree_substituteT_le hvd hcd h
      rw [substituteT_eq, if_neg hid] at hdeg
      show cnt (CTree.BinaryOperation i op (substituteT cid v l)
        (substituteT cid v r)) < cnt (CTree.BinaryOperation i op l r)
      rw [cnt_eq, cnt_eq]
      show cnt (substituteT cid v l) + cnt (substituteT cid v r) +
          (if 2 ≤ (CTree.BinaryOperation i op (substituteT cid v l)
            (substituteT cid v r)).degree then 1 else 0) <
        cnt l + cnt r +
          (if 2 ≤ (CTree.BinaryOperation i op l r).degree then 1 else 0)
      have hdeg2 : (CTree.BinaryOperation i op (substituteT cid v l)
          (substituteT cid v r)).degree ≤
            (CTree.BinaryOperation i op l r).degree := hdeg
      rcases hin with (hin | hin) | hin
      · have hsl := ihl (fun u hu hc => h u (mem_all_nodes_left hu) hc) hin
        have hwr := cnt_substituteT_le hvd hvc hcd
          (fun u hu hc => h u (mem_all_nodes_right hu) hc)
        split_ifs with h1 h2 <;> omega
      · have hsr := ihr (fun u hu hc => h u (mem_all_nodes_right hu) hc) hin
        have hwl := cnt_substituteT_le hvd hvc hcd
          (fun u hu hc => h u (mem_all_nodes_left hu) hc)
        split_ifs with h1 h2 <;> omega
      · rw [← hin] at hid
        exact absurd hcid hid
  | BConstant j b =>
    intro h hin
    have hin2 : c ∈ [CTree.BConstant j b] := hin
    rw [List.mem_singleton] at hin2
    rw [substituteT_eq]
    by_cases hid : (CTree.BConstant j b).nodeId = cid
    · rw [if_pos hid, hvc]
      have := cnt_pos (t := CTree.BConstant j b) (by rw [hin2] at hcd; exact hcd)
      omega
    · rw [hin2] at hcid
      exact absurd hcid hid
  | XConstant j x =>
    intro h hin
    have hin2 : c ∈ [CTree.XConstant j x] := hin
    rw [List.mem_singleton] at hin2
    rw [substituteT_eq]
    by_cases hid : (CTree.XConstant j x).nodeId = cid
    · rw [if_pos hid, hvc]
      have := cnt_pos (t := CTree.XConstant j x) (by rw [hin2] at hcd; exact hcd)
      omega
    · rw [hin2] at hcid
      exact absurd hcid hid
  | Input j ii =>
    intro h hin
    have hin2 : c ∈ [CTree.Input j ii] := hin
    rw [List.mem_singleton] at hin2
    rw [substituteT_eq]
    by_cases hid : (CTree.Input j ii).nodeId = cid
    · rw [if_pos hid, hvc]
      have := cnt_pos (t := CTree.Input j ii) (by rw [hin2] at hcd; exact hcd)
      omega
    · rw [hin2] at hcid
      exact absurd hcid hid
  | Challenge j c2 =>
    intro h hin
    have hin2 : c ∈ [CTree.Challenge j c2] := hin
    rw [List.mem_singleton] at hin2
    rw [substituteT_eq]
    by_cases hid : (CTree.Challenge j c2).nodeId = cid
    · rw [if_pos hid, hvc]
      have := cnt_pos (t := CTree.Challenge j c2) (by rw [hin2] at hcd; exact hcd)
      omega
    · rw [hin2] at hcid
      exact absurd hcid hid

theorem evb_substituteT {cid : Nat} {v c : CTree}
    (hvb : v.evaluates_to_base_element = c.evaluates_to_base_element) :
    ∀ {t : CTree}, (∀ u ∈ all_nodes_in_circuit t, u.nodeId = cid → u = c) →
      (substituteT cid v t).evaluates_to_base_element =
        t.evaluates_to_base_element := by
  intro t
  induction t with
  | BinaryOperation i op l r ihl ihr =>
    intro h
    rw [substituteT_eq]
    by_cases hid : (CTree.BinaryOperation i op l r).nodeId = cid
    · rw [if_pos hid]
      rw [h _ (mem_all_nodes_self _) hid]
      exact hvb
    · rw [if_neg hid]
      show (CTree.BinaryOperation i op (substituteT cid v l)
        (substituteT cid v r)).evaluates_to_base_element =
          (CTree.BinaryOperation i op l r).evaluates_to_base_element
      rw [CTree.evaluates_to_base_element, CTree.evaluates_to_base_element,
        ihl (fun u hu hc => h u (mem_all_nodes_left hu) hc),
        ihr (fun u hu hc => h u (mem_all_nodes_right hu) hc)]
  | BConstant j b =>
    intro h
    rw [substituteT_eq]
    by_cases hid : (CTree.BConstant j b).nodeId = cid
    · rw [if_pos hid, h _ (mem_all_nodes_self _) hid]
      exact hvb
    · rw [if_neg hid]
  | XConstant j x =>
    intro h
    rw [substituteT_eq]
    by_cases hid : (CTree.XConstant j x).nodeId = cid
    · rw [if_pos hid, h _ (mem_all_nodes_self _) hid]
      exact hvb
    · rw [if_neg hid]
  | Input j ii =>
    intro h
    rw [substituteT_eq]
    by_cases hid : (CTree.Input j ii).nodeId = cid
    · rw [if_pos hid, h _ (mem_all_nodes_self _) hid]
      exact hvb
    · rw [if_neg hid]
  | Challenge j c2 =>
    intro h
    rw [substituteT_eq]
    by_cases hid : (CTree.Challenge j c2).nodeId = cid
    · rw [if_pos hid, h _ (mem_all_nodes_self _) hid]
      exact hvb
    · rw [if_neg hid]

theorem degree_leaf_le {t : CTree} (h : t.isLeafT = true) : t.degree ≤ 1 := by
  cases t with
  | BinaryOperation i op l r => simp [CTree.isLeafT] at h
  | BConstant j b =>
    rw [CTree.degree]
    split_ifs <;> omega
  | XConstant j x =>
    rw [CTree.degree]
    split_ifs <;> omega
  | Input j ii =>
    rw [CTree.degree]
    split_ifs <;> omega
  | Challenge j c =>
    rw [CTree.degree]
    split_ifs <;> omega

theorem high_has_candidate : ∀ (t : CTree) (d : Int), 1 < d → d < t.degree →
    ∃ c ∈ all_nodes_in_circuit t, 1 < c.degree ∧ c.degree ≤ d := by
  intro t
  induction t with
  | BinaryOperation i op l r ihl ihr =>
    intro d hd hdeg
    rw [degree_binop] at hdeg
    cases op with
    | Add =>
      have hdeg2 : d < max l.degree r.degree := hdeg
      rcases lt_max_iff.mp hdeg2 with h | h
      · obtain ⟨c, hm, hp⟩ := ihl d hd h
        exact ⟨c, mem_all_nodes_left hm, hp⟩
      · obtain ⟨c, hm, hp⟩ := ihr d hd h
        exact ⟨c, mem_all_nodes_right hm, hp⟩
    | Sub =>
      have hdeg2 : d < max l.degree r.degree := hdeg
      rcases lt_max_iff.mp hdeg2 with h | h
      · obtain ⟨c, hm, hp⟩ := ihl d hd h
        exact ⟨c, mem_all_nodes_left hm, hp⟩
      · obtain ⟨c, hm, hp⟩ := ihr d hd h
        exact ⟨c, mem_all_nodes_right hm, hp⟩
    | Mul =>
      have hdeg2 : d < if l.degree = -1 ∨ r.degree = -1 then -1
        else l.degree + r.degree := hdeg
      by_cases hz : l.degree = -1 ∨ r.degree = -1
      · rw [if_pos hz] at hdeg2
        omega
      · rw [if_neg hz] at hdeg2
        have hgl := degree_ge l
        have hgr := degree_ge r
        by_cases h1 : d < l.degree
        · obtain ⟨c, hm, hp⟩ := ihl d hd h1
          exact ⟨c, mem_all_nodes_left hm, hp⟩
        · by_cases h2 : d < r.degree
          · obtain ⟨c, hm, hp⟩ := ihr d hd h2
            exact ⟨c, mem_all_nodes_right hm, hp⟩
          · by_cases h3 : 2 ≤ l.degree
            · exact ⟨l, mem_all_nodes_left (mem_all_nodes_self _),
                by omega, by omega⟩
            · by_cases h4 : 2 ≤ r.degree
              · exact ⟨r, mem_all_nodes_right (mem_all_nodes_self _),
                  by omega, by omega⟩
              · exfalso
                omega
  | BConstant j b =>
    intro d hd hdeg
    have := degree_leaf_le (t := CTree.BConstant j b) rfl
    omega
  | XConstant j x =>
    intro d hd hdeg
    have := degree_leaf_le (t := CTree.XConstant j x) rfl
    omega
  | Input j ii =>
    intro d hd hdeg
    have := degree_leaf_le (t := CTree.Input j ii) rfl
    omega
  | Challenge j c =>
    intro d hd hdeg
    have := degree_leaf_le (t := CTree.Challenge j c) rfl
    omega

theorem mem_all_nodes_multi {rs : List CTree} {t u : CTree} (ht : t ∈ rs)
    (hu : u ∈ all_nodes_in_circuit t) : u ∈ all_nodes_in_multicircuit rs := by
  rw [all_nodes_in_multicircuit, List.mem_flatMap]
  exact ⟨t, ht, hu⟩

theorem mem_multi_trans {rs : List CTree} {h2 u : CTree}
    (hh : h2 ∈ all_nodes_in_multicircuit rs)
    (hu : u ∈ all_nodes_in_circuit h2) : u ∈ all_nodes_in_multicircuit rs := by
  rw [all_nodes_in_multicircuit, List.mem_flatMap] at hh ⊢
  obtain ⟨t, ht, hh2⟩ := hh
  exact ⟨t, ht, all_nodes_trans hh2 hu⟩

theorem candidate_elim {rs : List CTree} {d : Int} {c : CTree}
    (h : Candidate rs d c) :
    (∃ h2 ∈ all_nodes_in_multicircuit rs, d < h2.degree ∧
      c ∈ all_nodes_in_circuit h2) ∧ 1 < c.degree ∧ c.degree ≤ d := by
  rw [Candidate, candidates, List.mem_filter] at h
  obtain ⟨hmem, hp⟩ := h
  simp only [decide_eq_true_eq] at hp
  rw [all_nodes_in_multicircuit, List.mem_flatMap] at hmem
  obtain ⟨h2, hh2, hcm⟩ := hmem
  rw [List.mem_filter] at hh2
  obtain ⟨hh2m, hh2d⟩ := hh2
  simp only [decide_eq_true_eq] at hh2d
  exact ⟨⟨h2, hh2m, hh2d, hcm⟩, hp⟩

theorem candidate_intro {rs : List CTree} {d : Int} {c h2 : CTree}
    (hh : h2 ∈ all_nodes_in_multicircuit rs) (hdh : d < h2.degree)
    (hcm : c ∈ all_nodes_in_circuit h2) (h1 : 1 < c.degree)
    (h2d : c.degree ≤ d) : Candidate rs d c := by
  rw [Candidate, candidates, List.mem_filter]
  refine ⟨?_, by simp only [decide_eq_true_eq]; exact ⟨h1, h2d⟩⟩
  rw [all_nodes_in_multicircuit, List.mem_flatMap]
  refine ⟨h2, ?_, hcm⟩
  rw [List.mem_filter]
  exact ⟨hh, by simp only [decide_eq_true_eq]; exact hdh⟩

theorem pickF_valid {d : Int} (hd : 1 < d) : ∀ rs : List CTree,
    d < multicircuit_degree rs → Candidate rs d (pickF d rs) := by
  intro rs hh
  obtain ⟨t, htm, htd⟩ := exists_of_multidegree (by omega) hh
  obtain ⟨c, hcm, hc1, hc2⟩ := high_has_candidate t d hd htd
  have hcand : Candidate rs d c :=
    candidate_intro (mem_all_nodes_multi htm (mem_all_nodes_self t))
      htd hcm hc1 hc2
  rw [Candidate] at hcand ⊢
  rw [pickF]
  cases hcs : candidates d rs with
  | nil =>
    rw [hcs] at hcand
    cases hcand
  | cons a l =>
    exact List.mem_cons_self a l

theorem cntM_map_le {rs : List CTree} {F : CTree → CTree}
    (hle : ∀ t ∈ rs, cnt (F t) ≤ cnt t) : cntM (rs.map F) ≤ cntM rs := by
  induction rs with
  | nil => exact le_refl _
  | cons a l ih =>
    have h1 := hle a (List.mem_cons_self a l)
    have h2 := ih (fun t ht => hle t (List.mem_cons_of_mem a ht))
    simp only [cntM, List.map_cons, List.sum_cons] at h2 ⊢
    omega

theorem cntM_map_lt {rs : List CTree} {F : CTree → CTree}
    (hle : ∀ t ∈ rs, cnt (F t) ≤ cnt t) {t0 : CTree} (ht0 : t0 ∈ rs)
    (hlt : cnt (F t0) < cnt t0) : cntM (rs.map F) < cntM rs := by
  induction rs with
  | nil => cases ht0
  | cons a l ih =>
    rcases List.mem_cons.mp ht0 with rfl | hm
    · have h2 : cntM (l.map F) ≤ cntM l :=
        cntM_map_le (fun t ht => hle t (List.mem_cons_of_mem t0 ht))
      simp only [cntM, List.map_cons, List.sum_cons] at h2 ⊢
      omega
    · have h1 := hle a (List.mem_cons_self a l)
      have h2 := ih (fun t ht => hle t (List.mem_cons_of_mem a ht)) hm
      simp only [cntM, List.map_cons, List.sum_cons] at h2 ⊢
      omega

/-- All nodes owned by the arena during `lower_to_degree`: the
multicircuit and both constraint vectors. -/
def forestN (s : LowerState) : List CTree :=
  all_nodes_in_multicircuit s.roots ++
    all_nodes_in_multicircuit s.base_constraints ++
    all_nodes_in_multicircuit s.ext_constraints

/-- The invariant `lower_to_degree` maintains: node ids determine nodes
(the arena view), ids stay below the id counter, every recorded constraint
has the claimed `new_variable - replaced_subcircuit` shape with the right
column kind and degree, and the ids of constraint nodes and of replaced
subcircuits no longer occur in the multicircuit. -/
structure LInv (d : Int) (nb ne : Nat) (s : LowerState) : Prop where
  coh : ∀ u1 ∈ forestN s, ∀ u2 ∈ forestN s, u1.nodeId = u2.nodeId → u1 = u2
  fresh : ∀ u ∈ forestN s, u.nodeId < s.next_id
  cbase : ∀ k : Nat, k < s.base_constraints.length →
    ∃ i1 i2 rhs, s.base_constraints[k]? =
      some (.BinaryOperation i1 .Sub (.Input i2 (.BaseRow (nb + k))) rhs) ∧
      rhs.evaluates_to_base_element = true ∧ rhs.degree ≤ d
  cext : ∀ k : Nat, k < s.ext_constraints.length →
    ∃ i1 i2 rhs, s.ext_constraints[k]? =
      some (.BinaryOperation i1 .Sub (.Input i2 (.ExtRow (ne + k))) rhs) ∧
      rhs.evaluates_to_base_element = false ∧ rhs.degree ≤ d
  sep : ∀ u ∈ all_nodes_in_multicircuit s.roots,
    ∀ w ∈ s.base_constraints ++ s.ext_constraints,
    ¬ u.nodeId = w.nodeId ∧
      ∀ i op a b, w = CTree.BinaryOperation i op a b → ¬ u.nodeId = b.nodeId

/-- Where a node of the post-step arena can come from. -/
def StepNode (s : LowerState) (c v newC : CTree) (u : CTree) : Prop :=
  u = v ∨ u = newC ∨ u ∈ all_nodes_in_circuit c ∨
    ∃ u0 ∈ forestN s, ¬ u0.nodeId = c.nodeId ∧
      u = substituteT c.nodeId v u0

theorem degree_input (j : Nat) (ind : SRI) :
    (CTree.Input j ind).degree = 1 := rfl

theorem cnt_input (j : Nat) (ind : SRI) : cnt (CTree.Input j ind) = 0 := by
  rw [cnt_eq]
  show (if 2 ≤ (CTree.Input j ind).degree then 1 else 0) = 0
  rw [degree_input]
  rfl

theorem evb_input (j : Nat) (ind : SRI) :
    (CTree.Input j ind).evaluates_to_base_element =
      ind.is_base_table_column := rfl

theorem allM_sub_cases {L : List CTree} {cid : Nat} {v u : CTree}
    (hu : u ∈ all_nodes_in_multicircuit (L.map (substituteT cid v))) :
    u ∈ all_nodes_in_circuit v ∨
      ∃ u0 ∈ all_nodes_in_multicircuit L, ¬ u0.nodeId = cid ∧
        u = substituteT cid v u0 := by
  rw [all_nodes_in_multicircuit, List.mem_flatMap] at hu
  obtain ⟨t2, ht2, hu2⟩ := hu
  rw [List.mem_map] at ht2
  obtain ⟨t, ht, rfl⟩ := ht2
  rcases mem_substituteT hu2 with h | ⟨u0, hm, hne, he⟩
  · exact Or.inl h
  · exact Or.inr ⟨u0, mem_all_nodes_multi ht hm, hne, he⟩

theorem allM_append {A B : List CTree} {u : CTree} :
    u ∈ all_nodes_in_multicircuit (A ++ B) ↔
      u ∈ all_nodes_in_multicircuit A ∨ u ∈ all_nodes_in_multicircuit B := by
  rw [all_nodes_in_multicircuit, List.mem_flatMap]
  constructor
  · rintro ⟨t, ht, hu⟩
    rcases List.mem_append.mp ht with h | h
    · exact Or.inl (mem_all_nodes_multi h hu)
    · exact Or.inr (mem_all_nodes_multi h hu)
  · rintro (h | h) <;>
      rw [all_nodes_in_multicircuit, List.mem_flatMap] at h <;>
      obtain ⟨t, ht, hu⟩ := h
    · exact ⟨t, List.mem_append_left _ ht, hu⟩
    · exact ⟨t, List.mem_append_right _ ht, hu⟩

theorem allM_single {t u : CTree} (hu : u ∈ all_nodes_in_multicircuit [t]) :
    u ∈ all_nodes_in_circuit t := by
  rw [all_nodes_in_multicircuit, List.mem_flatMap] at hu
  obtain ⟨t2, ht2, h⟩ := hu
  rw [List.mem_singleton] at ht2
  subst ht2
  exact h

theorem inside_c_unchanged {cid : Nat} {v c : CTree}
    (hcd : 2 ≤ c.degree) (hcid : c.nodeId = cid)
    (hno : ∀ w ∈ all_nodes_in_circuit c, w.nodeId = cid → w = c)
    {u0 : CTree} (hu0 : u0 ∈ all_nodes_in_circuit c)
    (hne : ¬ u0.nodeId = cid) : substituteT cid v u0 = u0 := by
  apply substituteT_of_not_mem
  intro w hw hwc
  have hwc2 : w ∈ all_nodes_in_circuit c := all_nodes_trans hu0 hw
  have hwe := hno w hwc2 hwc
  subst hwe
  have hsz1 := all_nodes_size hw
  obtain ⟨i, op, l, r, rfl⟩ := binop_of_degree_ge_two hcd
  rw [all_nodes_in_circuit] at hu0
  simp only [List.mem_append, List.mem_singleton] at hu0
  rcases hu0 with (h2 | h2) | h2
  · have := @all_nodes_size_strict i op l r u0
      (List.mem_append.mpr (Or.inl h2))
    omega
  · have := @all_nodes_size_strict i op l r u0
      (List.mem_append.mpr (Or.inr h2))
    omega
  · rw [h2] at hne
    exact hne hcid

theorem step_fresh_core {d : Int} {nb ne : Nat} {s : LowerState} {c : CTree}
    (ind : SRI) (hinv : LInv d nb ne s) {u : CTree}
    (hu : StepNode s c (.Input s.next_id ind)
      (.BinaryOperation (s.next_id + 1) .Sub (.Input s.next_id ind) c) u)
    (hcroots : c ∈ all_nodes_in_multicircuit s.roots) :
    u.nodeId < s.next_id + 2 := by
  rcases hu with rfl | rfl | h | ⟨u0, hm, hne, rfl⟩
  · show s.next_id < s.next_id + 2
    omega
  · show s.next_id + 1 < s.next_id + 2
    omega
  · have hm : u ∈ forestN s := by
      rw [forestN]
      exact List.mem_append_left _ (List.mem_append_left _ (mem_multi_trans hcroots h))
    have := hinv.fresh u hm
    omega
  · rw [substituteT_nodeId hne]
    have := hinv.fresh u0 hm
    omega

theorem step_coh_core {d : Int} {nb ne : Nat} {s : LowerState} {c : CTree}
    (ind : SRI) (hinv : LInv d nb ne s)
    (hcroots : c ∈ all_nodes_in_multicircuit s.roots)
    (hcd : 2 ≤ c.degree) {u1 u2 : CTree}
    (h1 : StepNode s c (.Input s.next_id ind)
      (.BinaryOperation (s.next_id + 1) .Sub (.Input s.next_id ind) c) u1)
    (h2 : StepNode s c (.Input s.next_id ind)
      (.BinaryOperation (s.next_id + 1) .Sub (.Input s.next_id ind) c) u2)
    (hid : u1.nodeId = u2.nodeId) : u1 = u2 := by
  have hcF : c ∈ forestN s := by
    rw [forestN]
    exact List.mem_append_left _ (List.mem_append_left _ hcroots)
  have hoccF : ∀ u ∈ forestN s, u.nodeId = c.nodeId → u = c :=
    fun u hu hh => hinv.coh u hu c hcF hh
  have hcfresh : c.nodeId < s.next_id := hinv.fresh c hcF
  have hcnodesF : ∀ u ∈ all_nodes_in_circuit c, u ∈ forestN s := by
    intro u hu
    rw [forestN]
    exact List.mem_append_left _ (List.mem_append_left _ (mem_multi_trans hcroots hu))
  have himgeq : ∀ u0 ∈ forestN s, ¬ u0.nodeId = c.nodeId →
      ∀ w ∈ all_nodes_in_circuit c, w.nodeId = u0.nodeId →
      substituteT c.nodeId (CTree.Input s.next_id ind) u0 = w := by
    intro u0 hm0 hne0 w hwc hww
    have hwF := hcnodesF w hwc
    have he := hinv.coh w hwF u0 hm0 hww
    subst he
    exact inside_c_unchanged hcd rfl
      (fun w2 hw2 hc2 => hoccF w2 (hcnodesF w2 hw2) hc2) hwc hne0
  rcases h1 with rfl | rfl | hc1 | ⟨u0, hm0, hne0, rfl⟩ <;>
    rcases h2 with rfl | rfl | hc2 | ⟨u3, hm3, hne3, rfl⟩
  · rfl
  · have hid2 : s.next_id = s.next_id + 1 := hid
    omega
  · have := hinv.fresh u2 (hcnodesF u2 hc2)
    have hid2 : s.next_id = u2.nodeId := hid
    omega
  · rw [substituteT_nodeId hne3] at hid
    have := hinv.fresh u3 hm3
    have hid2 : s.next_id = u3.nodeId := hid
    omega
  · have hid2 : s.next_id + 1 = s.next_id := hid
    omega
  · rfl
  · have := hinv.fresh u2 (hcnodesF u2 hc2)
    have hid2 : s.next_id + 1 = u2.nodeId := hid
    omega
  · rw [substituteT_nodeId hne3] at hid
    have := hinv.fresh u3 hm3
    have hid2 : s.next_id + 1 = u3.nodeId := hid
    omega
  · have := hinv.fresh u1 (hcnodesF u1 hc1)
    have hid2 : u1.nodeId = s.next_id := hid
    omega
  · have := hinv.fresh u1 (hcnodesF u1 hc1)
    have hid2 : u1.nodeId = s.next_id + 1 := hid
    omega
  · exact hinv.coh u1 (hcnodesF u1 hc1) u2 (hcnodesF u2 hc2) hid
  · rw [substituteT_nodeId hne3] at hid
    exact (himgeq u3 hm3 hne3 u1 hc1 hid).symm
  · rw [substituteT_nodeId hne0] at hid
    have := hinv.fresh u0 hm0
    have hid2 : u0.nodeId = s.next_id := hid
    omega
  · rw [substituteT_nodeId hne0] at hid
    have := hinv.fresh u0 hm0
    have hid2 : u0.nodeId = s.next_id + 1 := hid
    omega
  · rw [substituteT_nodeId hne0] at hid
    exact himgeq u0 hm0 hne0 u2 hc2 hid.symm
  · rw [substituteT_nodeId hne0, substituteT_nodeId hne3] at hid
    rw [hinv.coh u0 hm0 u3 hm3 hid]

theorem constraint_shape_of_mem {d : Int} {nb ne : Nat} {s : LowerState}
    (hinv : LInv d nb ne s) {w : CTree}
    (hw : w ∈ s.base_constraints ++ s.ext_constraints) :
    ∃ i1 i2 ind2 rhs,
      w = CTree.BinaryOperation i1 .Sub (.Input i2 ind2) rhs := by
  rcases List.mem_append.mp hw with hwb | hwe
  · rw [List.mem_iff_getElem?] at hwb
    obtain ⟨k, hk⟩ := hwb
    have hklen : k < s.base_constraints.length := by
      by_contra hcon
      rw [List.getElem?_eq_none (by omega)] at hk
      exact Option.noConfusion hk
    obtain ⟨i1, i2, rhs, hget, -, -⟩ := hinv.cbase k hklen
    rw [hget] at hk
    exact ⟨i1, i2, _, rhs, (Option.some.inj hk).symm⟩
  · rw [List.mem_iff_getElem?] at hwe
    obtain ⟨k, hk⟩ := hwe
    have hklen : k < s.ext_constraints.length := by
      by_contra hcon
      rw [List.getElem?_eq_none (by omega)] at hk
      exact Option.noConfusion hk
    obtain ⟨i1, i2, rhs, hget, -, -⟩ := hinv.cext k hklen
    rw [hget] at hk
    exact ⟨i1, i2, _, rhs, (Option.some.inj hk).symm⟩

theorem lhs_input_in_forest {d : Int} {nb ne : Nat} {s : LowerState}
    (hinv : LInv d nb ne s) {w : CTree}
    (hw : w ∈ s.base_constraints ++ s.ext_constraints)
    {i1 i2 : Nat} {ind2 : SRI} {rhs : CTree}
    (hshape : w = CTree.BinaryOperation i1 .Sub (.Input i2 ind2) rhs) :
    (CTree.Input i2 ind2) ∈ forestN s := by
  subst hshape
  rw [forestN]
  rcases List.mem_append.mp hw with hwb | hwe
  · exact List.mem_append_left _ (List.mem_append_right _
      (mem_all_nodes_multi hwb (mem_all_nodes_left (mem_all_nodes_self _))))
  · exact List.mem_append_right _
      (mem_all_nodes_multi hwe (mem_all_nodes_left (mem_all_nodes_self _)))

theorem rhs_nodes_in_forest {d : Int} {nb ne : Nat} {s : LowerState}
    (hinv : LInv d nb ne s) {w : CTree}
    (hw : w ∈ s.base_constraints ++ s.ext_constraints)
    {i1 i2 : Nat} {ind2 : SRI} {rhs : CTree}
    (hshape : w = CTree.BinaryOperation i1 .Sub (.Input i2 ind2) rhs)
    {u : CTree} (hu : u ∈ all_nodes_in_circuit rhs) : u ∈ forestN s := by
  subst hshape
  rw [forestN]
  rcases List.mem_append.mp hw with hwb | hwe
  · exact List.mem_append_left _ (List.mem_append_right _
      (mem_all_nodes_multi hwb (mem_all_nodes_right hu)))
  · exact List.mem_append_right _
      (mem_all_nodes_multi hwe (mem_all_nodes_right hu))

theorem subst_constraint_shape {d : Int} {nb ne : Nat} {s : LowerState}
    (hinv : LInv d nb ne s) {c : CTree}
    (hcroots : c ∈ all_nodes_in_multicircuit s.roots)
    (hcd : 2 ≤ c.degree) (v : CTree) {w : CTree}
    (hw : w ∈ s.base_constraints ++ s.ext_constraints)
    {i1 i2 : Nat} {ind2 : SRI} {rhs : CTree}
    (hshape : w = CTree.BinaryOperation i1 .Sub (.Input i2 ind2) rhs) :
    substituteT c.nodeId v w =
      CTree.BinaryOperation i1 .Sub (.Input i2 ind2)
        (substituteT c.nodeId v rhs) := by
  have hsep := hinv.sep c hcroots w hw
  have hlhsF := lhs_input_in_forest hinv hw hshape
  subst hshape
  rw [substituteT_eq]
  rw [if_neg (fun hcon => hsep.1 hcon.symm)]
  show CTree.BinaryOperation i1 .Sub
    (substituteT c.nodeId v (.Input i2 ind2))
    (substituteT c.nodeId v rhs) = _
  congr 1
  rw [substituteT_eq]
  rw [if_neg ?_]
  intro hcon
  have hcF : c ∈ forestN s := by
    rw [forestN]
    exact List.mem_append_left _ (List.mem_append_left _ hcroots)
  have hEq := hinv.coh _ hlhsF c hcF hcon
  have hdeg : c.degree ≤ 1 := by rw [← hEq, degree_input]
  omega

theorem constraint_in_forest {s : LowerState} {w : CTree}
    (hw : w ∈ s.base_constraints ++ s.ext_constraints) : w ∈ forestN s := by
  rw [forestN]
  rcases List.mem_append.mp hw with h | h
  · exact List.mem_append_left _ (List.mem_append_right _
      (mem_all_nodes_multi h (mem_all_nodes_self _)))
  · exact List.mem_append_right _
      (mem_all_nodes_multi h (mem_all_nodes_self _))

theorem lower_step_inv {d : Int} {nb ne : Nat} {s : LowerState} {c : CTree}
    (hd : 2 ≤ d) (hinv : LInv d nb ne s) (hcand : Candidate s.roots d c) :
    LInv d nb ne (lower_step nb ne s c) ∧
    cntM (lower_step nb ne s c).roots < cntM s.roots := by
  obtain ⟨⟨hnode, hh2m, hh2d, hcm⟩, hc1, hc2⟩ := candidate_elim hcand
  have hcroots : c ∈ all_nodes_in_multicircuit s.roots :=
    mem_multi_trans hh2m hcm
  have hcd : 2 ≤ c.degree := by omega
  have hcF : c ∈ forestN s := by
    rw [forestN]
    exact List.mem_append_left _ (List.mem_append_left _ hcroots)
  have hoccF : ∀ u ∈ forestN s, u.nodeId = c.nodeId → u = c :=
    fun u hu hh => hinv.coh u hu c hcF hh
  have hoccT : ∀ t ∈ s.roots, ∀ u ∈ all_nodes_in_circuit t,
      u.nodeId = c.nodeId → u = c := by
    intro t ht u hu hh
    refine hoccF u ?_ hh
    rw [forestN]
    exact List.mem_append_left _ (List.mem_append_left _
      (mem_all_nodes_multi ht hu))
  have hoccW : ∀ w ∈ s.base_constraints ++ s.ext_constraints,
      ∀ i1 i2 ind2 rhs,
      w = CTree.BinaryOperation i1 .Sub (.Input i2 ind2) rhs →
      ∀ u ∈ all_nodes_in_circuit rhs, u.nodeId = c.nodeId → u = c := by
    intro w hw i1 i2 ind2 rhs hs u hu hh
    exact hoccF u (rhs_nodes_in_forest hinv hw hs hu) hh
  obtain ⟨t0, ht0, hct0⟩ : ∃ t0 ∈ s.roots, c ∈ all_nodes_in_circuit t0 := by
    rw [all_nodes_in_multicircuit, List.mem_flatMap] at hcroots
    exact hcroots
  cases hib : c.evaluates_to_base_element with
  | true =>
    have hstep : lower_step nb ne s c =
        ⟨s.roots.map (substituteT c.nodeId (.Input s.next_id (SRI.BaseRow (nb + s.base_constraints.length)))),
          s.base_constraints.map (substituteT c.nodeId (.Input s.next_id (SRI.BaseRow (nb + s.base_constraints.length)))) ++ [CTree.BinaryOperation (s.next_id + 1) .Sub (.Input s.next_id (SRI.BaseRow (nb + s.base_constraints.length))) c],
          s.ext_constraints.map (substituteT c.nodeId (.Input s.next_id (SRI.BaseRow (nb + s.base_constraints.length)))),
          s.next_id + 2⟩ := by
      simp [lower_step, hib]
    rw [hstep]
    have hsub : ∀ u ∈ forestN
        ⟨s.roots.map (substituteT c.nodeId (.Input s.next_id (SRI.BaseRow (nb + s.base_constraints.length)))),
          s.base_constraints.map (substituteT c.nodeId (.Input s.next_id (SRI.BaseRow (nb + s.base_constraints.length)))) ++ [CTree.BinaryOperation (s.next_id + 1) .Sub (.Input s.next_id (SRI.BaseRow (nb + s.base_constraints.length))) c], s.ext_constraints.map (substituteT c.nodeId (.Input s.next_id (SRI.BaseRow (nb + s.base_constraints.length)))), s.next_id + 2⟩,
        StepNode s c (.Input s.next_id (SRI.BaseRow (nb + s.base_constraints.length)))
          (.BinaryOperation (s.next_id + 1) .Sub
            (.Input s.next_id (SRI.BaseRow (nb + s.base_constraints.length))) c) u := by
      intro u hu
      rw [forestN] at hu
      rcases List.mem_append.mp hu with hu1 | hu1
      · rcases List.mem_append.mp hu1 with hu2 | hu2
        · rcases allM_sub_cases hu2 with h | ⟨u0, hm, hne, he⟩
          · have h2 : u ∈ [CTree.Input s.next_id (SRI.BaseRow (nb + s.base_constraints.length))] := h
            rw [List.mem_singleton] at h2
            exact Or.inl h2
          · refine Or.inr (Or.inr (Or.inr ⟨u0, ?_, hne, he⟩))
            rw [forestN]
            exact List.mem_append_left _ (List.mem_append_left _ hm)
        · rcases allM_append.mp hu2 with h3 | h3
          · rcases allM_sub_cases h3 with h | ⟨u0, hm, hne, he⟩
            · have h2 : u ∈ [CTree.Input s.next_id (SRI.BaseRow (nb + s.base_constraints.length))] := h
              rw [List.mem_singleton] at h2
              exact Or.inl h2
            · refine Or.inr (Or.inr (Or.inr ⟨u0, ?_, hne, he⟩))
              rw [forestN]
              exact List.mem_append_left _ (List.mem_append_right _ hm)
          · have h4 := allM_single h3
            rw [all_nodes_in_circuit] at h4
            simp only [List.mem_append, List.mem_singleton] at h4
            rcases h4 with (h5 | h5) | h5
            · have h6 : u ∈ [CTree.Input s.next_id (SRI.BaseRow (nb + s.base_constraints.length))] := h5
              rw [List.mem_singleton] at h6
              exact Or.inl h6
            · exact Or.inr (Or.inr (Or.inl h5))
            · exact Or.inr (Or.inl h5)
      · rcases allM_sub_cases hu1 with h | ⟨u0, hm, hne, he⟩
        · have h2 : u ∈ [CTree.Input s.next_id (SRI.BaseRow (nb + s.base_constraints.length))] := h
          rw [List.mem_singleton] at h2
          exact Or.inl h2
        · refine Or.inr (Or.inr (Or.inr ⟨u0, ?_, hne, he⟩))
          rw [forestN]
          exact List.mem_append_right _ hm
    refine ⟨⟨?_, ?_, ?_, ?_, ?_⟩, ?_⟩
    · intro u1 hq1 u2 hq2 hidq
      exact step_coh_core (SRI.BaseRow (nb + s.base_constraints.length)) hinv hcroots hcd (hsub u1 hq1)
        (hsub u2 hq2) hidq
    · intro u hu
      exact step_fresh_core (SRI.BaseRow (nb + s.base_constraints.length)) hinv (hsub u hu) hcroots
    · intro k hk
      have hklen : k < s.base_constraints.length + 1 := by simpa using hk
      by_cases hlt : k < s.base_constraints.length
      · obtain ⟨i1, i2, rhs, hget, hevb, hdeg⟩ := hinv.cbase k hlt
        have hwmem : (CTree.BinaryOperation i1 .Sub
            (.Input i2 (.BaseRow (nb + k))) rhs) ∈
            s.base_constraints ++ s.ext_constraints :=
          List.mem_append_left _ (List.getElem?_mem hget)
        refine ⟨i1, i2, substituteT c.nodeId
          (.Input s.next_id (SRI.BaseRow (nb + s.base_constraints.length))) rhs, ?_, ?_, ?_⟩
        · show (s.base_constraints.map (substituteT c.nodeId
              (.Input s.next_id (SRI.BaseRow (nb + s.base_constraints.length)))) ++
              [CTree.BinaryOperation (s.next_id + 1) .Sub
                (.Input s.next_id (SRI.BaseRow (nb + s.base_constraints.length))) c])[k]? = _
          rw [List.getElem?_append_left (by rw [List.length_map]; exact hlt)]
          rw [List.getElem?_map, hget]
          show some (substituteT c.nodeId (.Input s.next_id (SRI.BaseRow (nb + s.base_constraints.length))) _) = _
          rw [subst_constraint_shape hinv hcroots hcd _ hwmem rfl]
        · rw [evb_substituteT (by rw [evb_input, hib]; rfl)
            (hoccW _ hwmem _ _ _ _ rfl)]
          exact hevb
        · exact le_trans (degree_substituteT_le (degree_input _ _) hcd
            (hoccW _ hwmem _ _ _ _ rfl)) hdeg
      · have hke : k = s.base_constraints.length := by omega
        subst hke
        refine ⟨s.next_id + 1, s.next_id, c, ?_, hib, hc2⟩
        show (s.base_constraints.map (substituteT c.nodeId
            (.Input s.next_id (SRI.BaseRow (nb + s.base_constraints.length)))) ++
            [CTree.BinaryOperation (s.next_id + 1) .Sub
              (.Input s.next_id (SRI.BaseRow (nb + s.base_constraints.length))) c])[s.base_constraints.length]? = _
        rw [List.getElem?_append_right (by rw [List.length_map])]
        rw [List.length_map, Nat.sub_self]
        rfl
    · intro k hk
      have hklen : k < s.ext_constraints.length := by simpa using hk
      obtain ⟨i1, i2, rhs, hget, hevb, hdeg⟩ := hinv.cext k hklen
      have hwmem : (CTree.BinaryOperation i1 .Sub
          (.Input i2 (.ExtRow (ne + k))) rhs) ∈
          s.base_constraints ++ s.ext_constraints :=
        List.mem_append_right _ (List.getElem?_mem hget)
      refine ⟨i1, i2, substituteT c.nodeId
        (.Input s.next_id (SRI.BaseRow (nb + s.base_constraints.length))) rhs, ?_, ?_, ?_⟩
      · show (s.ext_constraints.map (substituteT c.nodeId
            (.Input s.next_id (SRI.BaseRow (nb + s.base_constraints.length)))))[k]? = _
        rw [List.getElem?_map, hget]
        show some (substituteT c.nodeId (.Input s.next_id (SRI.BaseRow (nb + s.base_constraints.length))) _) = _
        rw [subst_constraint_shape hinv hcroots hcd _ hwmem rfl]
      · rw [evb_substituteT (by rw [evb_input, hib]; rfl)
          (hoccW _ hwmem _ _ _ _ rfl)]
        exact hevb
      · exact le_trans (degree_substituteT_le (degree_input _ _) hcd
          (hoccW _ hwmem _ _ _ _ rfl)) hdeg
    · intro u hu w hw
      have hw2 : w ∈ (s.base_constraints.map (substituteT c.nodeId (.Input s.next_id (SRI.BaseRow (nb + s.base_constraints.length)))) ++ [CTree.BinaryOperation (s.next_id + 1) .Sub (.Input s.next_id (SRI.BaseRow (nb + s.base_constraints.length))) c]) ++ (s.ext_constraints.map (substituteT c.nodeId (.Input s.next_id (SRI.BaseRow (nb + s.base_constraints.length))))) := hw
      have hucases := allM_sub_cases (L := s.roots) hu
      have hwcases : (∃ w0 ∈ s.base_constraints ++ s.ext_constraints,
          w = substituteT c.nodeId (.Input s.next_id (SRI.BaseRow (nb + s.base_constraints.length))) w0) ∨
          w = .BinaryOperation (s.next_id + 1) .Sub
            (.Input s.next_id (SRI.BaseRow (nb + s.base_constraints.length))) c := by
        rcases List.mem_append.mp hw2 with hw3 | hw3
        · rcases List.mem_append.mp hw3 with hw4 | hw4
          · rw [List.mem_map] at hw4
            obtain ⟨w0, hw0, rfl⟩ := hw4
            exact Or.inl ⟨w0, List.mem_append_left _ hw0, rfl⟩
          · rw [List.mem_singleton] at hw4
            exact Or.inr hw4
        · rw [List.mem_map] at hw3
          obtain ⟨w0, hw0, rfl⟩ := hw3
          exact Or.inl ⟨w0, List.mem_append_right _ hw0, rfl⟩
      rcases hwcases with ⟨w0, hw0m, rfl⟩ | rfl
      · obtain ⟨i1, i2, ind2, rhs, rfl⟩ := constraint_shape_of_mem hinv hw0m
        rw [subst_constraint_shape hinv hcroots hcd _ hw0m rfl]
        have hw0F : (CTree.BinaryOperation i1 .Sub (.Input i2 ind2) rhs) ∈
            forestN s := constraint_in_forest hw0m
        have hi1lt : i1 < s.next_id := hinv.fresh _ hw0F
        have hrhsF : rhs ∈ forestN s :=
          rhs_nodes_in_forest hinv hw0m rfl (mem_all_nodes_self rhs)
        have hrhslt : rhs.nodeId < s.next_id := hinv.fresh rhs hrhsF
        have hsepc := hinv.sep c hcroots _ hw0m
        have hrhsne : ¬ rhs.nodeId = c.nodeId :=
          fun hcon => (hsepc.2 i1 .Sub (.Input i2 ind2) rhs rfl) hcon.symm
        rcases hucases with h | ⟨u0, hm0, hne0, rfl⟩
        · have h2 : u ∈ [CTree.Input s.next_id (SRI.BaseRow (nb + s.base_constraints.length))] := h
          rw [List.mem_singleton] at h2
          subst h2
          constructor
          · intro hcon
            have h5 : s.next_id = i1 := hcon
            omega
          · intro i op a b heq
            injection heq with he1 he2 he3 he4
            subst he4
            rw [substituteT_nodeId hrhsne]
            intro hcon
            have h5 : s.next_id = rhs.nodeId := hcon
            omega
        · have hsepu := hinv.sep u0 hm0 _ hw0m
          constructor
          · rw [substituteT_nodeId hne0]
            exact hsepu.1
          · intro i op a b heq
            injection heq with he1 he2 he3 he4
            subst he4
            rw [substituteT_nodeId hrhsne, substituteT_nodeId hne0]
            exact hsepu.2 i1 .Sub (.Input i2 ind2) rhs rfl
      · rcases hucases with h | ⟨u0, hm0, hne0, rfl⟩
        · have h2 : u ∈ [CTree.Input s.next_id (SRI.BaseRow (nb + s.base_constraints.length))] := h
          rw [List.mem_singleton] at h2
          subst h2
          constructor
          · intro hcon
            have h5 : s.next_id = s.next_id + 1 := hcon
            omega
          · intro i op a b heq
            injection heq with he1 he2 he3 he4
            subst he4
            intro hcon
            have h5 : s.next_id = c.nodeId := hcon
            have h6 := hinv.fresh c hcF
            omega
        · constructor
          · rw [substituteT_nodeId hne0]
            intro hcon
            have h5 : u0.nodeId = s.next_id + 1 := hcon
            have h6 := hinv.fresh u0 (by
              rw [forestN]
              exact List.mem_append_left _ (List.mem_append_left _ hm0))
            omega
          · intro i op a b heq
            injection heq with he1 he2 he3 he4
            subst he4
            rw [substituteT_nodeId hne0]
            exact hne0
    · show cntM (s.roots.map (substituteT c.nodeId
        (.Input s.next_id (SRI.BaseRow (nb + s.base_constraints.length))))) < cntM s.roots
      exact cntM_map_lt
        (fun t ht => cnt_substituteT_le (degree_input _ _) (cnt_input _ _)
          hcd (hoccT t ht)) ht0
        (cnt_substituteT_lt (degree_input _ _) (cnt_input _ _) hcd rfl
          (hoccT t0 ht0) hct0)

  | false =>
    have hstep : lower_step nb ne s c =
        ⟨s.roots.map (substituteT c.nodeId (.Input s.next_id (SRI.ExtRow (ne + s.ext_constraints.length)))),
          s.base_constraints.map (substituteT c.nodeId (.Input s.next_id (SRI.ExtRow (ne + s.ext_constraints.length)))),
          s.ext_constraints.map (substituteT c.nodeId (.Input s.next_id (SRI.ExtRow (ne + s.ext_constraints.length)))) ++ [CTree.BinaryOperation (s.next_id + 1) .Sub (.Input s.next_id (SRI.ExtRow (ne + s.ext_constraints.length))) c],
          s.next_id + 2⟩ := by
      simp [lower_step, hib]
    rw [hstep]
    have hsub : ∀ u ∈ forestN
        ⟨s.roots.map (substituteT c.nodeId (.Input s.next_id (SRI.ExtRow (ne + s.ext_constraints.length)))),
          s.base_constraints.map (substituteT c.nodeId (.Input s.next_id (SRI.ExtRow (ne + s.ext_constraints.length)))), s.ext_constraints.map (substituteT c.nodeId (.Input s.next_id (SRI.ExtRow (ne + s.ext_constraints.length)))) ++ [CTree.BinaryOperation (s.next_id + 1) .Sub (.Input s.next_id (SRI.ExtRow (ne + s.ext_constraints.length))) c], s.next_id + 2⟩,
        StepNode s c (.Input s.next_id (SRI.ExtRow (ne + s.ext_constraints.length)))
          (.BinaryOperation (s.next_id + 1) .Sub
            (.Input s.next_id (SRI.ExtRow (ne + s.ext_constraints.length))) c) u := by
      intro u hu
      rw [forestN] at hu
      rcases List.mem_append.mp hu with hu1 | hu1
      · rcases List.mem_append.mp hu1 with hu2 | hu2
        · rcases allM_sub_cases hu2 with h | ⟨u0, hm, hne, he⟩
          · have h2 : u ∈ [CTree.Input s.next_id (SRI.ExtRow (ne + s.ext_constraints.length))] := h
            rw [List.mem_singleton] at h2
            exact Or.inl h2
          · refine Or.inr (Or.inr (Or.inr ⟨u0, ?_, hne, he⟩))
            rw [forestN]
            exact List.mem_append_left _ (List.mem_append_left _ hm)
        · rcases allM_sub_cases hu2 with h | ⟨u0, hm, hne, he⟩
          · have h2 : u ∈ [CTree.Input s.next_id (SRI.ExtRow (ne + s.ext_constraints.length))] := h
            rw [List.mem_singleton] at h2
            exact Or.inl h2
          · refine Or.inr (Or.inr (Or.inr ⟨u0, ?_, hne, he⟩))
            rw [forestN]
            exact List.mem_append_left _ (List.mem_append_right _ hm)
      · rcases allM_append.mp hu1 with h3 | h3
        · rcases allM_sub_cases h3 with h | ⟨u0, hm, hne, he⟩
          · have h2 : u ∈ [CTree.Input s.next_id (SRI.ExtRow (ne + s.ext_constraints.length))] := h
            rw [List.mem_singleton] at h2
            exact Or.inl h2
          · refine Or.inr (Or.inr (Or.inr ⟨u0, ?_, hne, he⟩))
            rw [forestN]
            exact List.mem_append_right _ hm
        · have h4 := allM_single h3
          rw [all_nodes_in_circuit] at h4
          simp only [List.mem_append, List.mem_singleton] at h4
          rcases h4 with (h5 | h5) | h5
          · have h6 : u ∈ [CTree.Input s.next_id (SRI.ExtRow (ne + s.ext_constraints.length))] := h5
            rw [List.mem_singleton] at h6
            exact Or.inl h6
          · exact Or.inr (Or.inr (Or.inl h5))
          · exact Or.inr (Or.inl h5)
    refine ⟨⟨?_, ?_, ?_, ?_, ?_⟩, ?_⟩
    · intro u1 hq1 u2 hq2 hidq
      exact step_coh_core (SRI.ExtRow (ne + s.ext_constraints.length)) hinv hcroots hcd (hsub u1 hq1)
        (hsub u2 hq2) hidq
    · intro u hu
      exact step_fresh_core (SRI.ExtRow (ne + s.ext_constraints.length)) hinv (hsub u hu) hcroots
    · intro k hk
      have hklen : k < s.base_constraints.length := by simpa using hk
      obtain ⟨i1, i2, rhs, hget, hevb, hdeg⟩ := hinv.cbase k hklen
      have hwmem : (CTree.BinaryOperation i1 .Sub
          (.Input i2 (.BaseRow (nb + k))) rhs) ∈
          s.base_constraints ++ s.ext_constraints :=
        List.mem_append_left _ (List.getElem?_mem hget)
      refine ⟨i1, i2, substituteT c.nodeId
        (.Input s.next_id (SRI.ExtRow (ne + s.ext_constraints.length))) rhs, ?_, ?_, ?_⟩
      · show (s.base_constraints.map (substituteT c.nodeId
            (.Input s.next_id (SRI.ExtRow (ne + s.ext_constraints.length)))))[k]? = _
        rw [List.getElem?_map, hget]
        show some (substituteT c.nodeId (.Input s.next_id (SRI.ExtRow (ne + s.ext_constraints.length))) _) = _
        rw [subst_constraint_shape hinv hcroots hcd _ hwmem rfl]
      · rw [evb_substituteT (by rw [evb_input, hib]; rfl)
          (hoccW _ hwmem _ _ _ _ rfl)]
        exact hevb
      · exact le_trans (degree_substituteT_le (degree_input _ _) hcd
          (hoccW _ hwmem _ _ _ _ rfl)) hdeg
    · intro k hk
      have hklen : k < s.ext_constraints.length + 1 := by simpa using hk
      by_cases hlt : k < s.ext_constraints.length
      · obtain ⟨i1, i2, rhs, hget, hevb, hdeg⟩ := hinv.cext k hlt
        have hwmem : (CTree.BinaryOperation i1 .Sub
            (.Input i2 (.ExtRow (ne + k))) rhs) ∈
            s.base_constraints ++ s.ext_constraints :=
          List.mem_append_right _ (List.getElem?_mem hget)
        refine ⟨i1, i2, substituteT c.nodeId
          (.Input s.next_id (SRI.ExtRow (ne + s.ext_constraints.length))) rhs, ?_, ?_, ?_⟩
        · show (s.ext_constraints.map (substituteT c.nodeId
              (.Input s.next_id (SRI.ExtRow (ne + s.ext_constraints.length)))) ++
              [CTree.BinaryOperation (s.next_id + 1) .Sub
                (.Input s.next_id (SRI.ExtRow (ne + s.ext_constraints.length))) c])[k]? = _
          rw [List.getElem?_append_left (by rw [List.length_map]; exact hlt)]
          rw [List.getElem?_map, hget]
          show some (substituteT c.nodeId (.Input s.next_id (SRI.ExtRow (ne + s.ext_constraints.length))) _) = _
          rw [subst_constraint_shape hinv hcroots hcd _ hwmem rfl]
        · rw [evb_substituteT (by rw [evb_input, hib]; rfl)
            (hoccW _ hwmem _ _ _ _ rfl)]
          exact hevb
        · exact le_trans (degree_substituteT_le (degree_input _ _) hcd
            (hoccW _ hwmem _ _ _ _ rfl)) hdeg
      · have hke : k = s.ext_constraints.length := by omega
        subst hke
        refine ⟨s.next_id + 1, s.next_id, c, ?_, hib, hc2⟩
        show (s.ext_constraints.map (substituteT c.nodeId
            (.Input s.next_id (SRI.ExtRow (ne + s.ext_constraints.length)))) ++
            [CTree.BinaryOperation (s.next_id + 1) .Sub
              (.Input s.next_id (SRI.ExtRow (ne + s.ext_constraints.length))) c])[s.ext_constraints.length]? = _
        rw [List.getElem?_append_right (by rw [List.length_map])]
        rw [List.length_map, Nat.sub_self]
        rfl
    · intro u hu w hw
      have hw2 : w ∈ (s.base_constraints.map (substituteT c.nodeId (.Input s.next_id (SRI.ExtRow (ne + s.ext_constraints.length))))) ++ (s.ext_constraints.map (substituteT c.nodeId (.Input s.next_id (SRI.ExtRow (ne + s.ext_constraints.length)))) ++ [CTree.BinaryOperation (s.next_id + 1) .Sub (.Input s.next_id (SRI.ExtRow (ne + s.ext_constraints.length))) c]) := hw
      have hucases := allM_sub_cases (L := s.roots) hu
      have hwcases : (∃ w0 ∈ s.base_constraints ++ s.ext_constraints,
          w = substituteT c.nodeId (.Input s.next_id (SRI.ExtRow (ne + s.ext_constraints.length))) w0) ∨
          w = .BinaryOperation (s.next_id + 1) .Sub
            (.Input s.next_id (SRI.ExtRow (ne + s.ext_constraints.length))) c := by
        rcases List.mem_append.mp hw2 with hw3 | hw3
        · rw [List.mem_map] at hw3
          obtain ⟨w0, hw0, rfl⟩ := hw3
          exact Or.inl ⟨w0, List.mem_append_left _ hw0, rfl⟩
        · rcases List.mem_append.mp hw3 with hw4 | hw4
          · rw [List.mem_map] at hw4
            obtain ⟨w0, hw0, rfl⟩ := hw4
            exact Or.inl ⟨w0, List.mem_append_right _ hw0, rfl⟩
          · rw [List.mem_singleton] at hw4
            exact Or.inr hw4
      rcases hwcases with ⟨w0, hw0m, rfl⟩ | rfl
      · obtain ⟨i1, i2, ind2, rhs, rfl⟩ := constraint_shape_of_mem hinv hw0m
        rw [subst_constraint_shape hinv hcroots hcd _ hw0m rfl]
        have hw0F : (CTree.BinaryOperation i1 .Sub (.Input i2 ind2) rhs) ∈
            forestN s := constraint_in_forest hw0m
        have hi1lt : i1 < s.next_id := hinv.fresh _ hw0F
        have hrhsF : rhs ∈ forestN s :=
          rhs_nodes_in_forest hinv hw0m rfl (mem_all_nodes_self rhs)
        have hrhslt : rhs.nodeId < s.next_id := hinv.fresh rhs hrhsF
        have hsepc := hinv.sep c hcroots _ hw0m
        have hrhsne : ¬ rhs.nodeId = c.nodeId :=
          fun hcon => (hsepc.2 i1 .Sub (.Input i2 ind2) rhs rfl) hcon.symm
        rcases hucases with h | ⟨u0, hm0, hne0, rfl⟩
        · have h2 : u ∈ [CTree.Input s.next_id (SRI.ExtRow (ne + s.ext_constraints.length))] := h
          rw [List.mem_singleton] at h2
          subst h2
          constructor
          · intro hcon
            have h5 : s.next_id = i1 := hcon
            omega
          · intro i op a b heq
            injection heq with he1 he2 he3 he4
            subst he4
            rw [substituteT_nodeId hrhsne]
            intro hcon
            have h5 : s.next_id = rhs.nodeId := hcon
            omega
        · have hsepu := hinv.sep u0 hm0 _ hw0m
          constructor
          · rw [substituteT_nodeId hne0]
            exact hsepu.1
          · intro i op a b heq
            injection heq with he1 he2 he3 he4
            subst he4
            rw [substituteT_nodeId hrhsne, substituteT_nodeId hne0]
            exact hsepu.2 i1 .Sub (.Input i2 ind2) rhs rfl
      · rcases hucases with h | ⟨u0, hm0, hne0, rfl⟩
        · have h2 : u ∈ [CTree.Input s.next_id (SRI.ExtRow (ne + s.ext_constraints.length))] := h
          rw [List.mem_singleton] at h2
          subst h2
          constructor
          · intro hcon
            have h5 : s.next_id = s.next_id + 1 := hcon
            omega
          · intro i op a b heq
            injection heq with he1 he2 he3 he4
            subst he4
            intro hcon
            have h5 : s.next_id = c.nodeId := hcon
            have h6 := hinv.fresh c hcF
            omega
        · constructor
          · rw [substituteT_nodeId hne0]
            intro hcon
            have h5 : u0.nodeId = s.next_id + 1 := hcon
            have h6 := hinv.fresh u0 (by
              rw [forestN]
              exact List.mem_append_left _ (List.mem_append_left _ hm0))
            omega
          · intro i op a b heq
            injection heq with he1 he2 he3 he4
            subst he4
            rw [substituteT_nodeId hne0]
            exact hne0
    · show cntM (s.roots.map (substituteT c.nodeId
        (.Input s.next_id (SRI.ExtRow (ne + s.ext_constraints.length))))) < cntM s.roots
      exact cntM_map_lt
        (fun t ht => cnt_substituteT_le (degree_input _ _) (cnt_input _ _)
          hcd (hoccT t ht)) ht0
        (cnt_substituteT_lt (degree_input _ _) (cnt_input _ _) hcd rfl
          (hoccT t0 ht0) hct0)


theorem cnt_le_cntM {rs : List CTree} {t : CTree} (h : t ∈ rs) :
    cnt t ≤ cntM rs := by
  induction rs with
  | nil => cases h
  | cons a l ih =>
    simp only [cntM, List.map_cons, List.sum_cons]
    rcases List.mem_cons.mp h with rfl | h2
    · exact Nat.le_add_right _ _
    · have h3 := ih h2
      simp only [cntM] at h3
      omega

theorem multidegree_le_of_cnt_zero {d : Int} {rs : List CTree} (hd : 1 ≤ d)
    (h0 : cntM rs = 0) : multicircuit_degree rs ≤ d := by
  by_contra hcon
  push_neg at hcon
  obtain ⟨t, ht, htd⟩ := exists_of_multidegree (by omega) hcon
  have h2 : 2 ≤ t.degree := by omega
  have h3 := cnt_pos h2
  have h4 := cnt_le_cntM ht
  omega

theorem lower_loop_inv {d : Int} {nb ne : Nat} (hd : 2 ≤ d)
    (pick : List CTree → CTree)
    (hpick : ∀ rs, d < multicircuit_degree rs → Candidate rs d (pick rs)) :
    ∀ fuel : Nat, ∀ s : LowerState, LInv d nb ne s → cntM s.roots ≤ fuel →
      LInv d nb ne (lower_loop d nb ne pick fuel s) ∧
      multicircuit_degree (lower_loop d nb ne pick fuel s).roots ≤ d := by
  intro fuel
  induction fuel with
  | zero =>
    intro s hinv hle
    rw [lower_loop]
    exact ⟨hinv, multidegree_le_of_cnt_zero (by omega) (by omega)⟩
  | succ n ih =>
    intro s hinv hle
    rw [lower_loop]
    by_cases hdeg : d < multicircuit_degree s.roots
    · rw [if_pos hdeg]
      obtain ⟨hinv2, hlt⟩ := lower_step_inv hd hinv (hpick s.roots hdeg)
      exact ih _ hinv2 (by omega)
    · rw [if_neg hdeg]
      exact ⟨hinv, by omega⟩

/-- **C4.** For every multicircuit whose nodes form a coherent arena (node
ids determine nodes, all ids below the id counter) and every target degree
`d > 1`, `lower_to_degree` terminates — a fuel of `cntM roots`, the number
of subtree occurrences of degree at least 2, suffices for the `while`
loop — and afterwards every root of the multicircuit and every returned
substitution constraint has total degree at most `d`, and every returned
constraint is structurally the subtraction `new_variable − replaced`,
where `new_variable` is a freshly allocated base-column input
(`BaseRow (num_base_cols + k)` for the `k`-th new base constraint) when
the replaced subcircuit evaluates to a base-field element, and a freshly
allocated extension-column input (`ExtRow (num_ext_cols + k)`) otherwise.
The node the Rust `pick_node_to_substitute` returns depends on `HashSet`
iteration order; the theorem therefore holds for every pick function that
returns some element of the candidate list, which the concrete `pickF`
(and, by `pickF_valid`, any Rust run) satisfies. -/
theorem lower_to_degree_spec (d : Int) (nb ne : Nat) (hd : 1 < d)
    (pick : List CTree → CTree)
    (hpick : ∀ rs, d < multicircuit_degree rs → Candidate rs d (pick rs))
    (roots : List CTree) (fresh : Nat)
    (hcoh : ∀ u1 ∈ all_nodes_in_multicircuit roots,
      ∀ u2 ∈ all_nodes_in_multicircuit roots, u1.nodeId = u2.nodeId → u1 = u2)
    (hfresh : ∀ u ∈ all_nodes_in_multicircuit roots, u.nodeId < fresh)
    (fuel : Nat) (hfuel : cntM roots ≤ fuel) :
    ∀ s2 : LowerState, s2 = lower_to_degree d nb ne pick fuel roots fresh →
    multicircuit_degree s2.roots ≤ d ∧
    (∀ t ∈ s2.roots, t.degree ≤ d) ∧
    (∀ w ∈ s2.base_constraints ++ s2.ext_constraints, w.degree ≤ d) ∧
    (∀ k : Nat, k < s2.base_constraints.length →
      ∃ i1 i2 rhs, s2.base_constraints[k]? =
        some (.BinaryOperation i1 .Sub (.Input i2 (.BaseRow (nb + k))) rhs) ∧
        rhs.evaluates_to_base_element = true ∧ rhs.degree ≤ d) ∧
    (∀ k : Nat, k < s2.ext_constraints.length →
      ∃ i1 i2 rhs, s2.ext_constraints[k]? =
        some (.BinaryOperation i1 .Sub (.Input i2 (.ExtRow (ne + k))) rhs) ∧
        rhs.evaluates_to_base_element = false ∧ rhs.degree ≤ d) := by
  intro s2 hs2
  have hd2 : 2 ≤ d := by omega
  have hinv0 : LInv d nb ne ⟨roots, [], [], fresh⟩ := by
    refine ⟨?_, ?_, ?_, ?_, ?_⟩
    · intro u1 h1 u2 h2 h12
      have h1b : u1 ∈ all_nodes_in_multicircuit roots := by
        rw [forestN] at h1
        simpa [all_nodes_in_multicircuit] using h1
      have h2b : u2 ∈ all_nodes_in_multicircuit roots := by
        rw [forestN] at h2
        simpa [all_nodes_in_multicircuit] using h2
      exact hcoh u1 h1b u2 h2b h12
    · intro u hu
      have hub : u ∈ all_nodes_in_multicircuit roots := by
        rw [forestN] at hu
        simpa [all_nodes_in_multicircuit] using hu
      exact hfresh u hub
    · intro k hk
      exact absurd hk (by simp)
    · intro k hk
      exact absurd hk (by simp)
    · intro u hu w hw
      exact absurd hw (by simp)
  obtain ⟨hinvF, hdegF⟩ :=
    lower_loop_inv hd2 pick hpick fuel ⟨roots, [], [], fresh⟩ hinv0 hfuel
  have hs2b : s2 = lower_loop d nb ne pick fuel ⟨roots, [], [], fresh⟩ := hs2
  rw [← hs2b] at hinvF hdegF
  refine ⟨hdegF, ?_, ?_, hinvF.cbase, hinvF.cext⟩
  · intro t ht
    exact le_trans (degree_le_multidegree ht) hdegF
  · intro w hw
    rcases List.mem_append.mp hw with hwb | hwe
    · rw [List.mem_iff_getElem?] at hwb
      obtain ⟨k, hk⟩ := hwb
      have hklen : k < s2.base_constraints.length := by
        by_contra hcon
        rw [List.getElem?_eq_none (by omega)] at hk
        exact Option.noConfusion hk
      obtain ⟨i1, i2, rhs, hget, -, hdr⟩ := hinvF.cbase k hklen
      rw [hget] at hk
      rw [(Option.some.inj hk).symm, degree_binop]
      show max (CTree.Input i2 (.BaseRow (nb + k))).degree rhs.degree ≤ d
      rw [degree_input]
      exact max_le (by omega) hdr
    · rw [List.mem_iff_getElem?] at hwe
      obtain ⟨k, hk⟩ := hwe
      have hklen : k < s2.ext_constraints.length := by
        by_contra hcon
        rw [List.getElem?_eq_none (by omega)] at hk
        exact Option.noConfusion hk
      obtain ⟨i1, i2, rhs, hget, -, hdr⟩ := hinvF.cext k hklen
      rw [hget] at hk
      rw [(Option.some.inj hk).symm, degree_binop]
      show max (CTree.Input i2 (.ExtRow (ne + k))).degree rhs.degree ≤ d
      rw [degree_input]
      exact max_le (by omega) hdr

/-- Witness for C4: a one-root multicircuit `(x·x)·x` of degree 3 over one
base column is lowered to target degree 2 with fuel `cntM = 2`. -/
theorem lower_to_degree_spec_witness :
    multicircuit_degree (lower_to_degree 2 0 0 (pickF 2) 2
      [CTree.BinaryOperation 2 .Mul
        (.BinaryOperation 1 .Mul (.Input 0 (.BaseRow 0))
          (.Input 0 (.BaseRow 0)))
        (.Input 0 (.BaseRow 0))] 3).roots ≤ 2 :=
  (lower_to_degree_spec 2 0 0 (by decide) (pickF 2)
    (fun rs h => pickF_valid (by decide) rs h)
    [CTree.BinaryOperation 2 .Mul
      (.BinaryOperation 1 .Mul (.Input 0 (.BaseRow 0))
        (.Input 0 (.BaseRow 0)))
      (.Input 0 (.BaseRow 0))] 3
    (by decide) (by decide) 2 (by decide) _ rfl).1

end TritonSpec
